import Mathlib

/-!
# coreth: atomic transactions in the block state machine

A shallow embedding of `plugin/evm/block.go` (`Block.Verify`, `Block.Accept`,
`Block.Reject`, `Block.Parent`).

* Identifiers (`ids.ID`, `common.Hash`) are natural numbers.
* Collaborators whose code is outside the embedded files (the block validator,
  the blockchain, the codec behind `extractAtomicTx`, the versioned database,
  shared memory) are fields of `VM`: each field gives the answer the
  collaborator returns for a call.
* Every operation returns its error, the block with its new status, the VM
  state it leaves, and the ordered list of collaborator calls it issued.
* The ancestor loop of `Verify` takes a fuel argument: `none` means the fuel
  ran out before the loop ended.

The second part embeds `plugin/evm/blocking_atomic_trie.go`; its conventions
are given where it starts.
-/

namespace Coreth

/-- Identifier type standing for `ids.ID` and `common.Hash` (32 bytes). -/
abbrev ID := Nat

/-- The four values of `choices.Status`. -/
inductive Status where
  | Unknown
  | Processing
  | Rejected
  | Accepted
  deriving DecidableEq, Repr

/-- Dynamic type of `Tx.UnsignedAtomicTx`, as seen by the type switch of `Verify`. -/
inductive TxKind where
  | importTx
  | exportTx
  | other
  deriving DecidableEq, Repr

/-- Signed atomic transaction: `ID()`, the dynamic type of its body, and the
result of `InputUTXOs()` (an `ids.Set`, kept as the list of its members). -/
structure Tx where
  id : ID
  kind : TxKind
  inputs : List ID
  deriving DecidableEq, Repr

/-- Set intersection test `ids.Set.Overlaps`. -/
def Overlaps (s t : List ID) : Bool :=
  s.any (fun u => t.contains u)

/-- The parts of `types.Block` that `block.go` reads. -/
structure EthBlock where
  hash : ID
  parentHash : ID
  number : Nat
  time : Nat
  deriving DecidableEq, Repr

/-- The struct `Block` of `block.go` (the `vm` pointer is passed separately). -/
structure Block where
  id : ID
  ethBlock : EthBlock
  status : Status
  deriving DecidableEq, Repr

/-- Result of `vm.extractAtomicTx`: an error, no atomic transaction, or one. -/
inductive Extracted where
  | error
  | none
  | tx (t : Tx)
  deriving DecidableEq, Repr

/-- Answers of the collaborators of `block.go`; `true` means the call returned
a nil error. -/
structure VM where
  /-- The global set `bonusBlocks`. -/
  bonusBlocks : List ID
  /-- The call `vm.GetBlockInternal(id)`; `none` when it returns an error. -/
  GetBlockInternal : ID → Option Block
  /-- The call `getBlockValidator(..).SyntacticVerify(b)`. -/
  SyntacticVerify : Block → Bool
  /-- The call `vm.chain.BlockChain().HasBlock(hash, number)`. -/
  HasBlock : ID → Nat → Bool
  /-- The call `vm.extractAtomicTx(ethBlock)`. -/
  extractAtomicTx : EthBlock → Extracted
  /-- The call `vm.chain.BlockState(ethBlock)`. -/
  BlockState : EthBlock → Bool
  /-- The call `vm.IsApricotPhase1(time)`. -/
  IsApricotPhase1 : Nat → Bool
  /-- The call `utx.SemanticVerify(vm, tx, phase1)`. -/
  SemanticVerify : Tx → Bool → Bool
  /-- The call `bc.Processor().Process(ethBlock, parentState, cfg)`, the parent
  state being the one of the given parent block. -/
  Process : EthBlock → EthBlock → Bool
  /-- The call `vm.chain.InsertChain([ethBlock])`. -/
  InsertChain : EthBlock → Bool
  /-- The call `vm.chain.Accept(ethBlock)`. -/
  chainAccept : EthBlock → Bool
  /-- The call `vm.acceptedBlockDB.Put(lastAcceptedKey, id)`. -/
  putLastAccepted : ID → Bool
  /-- The call `vm.db.Commit()`. -/
  dbCommit : Bool
  /-- The call `vm.writeAtomicTx(b, tx)`. -/
  writeAtomicTx : Block → Tx → Bool
  /-- The call `vm.db.CommitBatch()`. -/
  CommitBatch : Bool
  /-- The call `tx.UnsignedAtomicTx.Accept(vm.ctx, batch)`. -/
  txAccept : Tx → Bool

/-- Mutable state reached through the `vm` pointer. -/
structure VMState where
  /-- Identifiers of the transactions the mempool holds. -/
  mempool : List ID
  /-- Operation Log: accepted atomic transactions with their heights. -/
  opLog : List (Nat × Tx)
  /-- Value stored under `lastAcceptedKey`. -/
  lastAccepted : Option ID
  /-- Transactions whose operation set was applied to shared memory. -/
  sharedMemory : List Tx
  deriving DecidableEq, Repr

/-- Errors returned by `Verify` and `Accept`. An error produced by
`fmt.Errorf(".. %w", err)` is one constructor, whatever the wrapped cause;
`extractFailed` is the error of `extractAtomicTx`, returned as it is. -/
inductive Error where
  | syntacticFailed
  | errRejectedParent
  | extractFailed
  /-- The failed type assertion `ancestorIntf.(*Block)`. -/
  | notBlock
  | blockStateFailed
  | ancestorParseFailed
  | errConflictingAtomicInputs
  | errUnknownAtomicTx
  | semanticVerifyFailed
  | processingFailed
  | insertFailed
  | chainAcceptFailed
  | putLastAcceptedFailed
  | commitFailed
  | writeAtomicTxFailed
  | commitBatchFailed
  | txAcceptFailed
  deriving DecidableEq, Repr

/-- Calls issued on collaborators, in program order. -/
inductive Event where
  | syntacticVerify
  | getBlock (id : ID)
  | hasBlock (hash : ID) (number : Nat)
  | extractAtomicTx (hash : ID)
  | blockState (hash : ID)
  | ancestorTx (ancestor : ID)
  | semanticVerify (tx : ID)
  | process (hash : ID)
  | insertChain (hash : ID)
  | startCommit
  | abortCommit
  | chainAccept (hash : ID)
  | putLastAccepted (id : ID)
  | dbCommit
  | removeTx (tx : ID)
  | writeAtomicTx (tx : ID)
  | commitBatch (ok : Bool)
  | txAccept (tx : ID)
  | endBatch
  | rejectTx (tx : ID)
  deriving DecidableEq, Repr

/-- What an operation leaves behind. -/
structure Outcome where
  err : Option Error
  block : Block
  state : VMState
  trace : List Event
  deriving DecidableEq, Repr

/-- Value returned by `Block.Parent`: a `*Block`, or `missing.Block` carrying
the identifier that could not be resolved. -/
inductive ParentBlock where
  | block (b : Block)
  | missing (id : ID)
  deriving DecidableEq, Repr

/-- Method `Status()` of the parent: `missing.Block` reports `Unknown`. -/
def ParentBlock.Status : ParentBlock → Status
  | .block b => b.status
  | .missing _ => .Unknown

/-- Method `ID()` of the parent. -/
def ParentBlock.ID : ParentBlock → ID
  | .block b => b.id
  | .missing id => id

/-- The method `Block.Parent`. -/
def Parent (vm : VM) (b : Block) : ParentBlock :=
  match vm.GetBlockInternal b.ethBlock.parentHash with
  | some parentBlk => .block parentBlk
  | none => .missing b.ethBlock.parentHash

/-- The method `Block.Height`: the low 64 bits of the block number. -/
def Height (b : Block) : Nat :=
  b.ethBlock.number % 2 ^ 64

/-- The expression `b.Height()-1`, computed on `uint64`. -/
def prevHeight (b : Block) : Nat :=
  (Height b + 2 ^ 64 - 1) % 2 ^ 64

/-- The test `blkStatus == choices.Unknown || blkStatus == choices.Rejected`. -/
def unknownOrRejected (st : Status) : Bool :=
  st = .Unknown || st = .Rejected

/-- Outcome of `inputs.Overlaps(ancestorInputs)` under `if atx != nil`. -/
def conflictsWith (inputs : List ID) : Extracted → Bool
  | .tx atx => Overlaps inputs atx.inputs
  | _ => false

/-- The loop `for ancestor.Status() != choices.Accepted` of `Verify`, started
at `ancestor`. It returns the error that leaves `Verify` (or `none` when the
loop ends normally) and the calls issued; `none` when the fuel ran out. -/
def conflictWalk (vm : VM) (inputs : List ID) :
    Nat → Block → Option (Option Error × List Event)
  | 0, _ => none
  | fuel + 1, ancestor =>
    if ancestor.status = .Accepted then some (none, [])
    else
      match vm.extractAtomicTx ancestor.ethBlock with
      | .error => some (some .ancestorParseFailed, [.ancestorTx ancestor.id])
      | atx =>
        if conflictsWith inputs atx then
          some (some .errConflictingAtomicInputs, [.ancestorTx ancestor.id])
        else
          let ancestorIntf := Parent vm ancestor
          let calls := [Event.ancestorTx ancestor.id, .getBlock ancestor.ethBlock.parentHash]
          if unknownOrRejected ancestorIntf.Status then
            some (some .errRejectedParent, calls)
          else
            match ancestorIntf with
            | .missing _ => some (some .notBlock, calls)
            | .block next =>
              (conflictWalk vm inputs fuel next).map (fun r => (r.1, calls ++ r.2))

/-- The tail of `Verify` shared by all atomic blocks: `Process`, then
`InsertChain`. -/
def processAndInsert (vm : VM) (s : VMState) (b : Block) (parent : Block)
    (pre : List Event) : Outcome :=
  if !vm.Process b.ethBlock parent.ethBlock then
    ⟨some .processingFailed, b, s, pre ++ [.process b.ethBlock.hash]⟩
  else if !vm.InsertChain b.ethBlock then
    ⟨some .insertFailed, b, s,
      pre ++ [.process b.ethBlock.hash, .insertChain b.ethBlock.hash]⟩
  else
    ⟨none, b, s, pre ++ [.process b.ethBlock.hash, .insertChain b.ethBlock.hash]⟩

/-- The call of `SemanticVerify` that follows the type switch, then the tail. -/
def semanticThenProcess (vm : VM) (s : VMState) (b : Block) (parent : Block)
    (atomicTx : Tx) (pre : List Event) : Outcome :=
  if !vm.SemanticVerify atomicTx (vm.IsApricotPhase1 b.ethBlock.time) then
    ⟨some .semanticVerifyFailed, b, s, pre ++ [.semanticVerify atomicTx.id]⟩
  else
    processAndInsert vm s b parent (pre ++ [.semanticVerify atomicTx.id])

/-- The method `Block.Verify`. `none` only when the ancestor loop ran out of
fuel. -/
def Verify (vm : VM) (s : VMState) (fuel : Nat) (b : Block) : Option Outcome :=
  if !vm.SyntacticVerify b then
    some ⟨some .syntacticFailed, b, s, [.syntacticVerify]⟩
  else
    let ancestorIntf := Parent vm b
    let ancestorID := ancestorIntf.ID
    let number := prevHeight b
    let t1 := [Event.syntacticVerify, .getBlock b.ethBlock.parentHash,
      .hasBlock ancestorID number]
    if !vm.HasBlock ancestorID number then
      some ⟨some .errRejectedParent, b, s, t1⟩
    else
      let t2 := t1 ++ [.extractAtomicTx b.ethBlock.hash]
      match vm.extractAtomicTx b.ethBlock with
      | .error => some ⟨some .extractFailed, b, s, t2⟩
      | .none =>
        if !vm.InsertChain b.ethBlock then
          some ⟨some .insertFailed, b, s, t2 ++ [.insertChain b.ethBlock.hash]⟩
        else
          some ⟨none, b, s, t2 ++ [.insertChain b.ethBlock.hash]⟩
      | .tx atomicTx =>
        if unknownOrRejected ancestorIntf.Status then
          some ⟨some .errRejectedParent, b, s, t2⟩
        else
          match ancestorIntf with
          | .missing _ => some ⟨some .notBlock, b, s, t2⟩
          | .block ancestor =>
            let t3 := t2 ++ [.blockState ancestor.ethBlock.hash]
            if !vm.BlockState ancestor.ethBlock then
              some ⟨some .blockStateFailed, b, s, t3⟩
            else if vm.bonusBlocks.contains b.id then
              some (processAndInsert vm s b ancestor t3)
            else
              match atomicTx.kind with
              | .importTx =>
                match conflictWalk vm atomicTx.inputs fuel ancestor with
                | none => none
                | some (some e, calls) => some ⟨some e, b, s, t3 ++ calls⟩
                | some (none, calls) =>
                  some (semanticThenProcess vm s b ancestor atomicTx (t3 ++ calls))
              | .exportTx =>
                some (semanticThenProcess vm s b ancestor atomicTx t3)
              | .other => some ⟨some .errUnknownAtomicTx, b, s, t3⟩

/-- Modelled from the spec: `Mempool.RemoveTx`, whose file is missing. The spec
gives the mempool the operation `remove(txID)`; after it the mempool no longer
holds `txID`, the other transactions stay. -/
def RemoveTx (mempool : List ID) (txID : ID) : List ID :=
  mempool.filter (fun t => t != txID)

/-- Modelled from the spec: `Mempool.RejectTx`, whose file is missing. The spec
gives the mempool the operation `release(txID)`, which re-queues a transaction
after a rejection "for possible future inclusion"; the set of transactions
the mempool holds is unchanged. -/
def RejectTx (mempool : List ID) (_txID : ID) : List ID :=
  mempool

/-- Modelled from the spec: `Mempool.has`, whose file is missing; the
membership test used by `TestMempoolAtmTxsAddGossiped`. -/
def has (mempool : List ID) (txID : ID) : Bool :=
  mempool.contains txID

/-- Modelled from the spec: the effect of `vm.writeAtomicTx`, whose file is
missing. The Operation Log is a durable append-only record
`height -> list of atomic transactions`; a successful `writeAtomicTx(b, tx)`
appends `tx` under the height of `b`. -/
def appendOpLog (opLog : List (Nat × Tx)) (b : Block) (tx : Tx) : List (Nat × Tx) :=
  opLog ++ [(Height b, tx)]

/-- The end of `Accept`, from `vm.db.CommitBatch()` on. The deferred
`EndBatch` runs after `tx.UnsignedAtomicTx.Accept` has returned. -/
def acceptBatch (vm : VM) (s : VMState) (b : Block) (tx : Tx) : Outcome :=
  if !vm.CommitBatch then
    ⟨some .commitBatchFailed, b, s, [.commitBatch false]⟩
  else
    let body : Outcome :=
      if !vm.txAccept tx then
        ⟨some .txAcceptFailed, b, s, [.commitBatch true, .txAccept tx.id]⟩
      else
        ⟨none, b, { s with sharedMemory := s.sharedMemory ++ [tx] },
          [.commitBatch true, .txAccept tx.id]⟩
    { body with trace := body.trace ++ [.endBatch] }

/-- The body of `Accept` between `StartCommit` and the deferred `AbortCommit`. -/
def acceptBody (vm : VM) (s : VMState) (b : Block) : Outcome :=
  let b : Block := { b with status := .Accepted }
  if !vm.chainAccept b.ethBlock then
    ⟨some .chainAcceptFailed, b, s, [.chainAccept b.ethBlock.hash]⟩
  else if !vm.putLastAccepted b.id then
    ⟨some .putLastAcceptedFailed, b, s,
      [.chainAccept b.ethBlock.hash, .putLastAccepted b.id]⟩
  else
    let s : VMState := { s with lastAccepted := some b.id }
    let t1 := [Event.chainAccept b.ethBlock.hash, .putLastAccepted b.id,
      .extractAtomicTx b.ethBlock.hash]
    match vm.extractAtomicTx b.ethBlock with
    | .error => ⟨some .extractFailed, b, s, t1⟩
    | .none =>
      ⟨if vm.dbCommit then none else some .commitFailed, b, s, t1 ++ [.dbCommit]⟩
    | .tx tx =>
      let s : VMState := { s with mempool := RemoveTx s.mempool tx.id }
      let t2 := t1 ++ [.removeTx tx.id, .writeAtomicTx tx.id]
      if !vm.writeAtomicTx b tx then
        ⟨some .writeAtomicTxFailed, b, s, t2⟩
      else
        let s : VMState := { s with opLog := appendOpLog s.opLog b tx }
        if vm.bonusBlocks.contains b.id then
          ⟨none, b, s, t2⟩
        else
          let r := acceptBatch vm s b tx
          { r with trace := t2 ++ r.trace }

/-- The method `Block.Accept`: `StartCommit`, the body, and the deferred
`AbortCommit` on the way out. -/
def Accept (vm : VM) (s : VMState) (b : Block) : Outcome :=
  let r := acceptBody vm s b
  { r with trace := [.startCommit] ++ r.trace ++ [.abortCommit] }

/-- The method `Block.Reject`; the error of `extractAtomicTx` is dropped. -/
def Reject (vm : VM) (s : VMState) (b : Block) : Outcome :=
  let b : Block := { b with status := .Rejected }
  match vm.extractAtomicTx b.ethBlock with
  | .tx tx =>
    ⟨none, b, { s with mempool := RejectTx s.mempool tx.id },
      [.extractAtomicTx b.ethBlock.hash, .rejectTx tx.id]⟩
  | _ => ⟨none, b, s, [.extractAtomicTx b.ethBlock.hash]⟩

/-- The method `Block.SetStatus`. -/
def SetStatus (b : Block) (status : Status) : Block :=
  { b with status := status }

/-- Successive parents: `IsChain vm b [p0, p1, ..]` says that `Parent` of `b`
is the block `p0`, `Parent` of `p0` is the block `p1`, and so on. -/
def IsChain (vm : VM) : Block → List Block → Prop
  | _, [] => True
  | b, p :: ps => Parent vm b = .block p ∧ IsChain vm p ps

/-- Identifiers of the ancestors whose atomic transaction the loop of `Verify`
extracted, in the order of the calls. -/
def inspected : List Event → List ID
  | [] => []
  | .ancestorTx a :: rest => a :: inspected rest
  | _ :: rest => inspected rest

/-- Calls issued by `Verify` before the bonus test, for an atomic block whose
parent is the block `p`. -/
def verifyPrefix (b p : Block) : List Event :=
  [.syntacticVerify, .getBlock b.ethBlock.parentHash,
    .hasBlock p.id (prevHeight b),
    .extractAtomicTx b.ethBlock.hash, .blockState p.ethBlock.hash]

/-- Calls on the mempool. -/
def touchesMempool : Event → Bool
  | .removeTx _ => true
  | .rejectTx _ => true
  | _ => false

/-- The calls of a trace that go to the mempool. -/
def mempoolCalls (trace : List Event) : List Event :=
  trace.filter touchesMempool

/-- The calls issued while the batch handle is held: those after a successful
`CommitBatch` and before the next `EndBatch`. -/
def whileBatchHeld : List Event → List Event
  | [] => []
  | .commitBatch true :: rest => rest.takeWhile (fun e => e != .endBatch)
  | _ :: rest => whileBatchHeld rest

/-- Example block 0: accepted, its own parent. -/
def exBlk0 : Block := ⟨0, ⟨0, 0, 0, 0⟩, .Accepted⟩

/-- Example block 1: processing child of block 0. -/
def exBlk1 : Block := ⟨1, ⟨1, 0, 1, 0⟩, .Processing⟩

/-- Example block 3: child of block 1, bonus-listed in `exVM`. -/
def exBlk3 : Block := ⟨3, ⟨3, 1, 2, 0⟩, .Processing⟩

/-- Example block 4: child of block 1. -/
def exBlk4 : Block := ⟨4, ⟨4, 1, 2, 0⟩, .Processing⟩

/-- Example block 5: processing child of block 1. -/
def exBlk5 : Block := ⟨5, ⟨5, 1, 2, 0⟩, .Processing⟩

/-- Example block 6: child of block 5. -/
def exBlk6 : Block := ⟨6, ⟨6, 5, 3, 0⟩, .Processing⟩

/-- Example block 7: child of block 5. -/
def exBlk7 : Block := ⟨7, ⟨7, 5, 3, 0⟩, .Processing⟩

/-- Example block 9: rejected child of block 1. -/
def exBlk9 : Block := ⟨9, ⟨9, 1, 2, 0⟩, .Rejected⟩

/-- Example block 10: child of block 1. -/
def exBlk10 : Block := ⟨10, ⟨10, 1, 2, 0⟩, .Processing⟩

/-- Example block 11: child of the rejected block 9, without atomic
transaction. -/
def exBlk11 : Block := ⟨11, ⟨11, 9, 3, 0⟩, .Processing⟩

/-- Example block 12: child of the rejected block 9. -/
def exBlk12 : Block := ⟨12, ⟨12, 9, 3, 0⟩, .Processing⟩

/-- An example VM: every collaborator call succeeds, block 3 is bonus, blocks
0, 1, 5 and 9 are stored. Block 0 imports UTXO 9, block 1 imports UTXO 7,
block 3 imports UTXO 7, block 4 exports, block 5 imports UTXO 8, block 6
imports UTXO 7, block 7 imports UTXO 9, block 9 imports UTXO 20, block 10
imports UTXOs 20 and 7, block 12 imports UTXO 21; the other blocks carry no
atomic transaction. -/
def exVM : VM where
  bonusBlocks := [3]
  GetBlockInternal := fun i =>
    if i = 0 then some exBlk0
    else if i = 1 then some exBlk1
    else if i = 5 then some exBlk5
    else if i = 9 then some exBlk9
    else none
  SyntacticVerify := fun _ => true
  HasBlock := fun _ _ => true
  extractAtomicTx := fun e =>
    if e.hash = 0 then .tx ⟨10, .importTx, [9]⟩
    else if e.hash = 1 then .tx ⟨11, .importTx, [7]⟩
    else if e.hash = 3 then .tx ⟨13, .importTx, [7]⟩
    else if e.hash = 4 then .tx ⟨14, .exportTx, []⟩
    else if e.hash = 5 then .tx ⟨15, .importTx, [8]⟩
    else if e.hash = 6 then .tx ⟨16, .importTx, [7]⟩
    else if e.hash = 7 then .tx ⟨17, .importTx, [9]⟩
    else if e.hash = 9 then .tx ⟨19, .importTx, [20]⟩
    else if e.hash = 10 then .tx ⟨110, .importTx, [20, 7]⟩
    else if e.hash = 12 then .tx ⟨112, .importTx, [21]⟩
    else .none
  BlockState := fun _ => true
  IsApricotPhase1 := fun _ => true
  SemanticVerify := fun _ _ => true
  Process := fun _ _ => true
  InsertChain := fun _ => true
  chainAccept := fun _ => true
  putLastAccepted := fun _ => true
  dbCommit := true
  writeAtomicTx := fun _ _ => true
  CommitBatch := true
  txAccept := fun _ => true

/-- An example state: the mempool holds transactions 11, 12, 13 and 17. -/
def exState : VMState := ⟨[11, 12, 13, 17], [], none, []⟩

/-- The outcome of `Verify` on block 7 in `exVM` and `exState`. -/
def exVerified7 : Outcome :=
  ⟨none, exBlk7, exState,
    [.syntacticVerify, .getBlock 5, .hasBlock 5 2, .extractAtomicTx 7, .blockState 5,
      .ancestorTx 5, .getBlock 1, .ancestorTx 1, .getBlock 0, .semanticVerify 17,
      .process 7, .insertChain 7]⟩

/-- An operation applied to a block by its owner. -/
inductive BlockOp where
  | accept
  | reject
  | setStatus (status : Status)
  deriving DecidableEq, Repr

/-- The block and the VM state after one operation. -/
def applyOp (vm : VM) (sb : VMState × Block) : BlockOp → VMState × Block
  | .accept => ((Accept vm sb.1 sb.2).state, (Accept vm sb.1 sb.2).block)
  | .reject => ((Reject vm sb.1 sb.2).state, (Reject vm sb.1 sb.2).block)
  | .setStatus st => (sb.1, SetStatus sb.2 st)

/-- The statuses a block goes through under a sequence of operations: the
status after each operation, in order. -/
def statusPath (vm : VM) : VMState × Block → List BlockOp → List Status
  | _, [] => []
  | sb, op :: ops => (applyOp vm sb op).2.status :: statusPath vm (applyOp vm sb op) ops

/-- The status an operation writes. -/
def BlockOp.target : BlockOp → Status
  | .accept => .Accepted
  | .reject => .Rejected
  | .setStatus st => st

/-- The moves of the life cycle Unknown, Processing, then Accepted or
Rejected. -/
def legalMove : Status → Status → Bool
  | .Unknown, .Processing => true
  | .Processing, .Accepted => true
  | .Processing, .Rejected => true
  | _, _ => false

/-! ## The atomic trie (`plugin/evm/blocking_atomic_trie.go`)

* Byte strings are lists of natural numbers; hashes are byte strings of
  length 32.
* The key-value store, the trie database and the trie are data; the answers of
  the collaborators (the hash of a trie, the RLP encoder, the failures of the
  store, the order in which `range` visits a map, the codec of the Operation
  Log) are fields of `TrieEnv`.
* The trie is the list of its leaves in key order.
-/

/-- Byte strings; a byte is a natural number below 256. -/
abbrev Bytes := List Nat

/-- The type `common.Hash`: 32 bytes. -/
abbrev Hash := { b : Bytes // b.length = 32 }

/-- The value `common.Hash{}`. -/
def zeroHash : Hash := ⟨List.replicate 32 0, by simp⟩

/-- The function `common.BytesToHash`: the last 32 bytes, padded with zeros on
the left. -/
def BytesToHash (b : Bytes) : Hash :=
  ⟨List.replicate (32 - (b.drop (b.length - 32)).length) 0 ++ b.drop (b.length - 32), by
    simp only [List.length_append, List.length_replicate, List.length_drop]
    omega⟩

/-- The constant `commitHeightInterval`. -/
def commitHeightInterval : Nat := 4096

/-- The key `indexHeightKey`: the bytes of the string IndexHeight. -/
def indexHeightKey : Bytes := [73, 110, 100, 101, 120, 72, 101, 105, 103, 104, 116]

/-- The key `lastCommittedKey`: the bytes of the string LastCommittedBlock. -/
def lastCommittedKey : Bytes :=
  [76, 97, 115, 116, 67, 111, 109, 109, 105, 116, 116, 101, 100, 66, 108, 111, 99, 107]

/-- The function `binary.BigEndian.PutUint64` on a fresh 8-byte slice. -/
def PutUint64 (v : Nat) : Bytes :=
  [v / 2 ^ 56 % 256, v / 2 ^ 48 % 256, v / 2 ^ 40 % 256, v / 2 ^ 32 % 256,
    v / 2 ^ 24 % 256, v / 2 ^ 16 % 256, v / 2 ^ 8 % 256, v % 256]

/-- The function `binary.BigEndian.Uint64`; `none` is the panic on a slice
shorter than 8 bytes. -/
def Uint64 : Bytes → Option Nat
  | b0 :: b1 :: b2 :: b3 :: b4 :: b5 :: b6 :: b7 :: _ =>
    some (b0 * 2 ^ 56 + b1 * 2 ^ 48 + b2 * 2 ^ 40 + b3 * 2 ^ 32 + b4 * 2 ^ 24 +
      b5 * 2 ^ 16 + b6 * 2 ^ 8 + b7)
  | _ => none

/-- The order `bytes.Compare(x, y) < 0`. -/
def bytesLt : Bytes → Bytes → Bool
  | [], [] => false
  | [], _ :: _ => true
  | _ :: _, [] => false
  | a :: as, b :: bs => decide (a < b) || (a == b && bytesLt as bs)

/-- The struct `atomic.Element`. -/
structure Element where
  key : Bytes
  value : Bytes
  traits : List Bytes
  deriving DecidableEq, Repr

/-- The struct `atomic.Requests`. -/
structure Requests where
  removeRequests : List Bytes
  putRequests : List Element
  deriving DecidableEq, Repr

/-- The type `map[ids.ID]*atomic.Requests`, as the list of its entries; the
keys are chain identifiers (32 bytes). The order of the list is the order in
which `range` visits the map; `updateTrie_order` shows that the trie written
from it does not depend on that order. -/
abbrev AtomicReqs := List (Bytes × Requests)

/-- The leaves of a trie, in key order. -/
abbrev Leaves := List (Bytes × Bytes)

/-- Errors of the atomic trie; `notFound` is the error whose text is
`errEntryNotFound`, `panic` a run-time panic. -/
inductive TrieError where
  | notFound
  | dbFailed
  | encodeFailed
  | trieCommitFailed
  | trieDBCommitFailed
  | putFailed
  | missingNode
  | iteratorFailed
  | parseFailed
  | atomicOpsFailed
  | dbCommitFnFailed
  | panic
  deriving DecidableEq, Repr

/-- Answers of the collaborators of the atomic trie. -/
structure TrieEnv where
  /-- The root hash `trie.Commit` computes for a trie with these leaves. -/
  rootHash : Leaves → Hash
  /-- The call `rlp.EncodeToBytes(*requests)`; `none` when it fails. -/
  encode : Requests → Option Bytes
  /-- The RLP decoding of a leaf value by the iterator; `none` when it fails. -/
  decode : Bytes → Option Requests
  /-- Whether `i.trie.Commit(nil)` succeeds on a trie with these leaves. -/
  trieCommitOk : Leaves → Bool
  /-- Whether `i.trieDB.Commit(hash, false, nil)` succeeds. -/
  trieDBCommitOk : Hash → Bool
  /-- Whether `i.db.Put(key, ..)` succeeds. -/
  putOk : Bytes → Bool
  /-- Whether `i.db.Get(key)` fails with an error other than not found. -/
  getFails : Bytes → Bool
  /-- The order in which `range i.pendingWrites` visits the entries. -/
  mapOrder : List (Nat × AtomicReqs) → List (Nat × AtomicReqs)
  /-- The call `i.repo.ParseTxBytes(bytes)`; `none` when it fails. -/
  ParseTxBytes : Bytes → Option Tx
  /-- The call `tx.AtomicOps()`; `none` when it fails. -/
  AtomicOps : Tx → Option AtomicReqs
  /-- The key `heightAtomicTxDBInitializedKey`. -/
  heightAtomicTxDBInitializedKey : Bytes
  /-- Whether `it.Error()` is non-nil at the entry with this key. -/
  iterError : Bytes → Bool

/-- The struct `blockingAtomicTrie`. The store `db` lists its entries, the most
recent first; `trieDB` lists the tries flushed by `trieDB.Commit`, the most
recent first; `repo` lists the entries of the Operation Log (key and packed
transactions) in iteration order; `pendingWrites` is `none` for a nil map. -/
structure blockingAtomicTrie where
  commitHeightInterval : Nat
  db : List (Bytes × Bytes)
  trieDB : List (Hash × Leaves)
  trie : Leaves
  repo : List (Bytes × List Bytes)
  pendingWrites : Option (List (Nat × AtomicReqs))
  deriving DecidableEq, Repr

/-- Result of `db.Get`. -/
inductive GetResult where
  | found (value : Bytes)
  | notFound
  | failed
  deriving DecidableEq, Repr

/-- The call `i.db.Get(key)`. -/
def dbGet (env : TrieEnv) (db : List (Bytes × Bytes)) (key : Bytes) : GetResult :=
  if env.getFails key then .failed
  else
    match db.lookup key with
    | some value => .found value
    | none => .notFound

/-- The call `i.db.Put(key, value)`; `none` when it fails. -/
def dbPut (env : TrieEnv) (db : List (Bytes × Bytes)) (key value : Bytes) :
    Option (List (Bytes × Bytes)) :=
  if env.putOk key then some ((key, value) :: db) else none

/-- Modelled from the spec: `trie.Trie.Update`, whose package is missing. The
keyed Merkle primitive offers `update(key, value)` and iterates in key order:
the leaf is replaced, or inserted at its place in key order. -/
def trieUpdate : Leaves → Bytes → Bytes → Leaves
  | [], key, value => [(key, value)]
  | (k, v) :: rest, key, value =>
    if key = k then (key, value) :: rest
    else if bytesLt key k then (key, value) :: (k, v) :: rest
    else (k, v) :: trieUpdate rest key value

/-- Modelled from the spec: `trie.New(root, triedb)`, whose package is missing.
The keyed Merkle primitive offers `open(rootHash) -> handle`: the empty trie
for the zero hash and for the root of the empty trie, else the trie flushed
under `root`; `none` for a missing node. -/
def trieNew (env : TrieEnv) (trieDB : List (Hash × Leaves)) (root : Hash) : Option Leaves :=
  if root = zeroHash ∨ root = env.rootHash [] then some []
  else trieDB.lookup root

/-- The method `updateTrie`: one leaf per entry of `atomicOps`, under the key
made of the 8 bytes of the height and the chain identifier. It stops at the
first entry that cannot be encoded; the leaves written before stay. -/
def updateTrie (env : TrieEnv) (trie : Leaves) (height : Nat) :
    AtomicReqs → Option TrieError × Leaves
  | [] => (none, trie)
  | (blockchainID, requests) :: rest =>
    match env.encode requests with
    | none => (some .encodeFailed, trie)
    | some valueBytes =>
      updateTrie env (trieUpdate trie (PutUint64 height ++ blockchainID) valueBytes)
        height rest

/-- What `Index`, `index` and `commit` return: the hash, the error, the trie
they leave, and the heights passed to `index`, in call order. -/
structure IndexOutcome where
  hash : Hash
  err : Option TrieError
  state : blockingAtomicTrie
  indexed : List Nat
  deriving DecidableEq, Repr

/-- The method `commit`. -/
def commit (env : TrieEnv) (t : blockingAtomicTrie) (height : Nat) : IndexOutcome :=
  if !env.trieCommitOk t.trie then ⟨zeroHash, some .trieCommitFailed, t, []⟩
  else
    let hash := env.rootHash t.trie
    if !env.trieDBCommitOk hash then ⟨zeroHash, some .trieDBCommitFailed, t, []⟩
    else
      let t1 : blockingAtomicTrie := { t with trieDB := (hash, t.trie) :: t.trieDB }
      let heightBytes := PutUint64 height
      match dbPut env t1.db heightBytes hash.val with
      | none => ⟨zeroHash, some .putFailed, t1, []⟩
      | some db2 =>
        let t2 : blockingAtomicTrie := { t1 with db := db2 }
        match dbPut env t2.db lastCommittedKey heightBytes with
        | none => ⟨zeroHash, some .putFailed, t2, []⟩
        | some db3 => ⟨hash, none, { t2 with db := db3 }, []⟩

/-- The method `index`; the remainder by a zero interval panics. -/
def index (env : TrieEnv) (t : blockingAtomicTrie) (height : Nat) (atomicOps : AtomicReqs) :
    IndexOutcome :=
  match updateTrie env t.trie height atomicOps with
  | (some err, trie) => ⟨zeroHash, some err, { t with trie := trie }, [height]⟩
  | (none, trie) =>
    let t1 : blockingAtomicTrie := { t with trie := trie }
    if t1.commitHeightInterval = 0 then ⟨zeroHash, some .panic, t1, [height]⟩
    else if height % t1.commitHeightInterval ≠ 0 then ⟨zeroHash, none, t1, [height]⟩
    else
      let r := commit env t1 height
      { r with indexed := [height] }

/-- The method `LastCommitted`: the hash, the height and the error. -/
def LastCommitted (env : TrieEnv) (t : blockingAtomicTrie) : Hash × Nat × Option TrieError :=
  match dbGet env t.db lastCommittedKey with
  | .notFound => (zeroHash, 0, none)
  | .failed => (zeroHash, 0, some .dbFailed)
  | .found heightBytes =>
    match Uint64 heightBytes with
    | none => (zeroHash, 0, some .panic)
    | some height =>
      match dbGet env t.db heightBytes with
      | .found hash => (BytesToHash hash, (height + 1) % 2 ^ 64, none)
      | .notFound => (BytesToHash [], (height + 1) % 2 ^ 64, some .notFound)
      | .failed => (BytesToHash [], (height + 1) % 2 ^ 64, some .dbFailed)

/-- The assignment `m[key] = value` on a map. -/
def mapSet {α : Type} (m : List (Nat × α)) (key : Nat) (value : α) : List (Nat × α) :=
  match m with
  | [] => [(key, value)]
  | (k, v) :: rest => if k = key then (key, value) :: rest else (k, v) :: mapSet rest key value

/-- The loop of `Index` over the pending writes, in the order given. It stops
at the first failing `index`. -/
def flushPending (env : TrieEnv) (t : blockingAtomicTrie) :
    List (Nat × AtomicReqs) → IndexOutcome
  | [] => ⟨zeroHash, none, t, []⟩
  | (height, atomicOps) :: rest =>
    let r := index env t height atomicOps
    match r.err with
    | some err => ⟨zeroHash, some err, r.state, r.indexed⟩
    | none =>
      let r2 := flushPending env r.state rest
      { r2 with indexed := r.indexed ++ r2.indexed }

/-- The method `Index`. `signalled` tells whether the receive from
`initialisedChan` is ready, that is, whether the rebuild has completed. -/
def Index (env : TrieEnv) (t : blockingAtomicTrie) (signalled : Bool) (height : Nat)
    (atomicOps : AtomicReqs) : IndexOutcome :=
  if !signalled then
    match t.pendingWrites with
    | none => ⟨zeroHash, some .panic, t, []⟩
    | some pending =>
      ⟨zeroHash, none, { t with pendingWrites := some (mapSet pending height atomicOps) }, []⟩
  else
    let f := flushPending env t (env.mapOrder (t.pendingWrites.getD []))
    match f.err with
    | some err => ⟨zeroHash, some err, f.state, f.indexed⟩
    | none =>
      let r := index env { f.state with pendingWrites := none } height atomicOps
      { r with indexed := f.indexed ++ r.indexed }

/-- The function `NewBlockingAtomicTrie`, given the store, the trie nodes it
holds and the Operation Log; the error returned, or the trie. -/
def NewBlockingAtomicTrie (env : TrieEnv) (db : List (Bytes × Bytes))
    (trieDB : List (Hash × Leaves)) (repo : List (Bytes × List Bytes)) :
    Except TrieError blockingAtomicTrie :=
  let open' (root : Hash) : Except TrieError blockingAtomicTrie :=
    match trieNew env trieDB root with
    | none => .error .missingNode
    | some t => .ok ⟨commitHeightInterval, db, trieDB, t, repo, some []⟩
  match dbGet env db lastCommittedKey with
  | .found lastCommittedHeightBytes =>
    match dbGet env db lastCommittedHeightBytes with
    | .found hash => open' (BytesToHash hash)
    | _ => open' zeroHash
  | .notFound => open' zeroHash
  | .failed => .error .dbFailed

/-- The step `pendingAtomicOps[blockchainID]` of the merge: the requests are
appended to those of the chain, or recorded when the chain is new. -/
def mergeRequests : AtomicReqs → Bytes → Requests → AtomicReqs
  | [], blockchainID, reqs => [(blockchainID, reqs)]
  | (k, currentReqs) :: rest, blockchainID, reqs =>
    if k = blockchainID then
      (k, { removeRequests := currentReqs.removeRequests ++ reqs.removeRequests,
            putRequests := currentReqs.putRequests ++ reqs.putRequests }) :: rest
    else (k, currentReqs) :: mergeRequests rest blockchainID reqs

/-- The loop `for blockchainID, reqs := range ops` of the merge. -/
def mergeOps (pendingAtomicOps : AtomicReqs) (ops : AtomicReqs) : AtomicReqs :=
  ops.foldl (fun acc e => mergeRequests acc e.1 e.2) pendingAtomicOps

/-- The loop `for _, tx := range txs` of `initialize`: the error, the merged
requests and the number of transactions counted. -/
def mergeTxs (env : TrieEnv) (pendingAtomicOps : AtomicReqs) (count : Nat) :
    List Tx → Option TrieError × AtomicReqs × Nat
  | [] => (none, pendingAtomicOps, count)
  | tx :: rest =>
    match env.AtomicOps tx with
    | none => (some .atomicOpsFailed, pendingAtomicOps, count + 1)
    | some ops => mergeTxs env (mergeOps pendingAtomicOps ops) (count + 1) rest

/-- The loop that parses the transactions of one entry of the Operation Log;
`none` when `ParseTxBytes` fails. -/
def parseTxs (env : TrieEnv) : List Bytes → Option (List Tx)
  | [] => some []
  | txsBytes :: rest =>
    match env.ParseTxBytes txsBytes with
    | none => none
    | some tx =>
      match parseTxs env rest with
      | none => none
      | some txs => some (tx :: txs)

/-- Modelled from the spec: `AtomicTxRepository.IterateByHeight`, whose file is
missing. The Operation Log "exposes an ordered-by-height forward sequence
starting at a given height": the entries whose key is not below the 8 bytes of
the height. -/
def IterateByHeight (repo : List (Bytes × List Bytes)) (height : Nat) :
    List (Bytes × List Bytes) :=
  repo.filter (fun e => !bytesLt e.1 (PutUint64 height))

/-- What `initialize` returns: the error, the trie it leaves, the heights
passed to `index`, the transactions counted and the number of calls of the
finalize callback. -/
structure InitOutcome where
  err : Option TrieError
  state : blockingAtomicTrie
  indexed : List Nat
  transactionsIndexed : Nat
  dbCommits : Nat
  deriving DecidableEq, Repr

/-- The loop `for it.Next()` of `initialize`. -/
def rebuildLoop (env : TrieEnv) (t : blockingAtomicTrie) (transactionsIndexed : Nat) :
    List (Bytes × List Bytes) → InitOutcome
  | [] => ⟨none, t, [], transactionsIndexed, 0⟩
  | (heightBytes, value) :: rest =>
    if env.iterError heightBytes then
      ⟨some .iteratorFailed, t, [], transactionsIndexed, 0⟩
    else if heightBytes.length ≠ 8 ∨ heightBytes = env.heightAtomicTxDBInitializedKey then
      rebuildLoop env t transactionsIndexed rest
    else
      match Uint64 heightBytes with
      | none => ⟨some .panic, t, [], transactionsIndexed, 0⟩
      | some height =>
        match parseTxs env value with
        | none => ⟨some .parseFailed, t, [], transactionsIndexed, 0⟩
        | some txs =>
          match mergeTxs env [] transactionsIndexed txs with
          | (some err, _, n) => ⟨some err, t, [], n, 0⟩
          | (none, pendingAtomicOps, n) =>
            let r := index env t height pendingAtomicOps
            match r.err with
            | some err => ⟨some err, r.state, r.indexed, n, 0⟩
            | none =>
              let r2 := rebuildLoop env r.state n rest
              { r2 with indexed := r.indexed ++ r2.indexed }

/-- The method `initialize` of the trie; `dbCommitFn` is `none` for a nil
callback, else tells whether the callback succeeds. -/
def initializeTrie (env : TrieEnv) (t : blockingAtomicTrie) (dbCommitFn : Option Bool) :
    InitOutcome :=
  match LastCommitted env t with
  | (_, _, some err) => ⟨some err, t, [], 0, 0⟩
  | (_, nextHeight, none) =>
    let r := rebuildLoop env t 0 (IterateByHeight t.repo nextHeight)
    match r.err with
    | some _ => r
    | none =>
      match dbCommitFn with
      | none => r
      | some true => { r with dbCommits := 1 }
      | some false => { r with err := some .dbCommitFnFailed, dbCommits := 1 }

/-- An example chain identifier: 31 zero bytes, then `n`. -/
def exChain (n : Nat) : Bytes := List.replicate 31 0 ++ [n]

/-- An example request set: it removes the key made of the byte `n`. -/
def exReqs (n : Nat) : Requests := ⟨[[n]], []⟩

/-- An example trie environment. Every collaborator call succeeds; the hash of
a trie is 31 zero bytes followed by one plus the number of its leaves; the
encoding of a request set lists the lengths and the bytes of its removed keys;
`range` visits the pending writes from the last recorded to the first. -/
def exTrieEnv : TrieEnv where
  rootHash := fun leaves => ⟨List.replicate 31 0 ++ [leaves.length + 1], by simp⟩
  encode := fun r => some (r.removeRequests.length :: r.removeRequests.flatten)
  decode := fun b =>
    match b with
    | [1, n] => some ⟨[[n]], []⟩
    | _ => none
  trieCommitOk := fun _ => true
  trieDBCommitOk := fun _ => true
  putOk := fun _ => true
  getFails := fun _ => false
  mapOrder := fun m => m.reverse
  ParseTxBytes := fun b => some ⟨b.head?.getD 0, .exportTx, []⟩
  AtomicOps := fun tx => some [(exChain tx.id, exReqs tx.id)]
  heightAtomicTxDBInitializedKey := [105, 110, 105, 116]
  iterError := fun _ => false

/-- An example trie: nothing stored, interval 4096. -/
def exTrie : blockingAtomicTrie := ⟨commitHeightInterval, [], [], [], [], some []⟩

/-- An example operation set: chain 1 receives the request set 1. -/
def exOps1 : AtomicReqs := [(exChain 1, exReqs 1)]

/-- An example operation set: chain 2 receives the request set 2. -/
def exOps2 : AtomicReqs := [(exChain 2, exReqs 2)]

/-- An example operation set on three chains. -/
def exOps3 : AtomicReqs := [(exChain 1, exReqs 1), (exChain 2, exReqs 2), (exChain 3, exReqs 3)]

/-- An example trie with interval 2 whose Operation Log holds the heights 0, 1
and 2, one transaction each. -/
def exLogTrie : blockingAtomicTrie :=
  { exTrie with
    commitHeightInterval := 2
    repo := [(PutUint64 0, [[1]]), (PutUint64 1, [[1]]), (PutUint64 2, [[2]])] }

/-- Example: heights 4096 and 8192, then 8193, each given to `Index` after the
completion signal. -/
def exDirect : blockingAtomicTrie :=
  (Index exTrieEnv
    (Index exTrieEnv (Index exTrieEnv exTrie true 4096 exOps1).state true 8192 exOps2).state
    true 8193 exOps3).state

/-- Example: heights 4096 and 8192 given to `Index` before the completion
signal, then 8193 after it; `range` visits the pending height 8192 first. -/
def exBuffered : blockingAtomicTrie :=
  (Index exTrieEnv
    (Index exTrieEnv (Index exTrieEnv exTrie false 4096 exOps1).state false 8192 exOps2).state
    true 8193 exOps3).state

/-- The leaves are in strictly increasing key order. -/
def keySorted (trie : Leaves) : Prop :=
  trie.Pairwise (fun a b => bytesLt a.1 b.1 = true)

/-- The requests a map holds for a chain: `m[c]`, with empty lists when the
chain is not a key of the map. -/
def reqsAt (m : AtomicReqs) (c : Bytes) : Requests :=
  (m.lookup c).getD ⟨[], []⟩

/-- The operation set `tx.AtomicOps()` returns; empty when the call fails. -/
def opsOf (env : TrieEnv) (tx : Tx) : AtomicReqs :=
  (env.AtomicOps tx).getD []

/-- Whether the operation set of a transaction targets the chain `c`. -/
def targets (env : TrieEnv) (c : Bytes) (tx : Tx) : Bool :=
  ((opsOf env tx).lookup c).isSome

/-- The merged requests of a chain as the spec words them: the remove-lists
and the put-lists of the transactions that target the chain, concatenated in
transaction order. -/
def concatRequests (env : TrieEnv) (txs : List Tx) (c : Bytes) : Requests :=
  { removeRequests :=
      (txs.filter (targets env c)).flatMap (fun tx => (reqsAt (opsOf env tx) c).removeRequests)
    putRequests :=
      (txs.filter (targets env c)).flatMap (fun tx => (reqsAt (opsOf env tx) c).putRequests) }

/-- Example transactions: 1 and 3 target chain 1 only, 2 targets chains 2
and 1. -/
def exMergeEnv : TrieEnv :=
  { exTrieEnv with
    AtomicOps := fun tx =>
      if tx.id = 2 then some [(exChain 2, ⟨[[20]], [⟨[21], [22], []⟩]⟩), (exChain 1, exReqs 2)]
      else some [(exChain 1, ⟨[[tx.id]], [⟨[tx.id], [], []⟩]⟩)] }

/-- The method `Initialize`: the values the goroutine sends on
`initialisedChan` before it closes the channel, that is, the result of
`initialize`. -/
def Initialize (env : TrieEnv) (t : blockingAtomicTrie) (dbCommitFn : Option Bool) :
    List (Option TrieError) :=
  [(initializeTrie env t dbCommitFn).err]

/-- An example environment in which the transaction bytes `[255]` do not
parse. -/
def exDecodeEnv : TrieEnv :=
  { exTrieEnv with
    ParseTxBytes := fun b => if b = [255] then none else some ⟨b.head?.getD 0, .exportTx, []⟩ }

/-- An example trie whose Operation Log holds the heights 0, 1 and 2; the
second transaction of height 1 does not parse in `exDecodeEnv`. -/
def exBadLogTrie : blockingAtomicTrie :=
  { exTrie with
    commitHeightInterval := 2
    repo := [(PutUint64 0, [[1]]), (PutUint64 1, [[1], [255]]), (PutUint64 2, [[2]])] }

/-- The method `setIndexHeight`: the error, and the trie it leaves. No method
of the file calls it. -/
def setIndexHeight (env : TrieEnv) (t : blockingAtomicTrie) (height : Nat) :
    Option TrieError × blockingAtomicTrie :=
  match dbPut env t.db indexHeightKey (PutUint64 height) with
  | none => (some .putFailed, t)
  | some db => (none, { t with db := db })

/-- An example environment in which reading the last-committed pointer fails
with a store error. -/
def exFailEnv : TrieEnv :=
  { exTrieEnv with getFails := fun k => k == lastCommittedKey }

/-- An example environment in which reading the root record of height 4096
fails with a store error. -/
def exRootFailEnv : TrieEnv :=
  { exTrieEnv with getFails := fun k => k == PutUint64 4096 }

/-- The example trie after `Index(4096, exOps1)`, which commits. -/
def exCommitted : blockingAtomicTrie :=
  (Index exTrieEnv exTrie true 4096 exOps1).state

/-- Example block 20: child of block 1. -/
def exBlk20 : Block := ⟨20, ⟨20, 1, 2, 0⟩, .Processing⟩

/-- The example VM, in which block 20 carries an atomic transaction that is
neither an Import nor an Export. -/
def exVMOther : VM :=
  { exVM with
    extractAtomicTx := fun e =>
      if e.hash = 20 then .tx ⟨120, .other, [7]⟩ else exVM.extractAtomicTx e }

/-! ## Atomic transactions (`plugin/evm/tx.go`) -/

/-- The struct `EVMInput`; the address has 20 bytes, the asset identifier 32. -/
structure EVMInput where
  Address : Bytes
  Amount : Nat
  AssetID : Bytes
  Nonce : Nat
  deriving DecidableEq, Repr

/-- The function `bytes.Compare`. -/
def bytesCompare (a b : Bytes) : Int :=
  if a = b then 0 else if bytesLt a b then -1 else 1

/-- The comparison `Less` makes between the inputs at two positions: the
addresses first, the asset identifiers when the addresses are equal. -/
def inputLess (a b : EVMInput) : Bool :=
  let addrComp := bytesCompare a.Address b.Address
  if addrComp ≠ 0 then decide (addrComp < 0)
  else decide (bytesCompare a.AssetID b.AssetID < 0)

/-- The method `innerSortInputsAndSigners.Less`; an index out of range, which
panics, gives `false`. -/
def innerSortInputsAndSigners.Less (inputs : List EVMInput) (i j : Nat) : Bool :=
  match inputs[i]?, inputs[j]? with
  | some a, some b => inputLess a b
  | _, _ => false

/-- The loop of `utils.IsSortedAndUnique` (avalanchego), `for i := n - 1;
i >= 0; i--`: it returns `false` at the first `i` with `!data.Less(i, i+1)`. -/
def IsSortedAndUniqueLoop (less : Nat → Nat → Bool) : Nat → Bool
  | 0 => true
  | i + 1 => if !less i (i + 1) then false else IsSortedAndUniqueLoop less i

/-- The function `utils.IsSortedAndUnique` (avalanchego) on data of length
`len`: the loop starts at `len - 2`. -/
def IsSortedAndUnique (len : Nat) (less : Nat → Nat → Bool) : Bool :=
  IsSortedAndUniqueLoop less (len - 1)

/-- The function `IsSortedAndUniqueEVMInputs`. -/
def IsSortedAndUniqueEVMInputs (inputs : List EVMInput) : Bool :=
  IsSortedAndUnique inputs.length (innerSortInputsAndSigners.Less inputs)

/-- The reading "sorted and unique based on the account addresses": the
addresses of consecutive inputs strictly increase. -/
def addressesIncrease (inputs : List EVMInput) : Prop :=
  inputs.Chain' (fun a b => bytesLt a.Address b.Address = true)

/-- Example inputs: the same address twice, with the assets 1 and 2. -/
def exSameAddress : List EVMInput :=
  [⟨List.replicate 20 7, 5, exChain 1, 0⟩, ⟨List.replicate 20 7, 5, exChain 2, 0⟩]

/-- Example inputs: two addresses in increasing order, the same asset. -/
def exIncreasing : List EVMInput :=
  [⟨List.replicate 20 1, 5, exChain 1, 0⟩, ⟨List.replicate 20 2, 5, exChain 1, 0⟩]

/-- Modelled from the spec: the constant `x2cRate`, whose declaration is
missing. It converts from denomination base 18 to base 9: 10^9. -/
def x2cRate : Int := 1000000000

/-- The function `calculateDynamicFee`, for a non-nil `baseFee`. The division
is the Euclidean division of `big.Int.Div`; `big.Int.Uint64` gives the low 64
bits of the absolute value. The error returned is always nil. -/
def calculateDynamicFee (gas : Nat) (baseFee : Int) : Nat × Option Error :=
  let txGas : Int := (gas : Int)
  let txGas := txGas * baseFee
  let txGas := txGas / x2cRate
  (txGas.natAbs % 2 ^ 64, none)

/-- Example root block: accepted, height 0, its parent (99) is not stored. -/
def exBlkRoot : Block := ⟨0, ⟨0, 99, 0, 0⟩, .Accepted⟩

/-- The example VM with the root block in place of block 0: following a
parent reference lowers the height. -/
def exVMRoot : VM :=
  { exVM with
    GetBlockInternal := fun i =>
      if i = 0 then some exBlkRoot
      else if i = 1 then some exBlk1
      else if i = 5 then some exBlk5
      else if i = 9 then some exBlk9
      else none }

/-- The constant `SignatureFee`. -/
def SignatureFee : Nat := 21000

/-- A member of `Tx.Creds`, as the type assertion of `Tx.Gas` sees it: a
`*secp256k1fx.Credential` with its signatures `Sigs`, or a value of another
type. -/
inductive Credential where
  | secp (Sigs : List Bytes)
  | other
  deriving DecidableEq, Repr

/-- The error `Tx.Gas` returns. -/
inductive GasError where
  | notSecpCredential
  deriving DecidableEq, Repr

/-- The loop of `Tx.Gas` over the credentials, from the running value of
`totalSignatures`; `none` when a credential is not a
`*secp256k1fx.Credential`. The additions are those of `uint64`. -/
def totalSignatures : Nat → List Credential → Option Nat
  | total, [] => some total
  | total, .secp Sigs :: rest => totalSignatures ((total + Sigs.length % 2 ^ 64) % 2 ^ 64) rest
  | _, .other :: _ => none

/-- The method `Tx.Gas`, given the value of `tx.UnsignedAtomicTx.Gas()` and
the credentials: the gas and the error. -/
def Tx.Gas (unsignedTxGas : Nat) (Creds : List Credential) : Nat × Option GasError :=
  match totalSignatures 0 Creds with
  | none => (0, some .notSecpCredential)
  | some total => ((unsignedTxGas + total * SignatureFee % 2 ^ 64) % 2 ^ 64, none)

/-- The number of signatures of a credential. -/
def Credential.signatures : Credential → Nat
  | .secp Sigs => Sigs.length
  | .other => 0

/-- Example block 21: child of block 1, a sibling of the rejected block 9. -/
def exBlk21 : Block := ⟨21, ⟨21, 1, 2, 0⟩, .Processing⟩

/-- The example VM, in which block 21 imports UTXO 20, the UTXO that the
rejected block 9 was the only one to consume. -/
def exVMReclaim : VM :=
  { exVM with
    extractAtomicTx := fun e =>
      if e.hash = 21 then .tx ⟨121, .importTx, [20]⟩ else exVM.extractAtomicTx e }

/-- An example environment in which `trieDB.Commit` fails. -/
def exCommitFailEnv : TrieEnv :=
  { exTrieEnv with trieDBCommitOk := fun _ => false }

/-- Example: heights 4096 and 4097 given to `Index` before the completion
signal. -/
def exPending : blockingAtomicTrie :=
  (Index exCommitFailEnv (Index exCommitFailEnv exTrie false 4096 exOps1).state false 4097
    exOps2).state

/-- The VM `exVMOther` with a block validator that refuses every block. -/
def exVMOtherMalformed : VM :=
  { exVMOther with SyntacticVerify := fun _ => false }

/-- The VM `exVMOther` with a chain that holds no block. -/
def exVMOtherNoParent : VM :=
  { exVMOther with HasBlock := fun _ _ => false }

/-- The VM `exVMOther` with a chain that cannot retrieve the state of a
block. -/
def exVMOtherNoState : VM :=
  { exVMOther with BlockState := fun _ => false }

/-- The VM `exVMRoot` in which the atomic transaction of block 1 cannot be
extracted. -/
def exVMParseFail : VM :=
  { exVMRoot with
    extractAtomicTx := fun e => if e.hash = 1 then .error else exVMRoot.extractAtomicTx e }

end Coreth

namespace Coreth

/-! ## The ancestor loop -/

theorem conflictWalk_succ (vm : VM) (inputs : List ID) (fuel : Nat) (ancestor : Block) :
    conflictWalk vm inputs (fuel + 1) ancestor =
      if ancestor.status = .Accepted then some (none, [])
      else
        match vm.extractAtomicTx ancestor.ethBlock with
        | .error => some (some .ancestorParseFailed, [.ancestorTx ancestor.id])
        | atx =>
          if conflictsWith inputs atx then
            some (some .errConflictingAtomicInputs, [.ancestorTx ancestor.id])
          else
            if unknownOrRejected (Parent vm ancestor).Status then
              some (some .errRejectedParent,
                [Event.ancestorTx ancestor.id, .getBlock ancestor.ethBlock.parentHash])
            else
              match Parent vm ancestor with
              | .missing _ => some (some .notBlock,
                  [Event.ancestorTx ancestor.id, .getBlock ancestor.ethBlock.parentHash])
              | .block next =>
                (conflictWalk vm inputs fuel next).map (fun r =>
                  (r.1, [Event.ancestorTx ancestor.id,
                    .getBlock ancestor.ethBlock.parentHash] ++ r.2)) := by
  rfl

/-- A conflicting ancestor reached through processing ancestors makes the loop
return `errConflictingAtomicInputs`. -/
theorem conflictWalk_conflict (vm : VM) (inputs : List ID) (a : Block)
    (hover : conflictsWith inputs (vm.extractAtomicTx a.ethBlock) = true) :
    ∀ (ps : List Block) (b : Block) (fuel : Nat),
      IsChain vm b (ps ++ [a]) →
      (∀ p ∈ ps ++ [a], p.status = .Processing) →
      (∀ p ∈ ps, vm.extractAtomicTx p.ethBlock ≠ .error) →
      ps.length < fuel →
      ∀ p0, Parent vm b = .block p0 →
        ∃ calls, conflictWalk vm inputs fuel p0 =
          some (some .errConflictingAtomicInputs, calls) := by
  intro ps
  induction ps with
  | nil =>
    intro b fuel hchain hproc _ hfuel p0 hp0
    obtain ⟨f, rfl⟩ : ∃ f, fuel = f + 1 := ⟨fuel - 1, by simp at hfuel; omega⟩
    have hpa : Parent vm b = .block a := hchain.1
    have hEq : p0 = a := by
      rw [hp0] at hpa
      exact ParentBlock.block.inj hpa
    subst hEq
    have hst : p0.status = .Processing := hproc p0 (by simp)
    rw [conflictWalk_succ]
    have hne : vm.extractAtomicTx p0.ethBlock ≠ .error := by
      intro h
      rw [h] at hover
      simp [conflictsWith] at hover
    simp only [hst]
    split
    · contradiction
    · simp [hover]
  | cons p ps ih =>
    intro b fuel hchain hproc hext hfuel p0 hp0
    obtain ⟨f, rfl⟩ : ∃ f, fuel = f + 1 := ⟨fuel - 1, by simp at hfuel; omega⟩
    have hpa : Parent vm b = .block p := hchain.1
    have hrest : IsChain vm p (ps ++ [a]) := hchain.2
    have hEq : p0 = p := by
      rw [hp0] at hpa
      exact ParentBlock.block.inj hpa
    subst hEq
    have hst : p0.status = .Processing := hproc p0 (by simp)
    have hne : vm.extractAtomicTx p0.ethBlock ≠ .error := hext p0 (by simp)
    obtain ⟨p1, hp1, hp1mem⟩ : ∃ p1, Parent vm p0 = .block p1 ∧ p1 ∈ ps ++ [a] := by
      cases ps with
      | nil => exact ⟨a, hrest.1, by simp⟩
      | cons q qs => exact ⟨q, hrest.1, by simp⟩
    have hst1 : p1.status = .Processing := hproc p1 (by
      simp only [List.cons_append, List.mem_cons]
      exact Or.inr hp1mem)
    obtain ⟨calls, hcalls⟩ := ih p0 f hrest
      (fun q hq => hproc q (by
        simp only [List.cons_append, List.mem_cons]
        exact Or.inr hq))
      (fun q hq => hext q (by simp [hq]))
      (by simp at hfuel; omega) p1 hp1
    rw [conflictWalk_succ]
    simp only [hst]
    split
    · contradiction
    · by_cases hc : conflictsWith inputs (vm.extractAtomicTx p0.ethBlock) = true
      · simp [hc]
      · simp [hc, hp1, ParentBlock.Status, hst1, unknownOrRejected, hcalls]

/-! ## Verify -/

/-- The path of `Verify` through the `*UnsignedImportTx` case. -/
theorem Verify_importTx (vm : VM) (s : VMState) (fuel : Nat) (b p : Block) (tx : Tx)
    (hsyn : vm.SyntacticVerify b = true)
    (hpar : Parent vm b = .block p)
    (hhas : vm.HasBlock p.id (prevHeight b) = true)
    (htx : vm.extractAtomicTx b.ethBlock = .tx tx)
    (hst : unknownOrRejected p.status = false)
    (hbs : vm.BlockState p.ethBlock = true)
    (hbonus : vm.bonusBlocks.contains b.id = false)
    (hkind : tx.kind = .importTx) :
    Verify vm s fuel b =
      match conflictWalk vm tx.inputs fuel p with
      | none => none
      | some (some e, calls) => some ⟨some e, b, s, verifyPrefix b p ++ calls⟩
      | some (none, calls) =>
        some (semanticThenProcess vm s b p tx (verifyPrefix b p ++ calls)) := by
  have hb : b.id ∉ vm.bonusBlocks := by simpa using hbonus
  simp [Verify, hsyn, hpar, ParentBlock.ID, ParentBlock.Status, hhas, htx, hst, hbs,
    hb, hkind, verifyPrefix]

/-- C1, as stated, fails on a bonus block: block 3 of `exVM` imports UTXO 7,
its processing parent (block 1, below the accepted block 0) imports UTXO 7
too, and `Verify` returns no error. -/
theorem verify_bonus_import_overlap_passes :
    exVM.extractAtomicTx exBlk3.ethBlock = .tx ⟨13, .importTx, [7]⟩ ∧
    IsChain exVM exBlk3 [exBlk1, exBlk0] ∧
    exBlk1.status = .Processing ∧ exBlk0.status = .Accepted ∧
    exVM.extractAtomicTx exBlk1.ethBlock = .tx ⟨11, .importTx, [7]⟩ ∧
    Overlaps [7] [7] = true ∧
    (Verify exVM exState 5 exBlk3).map (fun r => r.err) = some none := by
  refine ⟨by decide, ⟨by decide, by decide, trivial⟩, by decide, by decide, by decide,
    by decide, by decide⟩

/-- C1 (amended): a block that is not bonus-listed, passes syntactic
verification, has its parent in the chain with a retrievable state and carries
an Import transaction is refused with `errConflictingAtomicInputs` as soon as
an ancestor `a`, reached through processing ancestors `ps` whose atomic
transactions parse, is processing and consumes one of its UTXOs. -/
theorem verify_import_conflict (vm : VM) (s : VMState) (fuel : Nat) (b : Block) (tx : Tx)
    (ps : List Block) (a : Block)
    (hsyn : vm.SyntacticVerify b = true)
    (hhas : vm.HasBlock (Parent vm b).ID (prevHeight b) = true)
    (htx : vm.extractAtomicTx b.ethBlock = .tx tx)
    (hkind : tx.kind = .importTx)
    (hbonus : vm.bonusBlocks.contains b.id = false)
    (hbs : ∀ p, Parent vm b = .block p → vm.BlockState p.ethBlock = true)
    (hchain : IsChain vm b (ps ++ [a]))
    (hproc : ∀ p ∈ ps ++ [a], p.status = .Processing)
    (hext : ∀ p ∈ ps, vm.extractAtomicTx p.ethBlock ≠ .error)
    (hover : ∃ atx, vm.extractAtomicTx a.ethBlock = .tx atx ∧
      Overlaps tx.inputs atx.inputs = true)
    (hfuel : ps.length < fuel) :
    ∃ r, Verify vm s fuel b = some r ∧ r.err = some .errConflictingAtomicInputs := by
  obtain ⟨p0, hp0, hp0mem⟩ : ∃ p0, Parent vm b = .block p0 ∧ p0 ∈ ps ++ [a] := by
    cases ps with
    | nil => exact ⟨a, hchain.1, by simp⟩
    | cons q qs => exact ⟨q, hchain.1, by simp⟩
  have hst : unknownOrRejected p0.status = false := by
    rw [hproc p0 hp0mem]
    rfl
  have hover2 : conflictsWith tx.inputs (vm.extractAtomicTx a.ethBlock) = true := by
    obtain ⟨atx, h1, h2⟩ := hover
    rw [h1]
    exact h2
  obtain ⟨calls, hcalls⟩ :=
    conflictWalk_conflict vm tx.inputs a hover2 ps b fuel hchain hproc hext hfuel p0 hp0
  rw [hp0] at hhas
  refine ⟨⟨some .errConflictingAtomicInputs, b, s, verifyPrefix b p0 ++ calls⟩, ?_, rfl⟩
  rw [Verify_importTx vm s fuel b p0 tx hsyn hp0 hhas htx hst (hbs p0 hp0) hbonus hkind,
    hcalls]

theorem verify_import_conflict_witness :
    ∃ r, Verify exVM exState 2 exBlk6 = some r ∧
      r.err = some .errConflictingAtomicInputs :=
  verify_import_conflict exVM exState 2 exBlk6 ⟨16, .importTx, [7]⟩ [exBlk5] exBlk1
    (by decide) (by decide) (by decide) (by decide) (by decide)
    (by intro p hp; cases hp; decide)
    ⟨by decide, by decide, trivial⟩
    (by decide) (by decide) ⟨⟨11, .importTx, [7]⟩, by decide, by decide⟩ (by decide)

theorem inspected_append (l1 l2 : List Event) :
    inspected (l1 ++ l2) = inspected l1 ++ inspected l2 := by
  induction l1 with
  | nil => rfl
  | cons e l ih => cases e <;> simp [inspected, ih]

theorem processAndInsert_facts (vm : VM) (s : VMState) (b p : Block) (pre : List Event) :
    (processAndInsert vm s b p pre).err ≠ some .errConflictingAtomicInputs ∧
    (processAndInsert vm s b p pre).err ≠ some .errUnknownAtomicTx ∧
    (processAndInsert vm s b p pre).err ≠ some .semanticVerifyFailed ∧
    (processAndInsert vm s b p pre).err ≠ some .errRejectedParent ∧
    (processAndInsert vm s b p pre).state = s ∧
    inspected (processAndInsert vm s b p pre).trace = inspected pre ∧
    ∀ t, Event.semanticVerify t ∈ (processAndInsert vm s b p pre).trace →
      Event.semanticVerify t ∈ pre := by
  unfold processAndInsert
  split_ifs <;> simp [inspected_append, inspected]

theorem semanticThenProcess_facts (vm : VM) (s : VMState) (b p : Block) (tx : Tx)
    (pre : List Event) :
    (semanticThenProcess vm s b p tx pre).err ≠ some .errConflictingAtomicInputs ∧
    (semanticThenProcess vm s b p tx pre).err ≠ some .errRejectedParent ∧
    (semanticThenProcess vm s b p tx pre).state = s ∧
    inspected (semanticThenProcess vm s b p tx pre).trace = inspected pre := by
  unfold semanticThenProcess
  split_ifs
  · simp [inspected_append, inspected]
  · have h := processAndInsert_facts vm s b p (pre ++ [.semanticVerify tx.id])
    refine ⟨h.1, h.2.2.2.1, h.2.2.2.2.1, ?_⟩
    rw [h.2.2.2.2.2.1]
    simp [inspected_append, inspected]

theorem mempoolCalls_append (l1 l2 : List Event) :
    mempoolCalls (l1 ++ l2) = mempoolCalls l1 ++ mempoolCalls l2 := by
  simp [mempoolCalls]

theorem processAndInsert_mempool (vm : VM) (s : VMState) (b p : Block) (pre : List Event) :
    mempoolCalls (processAndInsert vm s b p pre).trace = mempoolCalls pre := by
  unfold processAndInsert
  split_ifs <;> simp [mempoolCalls, touchesMempool]

theorem semanticThenProcess_mempool (vm : VM) (s : VMState) (b p : Block) (tx : Tx)
    (pre : List Event) :
    mempoolCalls (semanticThenProcess vm s b p tx pre).trace = mempoolCalls pre := by
  unfold semanticThenProcess
  split_ifs
  · simp [mempoolCalls, touchesMempool]
  · rw [processAndInsert_mempool]
    simp [mempoolCalls, touchesMempool]

/-- The ancestor loop issues no call on the mempool. -/
theorem conflictWalk_mempool (vm : VM) (inputs : List ID) :
    ∀ (fuel : Nat) (ancestor : Block) (w : Option Error × List Event),
      conflictWalk vm inputs fuel ancestor = some w → mempoolCalls w.2 = [] := by
  intro fuel
  induction fuel with
  | zero =>
    intro ancestor w h
    simp [conflictWalk] at h
  | succ f ih =>
    intro ancestor w h
    rw [conflictWalk_succ] at h
    split at h
    · cases h
      rfl
    · split at h
      · cases h
        rfl
      · split at h
        · cases h
          rfl
        · split at h
          · cases h
            rfl
          · split at h
            · cases h
              rfl
            · rename_i next _
              cases hn : conflictWalk vm inputs f next with
              | none => simp [hn] at h
              | some w2 =>
                simp only [hn, Option.map_some', Option.some.injEq] at h
                subst h
                have hw2 := ih next w2 hn
                simp only
                rw [mempoolCalls_append, hw2]
                rfl

/-- Either `Verify` ends without entering the ancestor loop (then it needs no
fuel, inspects no ancestor, and its error is not the conflict error), or the
block is a non-bonus Import block with a block as parent and `Verify`
continues with the loop started at that parent. -/
theorem Verify_walk_or_not (vm : VM) (s : VMState) (fuel : Nat) (b : Block) :
    (∃ r, Verify vm s fuel b = some r ∧ Verify vm s 0 b = some r ∧
      inspected r.trace = [] ∧ r.err ≠ some .errConflictingAtomicInputs ∧ r.state = s ∧
      mempoolCalls r.trace = []) ∨
    (∃ p tx, Parent vm b = .block p ∧ vm.extractAtomicTx b.ethBlock = .tx tx ∧
      tx.kind = .importTx ∧ vm.bonusBlocks.contains b.id = false ∧
      Verify vm s fuel b =
        match conflictWalk vm tx.inputs fuel p with
        | none => none
        | some (some e, calls) => some ⟨some e, b, s, verifyPrefix b p ++ calls⟩
        | some (none, calls) =>
          some (semanticThenProcess vm s b p tx (verifyPrefix b p ++ calls))) := by
  by_cases hs : vm.SyntacticVerify b = true
  swap
  · left
    simp [Verify, hs, inspected, mempoolCalls, touchesMempool]
  by_cases hh : vm.HasBlock (Parent vm b).ID (prevHeight b) = true
  swap
  · left
    simp [Verify, hs, hh, inspected, mempoolCalls, touchesMempool]
  cases htx : vm.extractAtomicTx b.ethBlock with
  | error =>
    left
    simp [Verify, hs, hh, htx, inspected, mempoolCalls, touchesMempool]
  | none =>
    left
    by_cases hi : vm.InsertChain b.ethBlock = true <;>
      simp [Verify, hs, hh, htx, hi, inspected, mempoolCalls, touchesMempool]
  | tx atomicTx =>
    by_cases hur : unknownOrRejected (Parent vm b).Status = true
    · left
      simp [Verify, hs, hh, htx, hur, inspected, mempoolCalls, touchesMempool]
    cases hp : Parent vm b with
    | missing i =>
      left
      rw [hp] at hh hur
      simp [Verify, hs, hh, htx, hur, hp, inspected, mempoolCalls, touchesMempool]
    | block p =>
      rw [hp] at hh hur
      by_cases hbs : vm.BlockState p.ethBlock = true
      swap
      · left
        simp [Verify, hs, hh, htx, hur, hp, hbs, inspected, mempoolCalls, touchesMempool]
      by_cases hb : b.id ∈ vm.bonusBlocks
      · left
        have h := processAndInsert_facts vm s b p (verifyPrefix b p)
        have hm := processAndInsert_mempool vm s b p (verifyPrefix b p)
        refine ⟨processAndInsert vm s b p (verifyPrefix b p), ?_, ?_, ?_, h.1, h.2.2.2.2.1,
          ?_⟩
        · simp only [ParentBlock.ID] at hh
          simp [Verify, hs, hh, htx, hur, hp, hbs, hb, verifyPrefix, ParentBlock.ID]
        · simp only [ParentBlock.ID] at hh
          simp [Verify, hs, hh, htx, hur, hp, hbs, hb, verifyPrefix, ParentBlock.ID]
        · rw [h.2.2.2.2.2.1]
          simp [verifyPrefix, inspected]
        · rw [hm]
          simp [verifyPrefix, mempoolCalls, touchesMempool]
      cases hk : atomicTx.kind with
      | importTx =>
        right
        refine ⟨p, atomicTx, rfl, rfl, hk, by simpa using hb, ?_⟩
        simp only [ParentBlock.ID, ParentBlock.Status] at hh hur
        exact Verify_importTx vm s fuel b p atomicTx hs hp hh htx (by simpa using hur) hbs
          (by simpa using hb) hk
      | exportTx =>
        left
        have h := semanticThenProcess_facts vm s b p atomicTx (verifyPrefix b p)
        have hm := semanticThenProcess_mempool vm s b p atomicTx (verifyPrefix b p)
        refine ⟨semanticThenProcess vm s b p atomicTx (verifyPrefix b p), ?_, ?_, ?_,
          h.1, h.2.2.1, ?_⟩
        · simp only [ParentBlock.ID] at hh
          simp [Verify, hs, hh, htx, hur, hp, hbs, hb, hk, verifyPrefix, ParentBlock.ID]
        · simp only [ParentBlock.ID] at hh
          simp [Verify, hs, hh, htx, hur, hp, hbs, hb, hk, verifyPrefix, ParentBlock.ID]
        · rw [h.2.2.2]
          simp [verifyPrefix, inspected]
        · rw [hm]
          simp [verifyPrefix, mempoolCalls, touchesMempool]
      | other =>
        left
        simp only [ParentBlock.ID] at hh
        simp [Verify, hs, hh, htx, hur, hp, hbs, hb, hk, inspected, ParentBlock.ID,
          mempoolCalls, touchesMempool]

/-- C2: a block whose atomic transaction is an Export is verified without any
ancestor being inspected, with no fuel at all, and never gets
`errConflictingAtomicInputs`. -/
theorem verify_export_no_walk (vm : VM) (s : VMState) (fuel : Nat) (b : Block) (tx : Tx)
    (htx : vm.extractAtomicTx b.ethBlock = .tx tx) (hkind : tx.kind = .exportTx) :
    ∃ r, Verify vm s fuel b = some r ∧ Verify vm s 0 b = some r ∧
      r.err ≠ some .errConflictingAtomicInputs ∧ inspected r.trace = [] := by
  rcases Verify_walk_or_not vm s fuel b with ⟨r, h1, h2, h3, h4, _⟩ | ⟨p, tx2, _, htx2, hk, _⟩
  · exact ⟨r, h1, h2, h4, h3⟩
  · rw [htx] at htx2
    cases htx2
    rw [hkind] at hk
    cases hk

theorem verify_export_no_walk_witness :
    ∃ r, Verify exVM exState 3 exBlk4 = some r ∧ Verify exVM exState 0 exBlk4 = some r ∧
      r.err ≠ some .errConflictingAtomicInputs ∧ inspected r.trace = [] :=
  verify_export_no_walk exVM exState 3 exBlk4 ⟨14, .exportTx, []⟩ (by decide) (by decide)

/-- C4: on a bonus-listed block `Verify` returns (with any fuel) and its error
is neither `errConflictingAtomicInputs`, nor `errUnknownAtomicTx`, nor the
error of a failed `SemanticVerify`; no ancestor is inspected and
`SemanticVerify` is not called. -/
theorem verify_bonus_skips_atomic_checks (vm : VM) (s : VMState) (fuel : Nat) (b : Block)
    (hbonus : vm.bonusBlocks.contains b.id = true) :
    ∃ r, Verify vm s fuel b = some r ∧
      r.err ≠ some .errConflictingAtomicInputs ∧
      r.err ≠ some .errUnknownAtomicTx ∧
      r.err ≠ some .semanticVerifyFailed ∧
      inspected r.trace = [] ∧
      ∀ t, Event.semanticVerify t ∉ r.trace := by
  have hb : b.id ∈ vm.bonusBlocks := by simpa using hbonus
  by_cases hs : vm.SyntacticVerify b = true
  swap
  · simp [Verify, hs, inspected]
  by_cases hh : vm.HasBlock (Parent vm b).ID (prevHeight b) = true
  swap
  · simp [Verify, hs, hh, inspected]
  cases htx : vm.extractAtomicTx b.ethBlock with
  | error => simp [Verify, hs, hh, htx, inspected]
  | none =>
    by_cases hi : vm.InsertChain b.ethBlock = true <;>
      simp [Verify, hs, hh, htx, hi, inspected]
  | tx atomicTx =>
    by_cases hur : unknownOrRejected (Parent vm b).Status = true
    · simp [Verify, hs, hh, htx, hur, inspected]
    cases hp : Parent vm b with
    | missing i =>
      rw [hp] at hh hur
      simp [Verify, hs, hh, htx, hur, hp, inspected]
    | block p =>
      rw [hp] at hh hur
      by_cases hbs : vm.BlockState p.ethBlock = true
      swap
      · simp [Verify, hs, hh, htx, hur, hp, hbs, inspected]
      have h := processAndInsert_facts vm s b p (verifyPrefix b p)
      refine ⟨processAndInsert vm s b p (verifyPrefix b p), ?_, h.1, h.2.1, h.2.2.1, ?_, ?_⟩
      · simp only [ParentBlock.ID] at hh
        simp [Verify, hs, hh, htx, hur, hp, hbs, hb, verifyPrefix, ParentBlock.ID]
      · rw [h.2.2.2.2.2.1]
        simp [verifyPrefix, inspected]
      · intro t ht
        have := h.2.2.2.2.2.2 t ht
        simp [verifyPrefix] at this

theorem verify_bonus_skips_atomic_checks_witness :
    ∃ r, Verify exVM exState 0 exBlk3 = some r ∧
      r.err ≠ some .errConflictingAtomicInputs ∧
      r.err ≠ some .errUnknownAtomicTx ∧
      r.err ≠ some .semanticVerifyFailed ∧
      inspected r.trace = [] ∧
      ∀ t, Event.semanticVerify t ∉ r.trace :=
  verify_bonus_skips_atomic_checks exVM exState 0 exBlk3 (by decide)

/-- The loop started below an accepted ancestor `a`, reached through the
not-accepted ancestors `ps`: it ends, the ancestors it inspects are an initial
segment of `ps`, and it reports a conflict only if a member of `ps` overlaps. -/
theorem conflictWalk_upto_accepted (vm : VM) (inputs : List ID) (a : Block)
    (hacc : a.status = .Accepted) :
    ∀ (ps : List Block) (b : Block) (fuel : Nat) (p0 : Block),
      IsChain vm b (ps ++ [a]) →
      (∀ p ∈ ps, p.status ≠ .Accepted) →
      ps.length < fuel →
      Parent vm b = .block p0 →
      ∃ r, conflictWalk vm inputs fuel p0 = some r ∧
        inspected r.2 <+: ps.map (fun p => p.id) ∧
        ((∀ p ∈ ps, conflictsWith inputs (vm.extractAtomicTx p.ethBlock) = false) →
          r.1 ≠ some .errConflictingAtomicInputs) := by
  intro ps
  induction ps with
  | nil =>
    intro b fuel p0 hchain _ hfuel hp0
    obtain ⟨f, rfl⟩ : ∃ f, fuel = f + 1 := ⟨fuel - 1, by simp at hfuel; omega⟩
    have hpa : Parent vm b = .block a := hchain.1
    have hEq : p0 = a := by
      rw [hp0] at hpa
      exact ParentBlock.block.inj hpa
    subst hEq
    refine ⟨(none, []), ?_, by simp [inspected], by simp⟩
    rw [conflictWalk_succ]
    simp [hacc]
  | cons p ps ih =>
    intro b fuel p0 hchain hps hfuel hp0
    obtain ⟨f, rfl⟩ : ∃ f, fuel = f + 1 := ⟨fuel - 1, by simp at hfuel; omega⟩
    have hpa : Parent vm b = .block p := hchain.1
    have hrest : IsChain vm p (ps ++ [a]) := hchain.2
    have hEq : p0 = p := by
      rw [hp0] at hpa
      exact ParentBlock.block.inj hpa
    subst hEq
    have hst : p0.status ≠ .Accepted := hps p0 (by simp)
    obtain ⟨p1, hp1⟩ : ∃ p1, Parent vm p0 = .block p1 := by
      cases ps with
      | nil => exact ⟨a, hrest.1⟩
      | cons q qs => exact ⟨q, hrest.1⟩
    obtain ⟨r, hr, hins, hconf⟩ := ih p0 f p1 hrest
      (fun q hq => hps q (by simp [hq])) (by simp at hfuel; omega) hp1
    rw [conflictWalk_succ]
    simp only [hst, if_false]
    cases hx : vm.extractAtomicTx p0.ethBlock with
    | error =>
      refine ⟨_, rfl, ?_, ?_⟩
      · simp [inspected]
      · simp
    | none =>
      simp only [conflictsWith, hp1, ParentBlock.Status]
      by_cases hur : unknownOrRejected p1.status = true
      · simp [hur, inspected]
      · simp only [hur, hr, Option.map_some', Bool.false_eq_true, if_false]
        refine ⟨_, rfl, ?_, ?_⟩
        · simpa [inspected] using hins
        · intro h
          exact hconf (fun q hq => h q (by simp [hq]))
    | tx atx =>
      simp only [conflictsWith, hp1, ParentBlock.Status]
      by_cases hc : Overlaps inputs atx.inputs = true
      · simp only [hc, if_true]
        refine ⟨_, rfl, by simp [inspected], ?_⟩
        intro h
        have := h p0 (by simp)
        rw [hx] at this
        simp [conflictsWith, hc] at this
      · by_cases hur : unknownOrRejected p1.status = true
        · simp [hc, hur, inspected]
        · simp only [hc, hur, hr, Option.map_some', Bool.false_eq_true, if_false]
          refine ⟨_, rfl, ?_, ?_⟩
          · simpa [inspected] using hins
          · intro h
            exact hconf (fun q hq => h q (by simp [hq]))

/-- What `Verify` returns, given what the ancestor loop returns on the path
through the `*UnsignedImportTx` case. -/
theorem Verify_after_walk (vm : VM) (s : VMState) (fuel : Nat) (b p : Block) (tx : Tx)
    (w : Option Error × List Event)
    (hw : conflictWalk vm tx.inputs fuel p = some w)
    (hv : Verify vm s fuel b =
      match conflictWalk vm tx.inputs fuel p with
      | none => none
      | some (some e, calls) => some ⟨some e, b, s, verifyPrefix b p ++ calls⟩
      | some (none, calls) =>
        some (semanticThenProcess vm s b p tx (verifyPrefix b p ++ calls))) :
    ∃ r, Verify vm s fuel b = some r ∧ inspected r.trace = inspected w.2 ∧
      (w.1 ≠ some .errConflictingAtomicInputs → r.err ≠ some .errConflictingAtomicInputs) ∧
      r.state = s ∧ mempoolCalls r.trace = [] := by
  have hm : mempoolCalls w.2 = [] := conflictWalk_mempool vm tx.inputs fuel p w hw
  rw [hw] at hv
  obtain ⟨e, calls⟩ := w
  cases e with
  | some e =>
    refine ⟨_, hv, ?_, ?_, rfl, ?_⟩
    · simp [inspected_append, verifyPrefix, inspected]
    · intro h
      simpa using h
    · simp only [mempoolCalls_append]
      simp only at hm
      rw [hm]
      simp [verifyPrefix, mempoolCalls, touchesMempool]
  | none =>
    have h := semanticThenProcess_facts vm s b p tx (verifyPrefix b p ++ calls)
    refine ⟨_, hv, ?_, fun _ => h.1, h.2.2.1, ?_⟩
    · rw [h.2.2.2]
      simp [inspected_append, verifyPrefix, inspected]
    · rw [semanticThenProcess_mempool, mempoolCalls_append]
      simp only at hm
      rw [hm]
      simp [verifyPrefix, mempoolCalls, touchesMempool]

/-- C3: when the ancestors of `b` below its first accepted ancestor `a` are
`ps`, `Verify` returns, the ancestors it inspects form an initial segment of
`ps` (none when the parent is accepted), and it returns
`errConflictingAtomicInputs` only if a member of `ps` overlaps: the inputs of
`a` and of the ancestors above `a` play no part. -/
theorem verify_walk_stops_at_accepted (vm : VM) (s : VMState) (fuel : Nat) (b : Block)
    (ps : List Block) (a : Block)
    (hchain : IsChain vm b (ps ++ [a]))
    (hacc : a.status = .Accepted)
    (hps : ∀ p ∈ ps, p.status ≠ .Accepted)
    (hfuel : ps.length < fuel) :
    ∃ r, Verify vm s fuel b = some r ∧
      inspected r.trace <+: ps.map (fun p => p.id) ∧
      (ps = [] → inspected r.trace = []) ∧
      ∀ tx, vm.extractAtomicTx b.ethBlock = .tx tx →
        (∀ p ∈ ps, conflictsWith tx.inputs (vm.extractAtomicTx p.ethBlock) = false) →
        r.err ≠ some .errConflictingAtomicInputs := by
  rcases Verify_walk_or_not vm s fuel b with ⟨r, h1, _, h3, h4, _⟩ | ⟨p, tx, hp, htx, _, _, hv⟩
  · refine ⟨r, h1, ?_, fun _ => h3, fun _ _ _ => h4⟩
    rw [h3]
    exact List.nil_prefix
  · obtain ⟨w, hw, hpre, hconf⟩ :=
      conflictWalk_upto_accepted vm tx.inputs a hacc ps b fuel p hchain hps hfuel hp
    obtain ⟨r, hr, hins, herr, _⟩ := Verify_after_walk vm s fuel b p tx w hw hv
    refine ⟨r, hr, ?_, ?_, ?_⟩
    · rw [hins]
      exact hpre
    · intro hnil
      rw [hins]
      rw [hnil] at hpre
      simpa using hpre
    · intro tx2 htx2 hfree
      rw [htx] at htx2
      cases htx2
      exact herr (hconf hfree)

theorem verify_walk_stops_at_accepted_witness :
    ∃ r, Verify exVM exState 3 exBlk7 = some r ∧
      inspected r.trace <+: [exBlk5, exBlk1].map (fun p => p.id) ∧
      ([exBlk5, exBlk1] = [] → inspected r.trace = []) ∧
      ∀ tx, exVM.extractAtomicTx exBlk7.ethBlock = .tx tx →
        (∀ p ∈ [exBlk5, exBlk1],
          conflictsWith tx.inputs (exVM.extractAtomicTx p.ethBlock) = false) →
        r.err ≠ some .errConflictingAtomicInputs :=
  verify_walk_stops_at_accepted exVM exState 3 exBlk7 [exBlk5, exBlk1] exBlk0
    ⟨by decide, by decide, by decide, trivial⟩ (by decide) (by decide) (by decide)

/-- C7, as stated, fails: block 9 of `exVM` (rejected, the only other claimant
of UTXO 20) is not an ancestor of block 10, whose Import consumes UTXOs 20 and
7; the only not-yet-accepted ancestor of block 10 is block 1, which does not
consume UTXO 20; yet `Verify` of block 10 returns `errConflictingAtomicInputs`,
because block 1 consumes UTXO 7. -/
theorem verify_reclaim_conflicts_on_other_input :
    (Reject exVM exState exBlk9).block.status = .Rejected ∧
    exVM.extractAtomicTx exBlk9.ethBlock = .tx ⟨19, .importTx, [20]⟩ ∧
    exVM.extractAtomicTx exBlk10.ethBlock = .tx ⟨110, .importTx, [20, 7]⟩ ∧
    IsChain exVM exBlk10 [exBlk1, exBlk0] ∧
    exBlk1.status = .Processing ∧ exBlk0.status = .Accepted ∧
    exBlk9.id ∉ [exBlk1, exBlk0].map (fun p => p.id) ∧
    exVM.extractAtomicTx exBlk1.ethBlock = .tx ⟨11, .importTx, [7]⟩ ∧
    Overlaps [20] [7] = false ∧
    (Verify exVM (Reject exVM exState exBlk9).state 5 exBlk10).map (fun r => r.err) =
      some (some .errConflictingAtomicInputs) := by
  refine ⟨by decide, by decide, by decide, ⟨by decide, by decide, trivial⟩, by decide,
    by decide, by decide, by decide, by decide, by decide⟩

/-- C7 (amended): `B` carries an Import that consumes the UTXO `u` and is
rejected; the atomic transaction of `B2` consumes `u` too, so that `B` would
conflict with it if the loop inspected `B`. When the not-yet-accepted
ancestors `ps` of `B2` do not include `B` and consume none of the UTXOs of the
atomic transaction of `B2`, `Reject` of `B` sets its status to Rejected and
releases its transaction, and `Verify` of `B2` then returns without
`errConflictingAtomicInputs`, `B` not being among the inspected ancestors. -/
theorem verify_after_reject_reclaim (vm : VM) (s : VMState) (fuel : Nat) (B B2 : Block)
    (txB tx2 : Tx) (u : ID) (ps : List Block) (a : Block)
    (htxB : vm.extractAtomicTx B.ethBlock = .tx txB)
    (huB : u ∈ txB.inputs)
    (htx : vm.extractAtomicTx B2.ethBlock = .tx tx2)
    (hu2 : u ∈ tx2.inputs)
    (hchain : IsChain vm B2 (ps ++ [a]))
    (hacc : a.status = .Accepted)
    (hps : ∀ p ∈ ps, p.status ≠ .Accepted)
    (hfuel : ps.length < fuel)
    (hdesc : B.id ∉ ps.map (fun p => p.id))
    (hfree : ∀ p ∈ ps, conflictsWith tx2.inputs (vm.extractAtomicTx p.ethBlock) = false) :
    (Reject vm s B).block.status = .Rejected ∧
    Event.rejectTx txB.id ∈ (Reject vm s B).trace ∧
    conflictsWith tx2.inputs (vm.extractAtomicTx B.ethBlock) = true ∧
    ∃ r, Verify vm (Reject vm s B).state fuel B2 = some r ∧
      r.err ≠ some .errConflictingAtomicInputs ∧
      B.id ∉ inspected r.trace := by
  refine ⟨?_, ?_, ?_, ?_⟩
  · simp [Reject, htxB]
  · simp [Reject, htxB]
  · rw [htxB]
    simp only [conflictsWith, Overlaps, List.any_eq_true]
    exact ⟨u, hu2, by simpa using huB⟩
  · rcases Verify_walk_or_not vm (Reject vm s B).state fuel B2 with
      ⟨r, h1, _, h3, h4, _⟩ | ⟨p, tx, hp, htx3, _, _, hv⟩
    · refine ⟨r, h1, h4, ?_⟩
      rw [h3]
      simp
    · obtain ⟨w, hw, hpre, hconf⟩ :=
        conflictWalk_upto_accepted vm tx.inputs a hacc ps B2 fuel p hchain hps hfuel hp
      obtain ⟨r, hr, hins, herr, _⟩ :=
        Verify_after_walk vm (Reject vm s B).state fuel B2 p tx w hw hv
      rw [htx] at htx3
      cases htx3
      refine ⟨r, hr, herr (hconf hfree), ?_⟩
      rw [hins]
      intro hmem
      exact hdesc (hpre.subset hmem)

theorem verify_after_reject_reclaim_witness :
    exVMReclaim.GetBlockInternal 9 = some (Reject exVMReclaim exState exBlk9).block ∧
    (Reject exVMReclaim exState exBlk9).block.status = .Rejected ∧
    Event.rejectTx 19 ∈ (Reject exVMReclaim exState exBlk9).trace ∧
    conflictsWith [20] (exVMReclaim.extractAtomicTx exBlk9.ethBlock) = true ∧
    (∃ r, Verify exVMReclaim (Reject exVMReclaim exState exBlk9).state 2 exBlk21 = some r ∧
      r.err ≠ some .errConflictingAtomicInputs ∧
      exBlk9.id ∉ inspected r.trace) ∧
    (Verify exVMReclaim (Reject exVMReclaim exState exBlk9).state 2 exBlk21).map
      (fun r => (r.err, inspected r.trace)) = some (none, [1]) :=
  match verify_after_reject_reclaim exVMReclaim exState 2 exBlk9 exBlk21
    ⟨19, .importTx, [20]⟩ ⟨121, .importTx, [20]⟩ 20 [exBlk1] exBlk0 (by decide) (by decide)
    (by decide) (by decide) ⟨by decide, by decide, trivial⟩ (by decide) (by decide) (by decide)
    (by decide) (by decide) with
  | ⟨h1, h2, h3, h4⟩ => ⟨by decide, h1, h2, h3, h4, by decide⟩

/-- C6, as stated, fails for a block without atomic transaction: block 11 of
`exVM` is well-formed, its parent (block 9) is in the chain and has status
Rejected, and `Verify` inserts it into the chain and returns no error. -/
theorem verify_rejected_parent_plain_block_passes :
    exVM.SyntacticVerify exBlk11 = true ∧
    Parent exVM exBlk11 = .block exBlk9 ∧ exBlk9.status = .Rejected ∧
    exVM.extractAtomicTx exBlk11.ethBlock = .none ∧
    Verify exVM exState 5 exBlk11 =
      some ⟨none, exBlk11, exState,
        [.syntacticVerify, .getBlock 9, .hasBlock 9 2, .extractAtomicTx 11,
          .insertChain 11]⟩ := by
  refine ⟨by decide, by decide, by decide, by decide, by decide⟩

/-- C6 (amended): a well-formed block is refused with `errRejectedParent`,
and `InsertChain` is not called, when its parent is not in the chain
(`HasBlock` is false), or when it carries an atomic transaction and its
parent has status Unknown or Rejected. -/
theorem verify_rejected_parent (vm : VM) (s : VMState) (fuel : Nat) (b : Block)
    (hsyn : vm.SyntacticVerify b = true)
    (h : vm.HasBlock (Parent vm b).ID (prevHeight b) = false ∨
      ((∃ tx, vm.extractAtomicTx b.ethBlock = .tx tx) ∧
        ((Parent vm b).Status = .Unknown ∨ (Parent vm b).Status = .Rejected))) :
    ∃ r, Verify vm s fuel b = some r ∧ r.err = some .errRejectedParent ∧
      ∀ hash, Event.insertChain hash ∉ r.trace := by
  by_cases hh : vm.HasBlock (Parent vm b).ID (prevHeight b) = true
  swap
  · simp [Verify, hsyn, hh]
  rcases h with h | ⟨⟨tx, htx⟩, hst⟩
  · rw [h] at hh
    cases hh
  · have hur : unknownOrRejected (Parent vm b).Status = true := by
      rcases hst with h1 | h1 <;> rw [h1] <;> rfl
    simp [Verify, hsyn, hh, htx, hur]

theorem verify_rejected_parent_witness :
    ∃ r, Verify exVM exState 0 exBlk12 = some r ∧ r.err = some .errRejectedParent ∧
      ∀ hash, Event.insertChain hash ∉ r.trace :=
  verify_rejected_parent exVM exState 0 exBlk12 (by decide)
    (Or.inr ⟨⟨⟨112, .importTx, [21]⟩, by decide⟩, Or.inr (by decide)⟩)

/-! ## Accept -/

theorem has_RemoveTx (mempool : List ID) (txID : ID) :
    has (RemoveTx mempool txID) txID = false := by
  simp [has, RemoveTx]

/-- C5, as stated, fails: block 3 of `exVM` is bonus-listed and carries
transaction 13, which the mempool holds; `Accept` succeeds, calls `RemoveTx`
and `writeAtomicTx`, the mempool no longer holds transaction 13 and the
Operation Log has received it. -/
theorem accept_bonus_removes_and_logs :
    exVM.bonusBlocks.contains exBlk3.id = true ∧
    exVM.extractAtomicTx exBlk3.ethBlock = .tx ⟨13, .importTx, [7]⟩ ∧
    has exState.mempool 13 = true ∧ exState.opLog = [] ∧
    (Accept exVM exState exBlk3).err = none ∧
    has (Accept exVM exState exBlk3).state.mempool 13 = false ∧
    (Accept exVM exState exBlk3).state.opLog = [(2, ⟨13, .importTx, [7]⟩)] ∧
    (Accept exVM exState exBlk3).trace =
      [.startCommit, .chainAccept 3, .putLastAccepted 3, .extractAtomicTx 3,
        .removeTx 13, .writeAtomicTx 13, .abortCommit] := by
  refine ⟨by decide, by decide, by decide, by decide, by decide, by decide, by decide,
    by decide⟩

/-- C5 (amended): for every block carrying an atomic transaction, bonus-listed
or not, `Accept` (once chain acceptance and the last-accepted write have
succeeded) removes the transaction from the mempool and calls `writeAtomicTx`,
which on success appends it to the Operation Log. What a bonus-listed block
skips is the batch: `CommitBatch`, the transaction's `Accept` and `EndBatch`
are called only for a block that is not bonus-listed. -/
theorem accept_atomic_tx_bonus_or_not (vm : VM) (s : VMState) (b : Block) (tx : Tx)
    (hca : vm.chainAccept b.ethBlock = true)
    (hput : vm.putLastAccepted b.id = true)
    (htx : vm.extractAtomicTx b.ethBlock = .tx tx) :
    Event.removeTx tx.id ∈ (Accept vm s b).trace ∧
    Event.writeAtomicTx tx.id ∈ (Accept vm s b).trace ∧
    has (Accept vm s b).state.mempool tx.id = false ∧
    (vm.writeAtomicTx { b with status := .Accepted } tx = true →
      (Accept vm s b).state.opLog = appendOpLog s.opLog b tx) ∧
    (vm.bonusBlocks.contains b.id = true →
      (∀ ok, Event.commitBatch ok ∉ (Accept vm s b).trace) ∧
      Event.txAccept tx.id ∉ (Accept vm s b).trace ∧
      Event.endBatch ∉ (Accept vm s b).trace ∧
      (Accept vm s b).state.sharedMemory = s.sharedMemory) ∧
    ((∃ ok, Event.commitBatch ok ∈ (Accept vm s b).trace) →
      vm.bonusBlocks.contains b.id = false) := by
  have hrm := has_RemoveTx s.mempool tx.id
  by_cases hw : vm.writeAtomicTx { b with status := .Accepted } tx = true
  swap
  · simp [Accept, acceptBody, hca, hput, htx, hw, hrm]
  by_cases hb : b.id ∈ vm.bonusBlocks
  · simp [Accept, acceptBody, hca, hput, htx, hw, hb, hrm, appendOpLog, Height]
  by_cases hcb : vm.CommitBatch = true
  swap
  · simp [Accept, acceptBody, acceptBatch, hca, hput, htx, hw, hb, hcb, hrm, appendOpLog,
      Height]
  by_cases hta : vm.txAccept tx = true <;>
    simp [Accept, acceptBody, acceptBatch, hca, hput, htx, hw, hb, hcb, hta, hrm,
      appendOpLog, Height]

theorem accept_atomic_tx_bonus_or_not_witness :
    Event.removeTx 13 ∈ (Accept exVM exState exBlk3).trace ∧
    Event.writeAtomicTx 13 ∈ (Accept exVM exState exBlk3).trace ∧
    has (Accept exVM exState exBlk3).state.mempool 13 = false ∧
    (exVM.writeAtomicTx { exBlk3 with status := .Accepted } ⟨13, .importTx, [7]⟩ = true →
      (Accept exVM exState exBlk3).state.opLog =
        appendOpLog exState.opLog exBlk3 ⟨13, .importTx, [7]⟩) ∧
    (exVM.bonusBlocks.contains exBlk3.id = true →
      (∀ ok, Event.commitBatch ok ∉ (Accept exVM exState exBlk3).trace) ∧
      Event.txAccept 13 ∉ (Accept exVM exState exBlk3).trace ∧
      Event.endBatch ∉ (Accept exVM exState exBlk3).trace ∧
      (Accept exVM exState exBlk3).state.sharedMemory = exState.sharedMemory) ∧
    ((∃ ok, Event.commitBatch ok ∈ (Accept exVM exState exBlk3).trace) →
      exVM.bonusBlocks.contains exBlk3.id = false) :=
  accept_atomic_tx_bonus_or_not exVM exState exBlk3 ⟨13, .importTx, [7]⟩
    (by decide) (by decide) (by decide)

/-- C8: when the atomic transaction of a block is in the mempool, it is still
there after `Verify` has returned, successfully or not (`Verify` issues no
call on the mempool), and a successful `Accept` that follows leaves a mempool
without it, its only call on the mempool being `RemoveTx` with the identifier
of the transaction. -/
theorem mempool_after_verify_and_accept (vm : VM) (s : VMState) (fuel : Nat) (b : Block)
    (tx : Tx) (r : Outcome)
    (htx : vm.extractAtomicTx b.ethBlock = .tx tx)
    (hmem : has s.mempool tx.id = true)
    (hv : Verify vm s fuel b = some r) :
    has r.state.mempool tx.id = true ∧ mempoolCalls r.trace = [] ∧
    ((Accept vm r.state b).err = none →
      has (Accept vm r.state b).state.mempool tx.id = false ∧
      mempoolCalls (Accept vm r.state b).trace = [.removeTx tx.id]) := by
  have hframe : r.state = s ∧ mempoolCalls r.trace = [] := by
    rcases Verify_walk_or_not vm s fuel b with
      ⟨r1, h1, _, _, _, h5, h6⟩ | ⟨p, tx1, _, _, _, _, hvm⟩
    · rw [hv] at h1
      cases h1
      exact ⟨h5, h6⟩
    · cases hw : conflictWalk vm tx1.inputs fuel p with
      | none =>
        rw [hw, hv] at hvm
        cases hvm
      | some w =>
        obtain ⟨r1, h1, _, _, h5, h6⟩ := Verify_after_walk vm s fuel b p tx1 w hw hvm
        rw [hv] at h1
        cases h1
        exact ⟨h5, h6⟩
  refine ⟨by rw [hframe.1]; exact hmem, hframe.2, ?_⟩
  have hrm := has_RemoveTx r.state.mempool tx.id
  by_cases hca : vm.chainAccept b.ethBlock = true
  swap
  · simp [Accept, acceptBody, hca]
  by_cases hput : vm.putLastAccepted b.id = true
  swap
  · simp [Accept, acceptBody, hca, hput]
  by_cases hw : vm.writeAtomicTx { b with status := .Accepted } tx = true
  swap
  · simp [Accept, acceptBody, hca, hput, htx, hw]
  by_cases hb : b.id ∈ vm.bonusBlocks
  · simp [Accept, acceptBody, hca, hput, htx, hw, hb, hrm, mempoolCalls, touchesMempool]
  by_cases hcb : vm.CommitBatch = true
  swap
  · simp [Accept, acceptBody, acceptBatch, hca, hput, htx, hw, hb, hcb]
  by_cases hta : vm.txAccept tx = true <;>
    simp [Accept, acceptBody, acceptBatch, hca, hput, htx, hw, hb, hcb, hta, hrm,
      mempoolCalls, touchesMempool]

theorem mempool_after_verify_and_accept_witness :
    (exVerified7.err = none ∧ has exState.mempool 17 = true ∧
      (Accept exVM exVerified7.state exBlk7).err = none) ∧
    has exVerified7.state.mempool 17 = true ∧ mempoolCalls exVerified7.trace = [] ∧
    ((Accept exVM exVerified7.state exBlk7).err = none →
      has (Accept exVM exVerified7.state exBlk7).state.mempool 17 = false ∧
      mempoolCalls (Accept exVM exVerified7.state exBlk7).trace = [.removeTx 17]) :=
  ⟨⟨by decide, by decide, by decide⟩,
    mempool_after_verify_and_accept exVM exState 3 exBlk7 ⟨17, .importTx, [9]⟩ exVerified7
      (by decide) (by decide) (by decide)⟩

/-- C9: every run of `Accept` starts with `StartCommit` and ends with
`AbortCommit`, each called once; when `CommitBatch` succeeded, `EndBatch` is
called once, right before `AbortCommit`, whether the transaction's `Accept`
failed or not; when no batch was obtained, `EndBatch` is not called. -/
theorem accept_commit_section (vm : VM) (s : VMState) (b : Block) :
    (Accept vm s b).trace.head? = some .startCommit ∧
    (Accept vm s b).trace.getLast? = some .abortCommit ∧
    (Accept vm s b).trace.count .startCommit = 1 ∧
    (Accept vm s b).trace.count .abortCommit = 1 ∧
    (Event.commitBatch true ∈ (Accept vm s b).trace →
      (Accept vm s b).trace.count .endBatch = 1 ∧
      ∃ pre, (Accept vm s b).trace = pre ++ [.endBatch, .abortCommit]) ∧
    (Event.commitBatch true ∉ (Accept vm s b).trace →
      Event.endBatch ∉ (Accept vm s b).trace) := by
  by_cases hca : vm.chainAccept b.ethBlock = true
  swap
  · simp [Accept, acceptBody, hca]
  by_cases hput : vm.putLastAccepted b.id = true
  swap
  · simp [Accept, acceptBody, hca, hput]
  cases htx : vm.extractAtomicTx b.ethBlock with
  | error => simp [Accept, acceptBody, hca, hput, htx]
  | none => simp [Accept, acceptBody, hca, hput, htx]
  | tx tx =>
    by_cases hw : vm.writeAtomicTx { b with status := .Accepted } tx = true
    swap
    · simp [Accept, acceptBody, hca, hput, htx, hw]
    by_cases hb : b.id ∈ vm.bonusBlocks
    · simp [Accept, acceptBody, hca, hput, htx, hw, hb]
    by_cases hcb : vm.CommitBatch = true
    swap
    · simp [Accept, acceptBody, acceptBatch, hca, hput, htx, hw, hb, hcb]
    by_cases hta : vm.txAccept tx = true <;>
      simp [Accept, acceptBody, acceptBatch, hca, hput, htx, hw, hb, hcb, hta] <;>
      exact ⟨[.startCommit, .chainAccept b.ethBlock.hash, .putLastAccepted b.id,
        .extractAtomicTx b.ethBlock.hash, .removeTx tx.id, .writeAtomicTx tx.id,
        .commitBatch true, .txAccept tx.id], rfl⟩

/-- C10: in every run of `Accept`, either no batch handle is obtained and
nothing is issued under one, or the calls are exactly `StartCommit`, the chain
acceptance, the pointer write, the extraction, `RemoveTx`, `writeAtomicTx`,
`CommitBatch`, the transaction's `Accept`, `EndBatch`, `AbortCommit`: the one
call issued while the batch is held is the application of the operation set of
the block's own atomic transaction. -/
theorem accept_batch_window (vm : VM) (s : VMState) (b : Block) :
    (Event.commitBatch true ∉ (Accept vm s b).trace ∧
      whileBatchHeld (Accept vm s b).trace = []) ∨
    (∃ tx, vm.extractAtomicTx b.ethBlock = .tx tx ∧
      (Accept vm s b).trace =
        [.startCommit, .chainAccept b.ethBlock.hash, .putLastAccepted b.id,
          .extractAtomicTx b.ethBlock.hash, .removeTx tx.id, .writeAtomicTx tx.id,
          .commitBatch true, .txAccept tx.id, .endBatch, .abortCommit] ∧
      whileBatchHeld (Accept vm s b).trace = [.txAccept tx.id]) := by
  by_cases hca : vm.chainAccept b.ethBlock = true
  swap
  · left
    simp [Accept, acceptBody, hca, whileBatchHeld]
  by_cases hput : vm.putLastAccepted b.id = true
  swap
  · left
    simp [Accept, acceptBody, hca, hput, whileBatchHeld]
  cases htx : vm.extractAtomicTx b.ethBlock with
  | error =>
    left
    simp [Accept, acceptBody, hca, hput, htx, whileBatchHeld]
  | none =>
    left
    simp [Accept, acceptBody, hca, hput, htx, whileBatchHeld]
  | tx tx =>
    by_cases hw : vm.writeAtomicTx { b with status := .Accepted } tx = true
    swap
    · left
      simp [Accept, acceptBody, hca, hput, htx, hw, whileBatchHeld]
    by_cases hb : b.id ∈ vm.bonusBlocks
    · left
      simp [Accept, acceptBody, hca, hput, htx, hw, hb, whileBatchHeld]
    by_cases hcb : vm.CommitBatch = true
    swap
    · left
      simp [Accept, acceptBody, acceptBatch, hca, hput, htx, hw, hb, hcb, whileBatchHeld]
    right
    have hne : (Event.txAccept tx.id != Event.endBatch) = true := by simp
    by_cases hta : vm.txAccept tx = true <;>
      simp [Accept, acceptBody, acceptBatch, hca, hput, htx, hw, hb, hcb, hta,
        whileBatchHeld, List.takeWhile_cons, hne]

/-! ## Reject and the status -/

/-- C11: `Reject` sets the status to Rejected and returns no error; it calls
`RejectTx`, with the identifier of the transaction, exactly when
`extractAtomicTx` yields a transaction; when the extraction fails, nothing is
reported and the mempool is not called. -/
theorem reject_sets_status_and_signals (vm : VM) (s : VMState) (b : Block) :
    (Reject vm s b).block.status = .Rejected ∧
    (Reject vm s b).err = none ∧
    (∀ id, Event.rejectTx id ∈ (Reject vm s b).trace ↔
      ∃ tx, vm.extractAtomicTx b.ethBlock = .tx tx ∧ tx.id = id) ∧
    (∀ tx, vm.extractAtomicTx b.ethBlock = .tx tx →
      mempoolCalls (Reject vm s b).trace = [.rejectTx tx.id]) ∧
    ((∀ tx, vm.extractAtomicTx b.ethBlock ≠ .tx tx) →
      mempoolCalls (Reject vm s b).trace = []) := by
  cases hx : vm.extractAtomicTx b.ethBlock with
  | error => simp [Reject, hx, mempoolCalls, touchesMempool]
  | none => simp [Reject, hx, mempoolCalls, touchesMempool]
  | tx t => simp [Reject, hx, mempoolCalls, touchesMempool, eq_comm]

/-- C12, as stated, fails: `Accept` followed by `Reject` on the processing
block 1 of `exVM` takes its status to Accepted and then to Rejected, and
`SetStatus` takes an accepted block back to Unknown; neither is a move of the
life cycle. -/
theorem status_leaves_accepted :
    exBlk1.status = .Processing ∧
    statusPath exVM (exState, exBlk1) [.accept, .reject] = [.Accepted, .Rejected] ∧
    legalMove .Accepted .Rejected = false ∧
    statusPath exVM (exState, exBlk1) [.accept, .setStatus .Unknown] =
      [.Accepted, .Unknown] ∧
    legalMove .Accepted .Unknown = false := by
  refine ⟨by decide, by decide, by decide, by decide, by decide⟩

/-- C12 (amended): whatever the status of the block, `Accept` leaves it
Accepted, `Reject` leaves it Rejected and `SetStatus` leaves it at its
argument; over a sequence of operations the status after each operation is
the one this operation writes. -/
theorem status_after_each_operation (vm : VM) (s : VMState) (b : Block)
    (ops : List BlockOp) :
    (Accept vm s b).block.status = .Accepted ∧
    (Reject vm s b).block.status = .Rejected ∧
    (∀ st, (SetStatus b st).status = st) ∧
    statusPath vm (s, b) ops = ops.map BlockOp.target := by
  refine ⟨?_, ?_, fun _ => rfl, ?_⟩
  · simp only [Accept, acceptBody, acceptBatch]
    split_ifs <;> first | rfl | (split <;> (try split_ifs) <;> rfl)
  · simp only [Reject]
    cases vm.extractAtomicTx b.ethBlock <;> rfl
  · induction ops generalizing s b with
    | nil => rfl
    | cons op ops ih =>
      have h1 : (applyOp vm (s, b) op).2.status = op.target := by
        cases op with
        | accept =>
          simp only [applyOp, BlockOp.target, Accept, acceptBody, acceptBatch]
          split_ifs <;> first | rfl | (split <;> (try split_ifs) <;> rfl)
        | reject =>
          simp only [applyOp, BlockOp.target, Reject]
          cases vm.extractAtomicTx b.ethBlock <;> rfl
        | setStatus st => rfl
      simp only [statusPath, List.map_cons, h1]
      rw [ih (applyOp vm (s, b) op).1 (applyOp vm (s, b) op).2]

/-! ## The atomic trie -/

theorem Uint64_PutUint64 (v : Nat) (hv : v < 2 ^ 64) : Uint64 (PutUint64 v) = some v := by
  simp only [PutUint64, Uint64, Option.some.injEq]
  omega

theorem PutUint64_length (v : Nat) : (PutUint64 v).length = 8 := rfl

theorem PutUint64_inj (v w : Nat) (hv : v < 2 ^ 64) (hw : w < 2 ^ 64)
    (h : PutUint64 v = PutUint64 w) : v = w := by
  have h1 := Uint64_PutUint64 v hv
  rw [h, Uint64_PutUint64 w hw] at h1
  exact (Option.some.inj h1).symm

theorem BytesToHash_val (h : Hash) : BytesToHash h.val = h := by
  apply Subtype.ext
  simp [BytesToHash, h.property]

theorem PutUint64_ne_lastCommittedKey (v : Nat) : PutUint64 v ≠ lastCommittedKey := by
  intro h
  have := congrArg List.length h
  simp [PutUint64, lastCommittedKey] at this

/-- What `commit` leaves when it returns no error. -/
theorem commit_ok (env : TrieEnv) (t : blockingAtomicTrie) (height : Nat)
    (h : (commit env t height).err = none) :
    commit env t height =
      ⟨env.rootHash t.trie, none,
        { t with
          trieDB := (env.rootHash t.trie, t.trie) :: t.trieDB,
          db := (lastCommittedKey, PutUint64 height) ::
            (PutUint64 height, (env.rootHash t.trie).val) :: t.db }, []⟩ := by
  unfold commit at h ⊢
  by_cases h1 : env.trieCommitOk t.trie = true
  swap
  · simp [h1] at h
  by_cases h2 : env.trieDBCommitOk (env.rootHash t.trie) = true
  swap
  · simp [h1, h2] at h
  by_cases h3 : env.putOk (PutUint64 height) = true
  swap
  · simp [h1, h2, h3, dbPut] at h
  by_cases h4 : env.putOk lastCommittedKey = true
  swap
  · simp [h1, h2, h3, h4, dbPut] at h
  simp [h1, h2, h3, h4, dbPut]

/-- The collaborator calls of `commit` all succeed exactly when it returns no
error. -/
theorem commit_err_none_iff (env : TrieEnv) (t : blockingAtomicTrie) (height : Nat) :
    (commit env t height).err = none ↔
      (env.trieCommitOk t.trie = true ∧ env.trieDBCommitOk (env.rootHash t.trie) = true ∧
        env.putOk (PutUint64 height) = true ∧ env.putOk lastCommittedKey = true) := by
  unfold commit
  by_cases h1 : env.trieCommitOk t.trie = true
  swap
  · simp [h1]
  by_cases h2 : env.trieDBCommitOk (env.rootHash t.trie) = true
  swap
  · simp [h1, h2]
  by_cases h3 : env.putOk (PutUint64 height) = true
  swap
  · simp [h1, h2, h3, dbPut]
  by_cases h4 : env.putOk lastCommittedKey = true
  swap
  · simp [h1, h2, h3, h4, dbPut]
  simp [h1, h2, h3, h4, dbPut]

/-- The three ways `index` ends. -/
theorem index_eq (env : TrieEnv) (t : blockingAtomicTrie) (height : Nat)
    (atomicOps : AtomicReqs) :
    index env t height atomicOps =
      match (updateTrie env t.trie height atomicOps).1 with
      | some err =>
        ⟨zeroHash, some err, { t with trie := (updateTrie env t.trie height atomicOps).2 },
          [height]⟩
      | none =>
        if t.commitHeightInterval = 0 then
          ⟨zeroHash, some .panic,
            { t with trie := (updateTrie env t.trie height atomicOps).2 }, [height]⟩
        else if height % t.commitHeightInterval ≠ 0 then
          ⟨zeroHash, none, { t with trie := (updateTrie env t.trie height atomicOps).2 },
            [height]⟩
        else
          { commit env { t with trie := (updateTrie env t.trie height atomicOps).2 } height
            with indexed := [height] } := by
  unfold index
  rcases hu : updateTrie env t.trie height atomicOps with ⟨e, trie⟩
  cases e <;> rfl

/-- The last-committed pointer and the root record read back by
`LastCommitted`. -/
theorem LastCommitted_after_puts (env : TrieEnv) (t : blockingAtomicTrie) (height : Nat)
    (hash : Hash) (db : List (Bytes × Bytes))
    (hdb : t.db = (lastCommittedKey, PutUint64 height) :: (PutUint64 height, hash.val) :: db)
    (hh : height < 2 ^ 64)
    (hg1 : env.getFails lastCommittedKey = false)
    (hg2 : env.getFails (PutUint64 height) = false) :
    LastCommitted env t = (hash, (height + 1) % 2 ^ 64, none) := by
  have hne : (PutUint64 height == lastCommittedKey) = false := by
    simpa using PutUint64_ne_lastCommittedKey height
  simp [LastCommitted, dbGet, hdb, hg1, hg2, List.lookup, Uint64_PutUint64 height hh, hne,
    BytesToHash_val]

/-- C13: on a store without last-committed pointer `LastCommitted` returns the
zero hash, height 0 and no error; right after `index` has committed at height
`h` (a `uint64` multiple of the interval 4096 that `NewBlockingAtomicTrie`
sets) it returns the hash `index` returned, which is the root recorded under
`h`, with the height `h + 1` and no error. -/
theorem lastCommitted_fresh_and_after_commit (env : TrieEnv) (t : blockingAtomicTrie)
    (height : Nat) (atomicOps : AtomicReqs) :
    (env.getFails lastCommittedKey = false → t.db.lookup lastCommittedKey = none →
      LastCommitted env t = (zeroHash, 0, none)) ∧
    (height < 2 ^ 64 → t.commitHeightInterval = commitHeightInterval →
      height % commitHeightInterval = 0 →
      (index env t height atomicOps).err = none →
      env.getFails lastCommittedKey = false → env.getFails (PutUint64 height) = false →
      LastCommitted env (index env t height atomicOps).state =
        ((index env t height atomicOps).hash, height + 1, none) ∧
      (index env t height atomicOps).state.db.lookup (PutUint64 height) =
        some (index env t height atomicOps).hash.val ∧
      (index env t height atomicOps).hash =
        env.rootHash (index env t height atomicOps).state.trie) := by
  constructor
  · intro hg hnone
    simp [LastCommitted, dbGet, hg, hnone]
  · intro hh hint hmod herr hg1 hg2
    rw [index_eq] at herr ⊢
    cases hu : (updateTrie env t.trie height atomicOps).1 with
    | some e => simp [hu] at herr
    | none =>
      have h0 : t.commitHeightInterval ≠ 0 := by
        rw [hint]
        decide
      have hm : height % t.commitHeightInterval = 0 := by
        rw [hint]
        exact hmod
      simp only [hu, h0, hm, if_false, ne_eq, not_true_eq_false] at herr ⊢
      have hc := commit_ok env
        { t with trie := (updateTrie env t.trie height atomicOps).2 } height herr
      rw [hc]
      have hsmall : (height + 1) % 2 ^ 64 = height + 1 := by
        have hmod2 : height % 4096 = 0 := hmod
        omega
      refine ⟨?_, ?_, rfl⟩
      · rw [LastCommitted_after_puts env _ height
          (env.rootHash (updateTrie env t.trie height atomicOps).2) t.db rfl hh hg1 hg2,
          hsmall]
      · have hne : (PutUint64 height == lastCommittedKey) = false := by
          simpa using PutUint64_ne_lastCommittedKey height
        simp [List.lookup, hne]

theorem lastCommitted_fresh_and_after_commit_witness :
    LastCommitted exTrieEnv exTrie = (zeroHash, 0, none) ∧
    LastCommitted exTrieEnv (index exTrieEnv exTrie 8192 exOps1).state =
      ((index exTrieEnv exTrie 8192 exOps1).hash, 8192 + 1, none) ∧
    (index exTrieEnv exTrie 8192 exOps1).state.db.lookup (PutUint64 8192) =
      some (index exTrieEnv exTrie 8192 exOps1).hash.val ∧
    (index exTrieEnv exTrie 8192 exOps1).hash =
      exTrieEnv.rootHash (index exTrieEnv exTrie 8192 exOps1).state.trie :=
  ⟨(lastCommitted_fresh_and_after_commit exTrieEnv exTrie 8192 exOps1).1 rfl rfl,
    (lastCommitted_fresh_and_after_commit exTrieEnv exTrie 8192 exOps1).2
      (by decide) rfl (by decide) (by decide) rfl rfl⟩

/-- C15: once the operations are applied to the trie (every request set
encodes) and the interval is positive, `index` at a height that is not a
multiple of the interval returns the empty hash and no error and leaves the
store and the flushed tries as they were; at a multiple of the interval, when
the calls of the commit succeed, it returns the root hash of the updated
trie, flushes the trie under it, records `height -> root` and sets the
last-committed pointer to the height. -/
theorem index_commits_on_interval (env : TrieEnv) (t : blockingAtomicTrie) (height : Nat)
    (atomicOps : AtomicReqs)
    (hint : 0 < t.commitHeightInterval)
    (hup : (updateTrie env t.trie height atomicOps).1 = none) :
    (height % t.commitHeightInterval ≠ 0 →
      index env t height atomicOps =
        ⟨zeroHash, none, { t with trie := (updateTrie env t.trie height atomicOps).2 },
          [height]⟩) ∧
    (height % t.commitHeightInterval = 0 →
      env.trieCommitOk (updateTrie env t.trie height atomicOps).2 = true →
      env.trieDBCommitOk (env.rootHash (updateTrie env t.trie height atomicOps).2) = true →
      env.putOk (PutUint64 height) = true → env.putOk lastCommittedKey = true →
      index env t height atomicOps =
        ⟨env.rootHash (updateTrie env t.trie height atomicOps).2, none,
          { t with
            trie := (updateTrie env t.trie height atomicOps).2,
            trieDB := (env.rootHash (updateTrie env t.trie height atomicOps).2,
              (updateTrie env t.trie height atomicOps).2) :: t.trieDB,
            db := (lastCommittedKey, PutUint64 height) ::
              (PutUint64 height, (env.rootHash (updateTrie env t.trie height atomicOps).2).val)
                :: t.db },
          [height]⟩ ∧
      (index env t height atomicOps).state.db.lookup lastCommittedKey =
        some (PutUint64 height) ∧
      (index env t height atomicOps).state.db.lookup (PutUint64 height) =
        some (env.rootHash (updateTrie env t.trie height atomicOps).2).val) := by
  have h0 : t.commitHeightInterval ≠ 0 := by omega
  constructor
  · intro hm
    rw [index_eq]
    simp [hup, h0, hm]
  · intro hm h1 h2 h3 h4
    have herr : (commit env { t with trie := (updateTrie env t.trie height atomicOps).2 }
        height).err = none :=
      (commit_err_none_iff env _ height).2 ⟨h1, h2, h3, h4⟩
    have hc := commit_ok env _ height herr
    have hix : index env t height atomicOps =
        ⟨env.rootHash (updateTrie env t.trie height atomicOps).2, none,
          { t with
            trie := (updateTrie env t.trie height atomicOps).2,
            trieDB := (env.rootHash (updateTrie env t.trie height atomicOps).2,
              (updateTrie env t.trie height atomicOps).2) :: t.trieDB,
            db := (lastCommittedKey, PutUint64 height) ::
              (PutUint64 height, (env.rootHash (updateTrie env t.trie height atomicOps).2).val)
                :: t.db },
          [height]⟩ := by
      rw [index_eq]
      simp only [hup, h0, hm, if_false, ne_eq, not_true_eq_false]
      rw [hc]
    have hne : (PutUint64 height == lastCommittedKey) = false := by
      simpa using PutUint64_ne_lastCommittedKey height
    refine ⟨hix, ?_, ?_⟩
    · rw [hix]
      simp [List.lookup]
    · rw [hix]
      simp [List.lookup, hne]

theorem index_commits_on_interval_witness :
    (4097 % exTrie.commitHeightInterval ≠ 0 →
      index exTrieEnv exTrie 4097 exOps1 =
        ⟨zeroHash, none,
          { exTrie with trie := (updateTrie exTrieEnv exTrie.trie 4097 exOps1).2 },
          [4097]⟩) ∧
    (index exTrieEnv exTrie 4097 exOps1).state.db = [] ∧
    (index exTrieEnv exTrie 4096 exOps1).state.db.lookup lastCommittedKey =
      some (PutUint64 4096) ∧
    (index exTrieEnv exTrie 4096 exOps1).hash =
      exTrieEnv.rootHash [(PutUint64 4096 ++ exChain 1, [1, 1])] :=
  ⟨(index_commits_on_interval exTrieEnv exTrie 4097 exOps1 (by decide) (by decide)).1,
    by decide, by decide, by decide⟩

/-- C17: while the completion signal has not been observed, `Index` returns
the empty hash and no error, records the operation set in the pending writes
under its height, passes nothing to `index` and changes nothing else: the
trie, the store and the flushed tries stay as they were. -/
theorem index_buffers_before_completion (env : TrieEnv) (t : blockingAtomicTrie)
    (pending : List (Nat × AtomicReqs)) (height : Nat) (atomicOps : AtomicReqs)
    (hp : t.pendingWrites = some pending) :
    Index env t false height atomicOps =
      ⟨zeroHash, none, { t with pendingWrites := some (mapSet pending height atomicOps) },
        []⟩ ∧
    (mapSet pending height atomicOps).lookup height = some atomicOps ∧
    (Index env t false height atomicOps).state.trie = t.trie ∧
    (Index env t false height atomicOps).state.db = t.db ∧
    (Index env t false height atomicOps).state.trieDB = t.trieDB := by
  have hl : ∀ m : List (Nat × AtomicReqs),
      (mapSet m height atomicOps).lookup height = some atomicOps := by
    intro m
    induction m with
    | nil => simp [mapSet, List.lookup]
    | cons e m ih =>
      obtain ⟨k, v⟩ := e
      by_cases hk : k = height
      · simp [mapSet, hk, List.lookup]
      · have hk2 : (height == k) = false := by
          simpa using fun h => hk h.symm
        simp [mapSet, hk, List.lookup, hk2, ih]
  simp [Index, hp, hl]

theorem index_buffers_before_completion_witness :
    Index exTrieEnv exTrie false 7 exOps1 =
      ⟨zeroHash, none, { exTrie with pendingWrites := some (mapSet [] 7 exOps1) }, []⟩ ∧
    (mapSet [] 7 exOps1).lookup 7 = some exOps1 ∧
    (Index exTrieEnv exTrie false 7 exOps1).state.trie = exTrie.trie ∧
    (Index exTrieEnv exTrie false 7 exOps1).state.db = exTrie.db ∧
    (Index exTrieEnv exTrie false 7 exOps1).state.trieDB = exTrie.trieDB :=
  index_buffers_before_completion exTrieEnv exTrie [] 7 exOps1 rfl

/-- The fields `commit` never writes. -/
theorem commit_frame (env : TrieEnv) (t : blockingAtomicTrie) (height : Nat) :
    (commit env t height).state.commitHeightInterval = t.commitHeightInterval ∧
    (commit env t height).state.repo = t.repo ∧
    (commit env t height).state.pendingWrites = t.pendingWrites ∧
    (commit env t height).state.trie = t.trie := by
  unfold commit
  by_cases h1 : env.trieCommitOk t.trie = true
  swap
  · simp [h1]
  by_cases h2 : env.trieDBCommitOk (env.rootHash t.trie) = true
  swap
  · simp [h1, h2]
  by_cases h3 : env.putOk (PutUint64 height) = true
  swap
  · simp [h1, h2, h3, dbPut]
  by_cases h4 : env.putOk lastCommittedKey = true
  swap
  · simp [h1, h2, h3, h4, dbPut]
  simp [h1, h2, h3, h4, dbPut]

/-- The fields `index` never writes, and the heights it reports. -/
theorem index_frame (env : TrieEnv) (t : blockingAtomicTrie) (height : Nat)
    (atomicOps : AtomicReqs) :
    (index env t height atomicOps).state.commitHeightInterval = t.commitHeightInterval ∧
    (index env t height atomicOps).state.repo = t.repo ∧
    (index env t height atomicOps).state.pendingWrites = t.pendingWrites ∧
    (index env t height atomicOps).state.trie = (updateTrie env t.trie height atomicOps).2 ∧
    (index env t height atomicOps).indexed = [height] := by
  rw [index_eq]
  cases hu : (updateTrie env t.trie height atomicOps).1 with
  | some e => simp
  | none =>
    by_cases h0 : t.commitHeightInterval = 0
    · simp [h0]
    by_cases hm : height % t.commitHeightInterval = 0
    · have hc := commit_frame env
        { t with trie := (updateTrie env t.trie height atomicOps).2 } height
      simp only [h0, hm, if_false, ne_eq, not_true_eq_false]
      exact ⟨hc.1, hc.2.1, hc.2.2.1, hc.2.2.2, trivial⟩
    · simp [h0, hm]

/-- The loop of `initialize` over two stretches of the Operation Log. -/
theorem rebuildLoop_append (env : TrieEnv) (l2 : List (Bytes × List Bytes)) :
    ∀ (l1 : List (Bytes × List Bytes)) (t : blockingAtomicTrie) (n : Nat),
      rebuildLoop env t n (l1 ++ l2) =
        match (rebuildLoop env t n l1).err with
        | some _ => rebuildLoop env t n l1
        | none =>
          { rebuildLoop env (rebuildLoop env t n l1).state
              (rebuildLoop env t n l1).transactionsIndexed l2 with
            indexed := (rebuildLoop env t n l1).indexed ++
              (rebuildLoop env (rebuildLoop env t n l1).state
                (rebuildLoop env t n l1).transactionsIndexed l2).indexed } := by
  intro l1
  induction l1 with
  | nil =>
    intro t n
    simp [rebuildLoop]
  | cons e l1 ih =>
    intro t n
    obtain ⟨heightBytes, value⟩ := e
    simp only [List.cons_append, rebuildLoop]
    by_cases hit : env.iterError heightBytes = true
    · simp [hit]
    simp only [hit, Bool.false_eq_true, if_false]
    by_cases hskip : heightBytes.length ≠ 8 ∨ heightBytes = env.heightAtomicTxDBInitializedKey
    · simp only [hskip, if_true]
      exact ih t n
    simp only [hskip, if_false]
    cases hu : Uint64 heightBytes with
    | none => simp
    | some height =>
      cases hp : parseTxs env value with
      | none => simp
      | some txs =>
        rcases hm : mergeTxs env [] n txs with ⟨e, ops, m⟩
        cases e with
        | some err => simp [hm]
        | none =>
          simp only [hm]
          cases hi : (index env t height ops).err with
          | some err => simp
          | none =>
            simp only [List.append_eq]
            rw [ih (index env t height ops).state m]
            cases hr : (rebuildLoop env (index env t height ops).state m l1).err with
            | some err => simp [hr]
            | none => simp [hr, List.append_assoc]

/-- What a committing `index` leaves in the store and among the flushed
tries. -/
theorem index_commit_db (env : TrieEnv) (t : blockingAtomicTrie) (height : Nat)
    (atomicOps : AtomicReqs)
    (herr : (index env t height atomicOps).err = none)
    (hm : height % t.commitHeightInterval = 0) :
    (index env t height atomicOps).hash =
      env.rootHash (index env t height atomicOps).state.trie ∧
    (index env t height atomicOps).state.db =
      (lastCommittedKey, PutUint64 height) ::
        (PutUint64 height, (env.rootHash (index env t height atomicOps).state.trie).val) ::
          t.db ∧
    (index env t height atomicOps).state.trieDB =
      (env.rootHash (index env t height atomicOps).state.trie,
        (index env t height atomicOps).state.trie) :: t.trieDB := by
  rw [index_eq] at herr ⊢
  cases hu : (updateTrie env t.trie height atomicOps).1 with
  | some e => simp [hu] at herr
  | none =>
    by_cases h0 : t.commitHeightInterval = 0
    · simp [hu, h0] at herr
    simp only [hu, h0, hm, if_false, ne_eq, not_true_eq_false] at herr ⊢
    rw [commit_ok env _ height herr]
    exact ⟨rfl, rfl, rfl⟩

/-- The fields the loop of `initialize` never writes. -/
theorem rebuildLoop_frame (env : TrieEnv) :
    ∀ (l : List (Bytes × List Bytes)) (t : blockingAtomicTrie) (n : Nat),
      (rebuildLoop env t n l).state.commitHeightInterval = t.commitHeightInterval ∧
      (rebuildLoop env t n l).state.repo = t.repo ∧
      (rebuildLoop env t n l).state.pendingWrites = t.pendingWrites ∧
      (rebuildLoop env t n l).dbCommits = 0 := by
  intro l
  induction l with
  | nil =>
    intro t n
    simp [rebuildLoop]
  | cons e l ih =>
    intro t n
    obtain ⟨heightBytes, value⟩ := e
    simp only [rebuildLoop]
    by_cases hit : env.iterError heightBytes = true
    · simp [hit]
    simp only [hit, Bool.false_eq_true, if_false]
    by_cases hskip : heightBytes.length ≠ 8 ∨ heightBytes = env.heightAtomicTxDBInitializedKey
    · simp only [hskip, if_true]
      exact ih t n
    simp only [hskip, if_false]
    cases hu : Uint64 heightBytes with
    | none => simp
    | some height =>
      cases hp : parseTxs env value with
      | none => simp
      | some txs =>
        rcases hm : mergeTxs env [] n txs with ⟨e, ops, m⟩
        have hf := index_frame env t height ops
        cases e with
        | some err => simp [hm]
        | none =>
          simp only [hm]
          cases hi : (index env t height ops).err with
          | some err => simp [hf.1, hf.2.1, hf.2.2.1]
          | none =>
            have h2 := ih (index env t height ops).state m
            simp only
            rw [h2.1, h2.2.1, h2.2.2.1, h2.2.2.2, hf.1, hf.2.1, hf.2.2.1]
            exact ⟨rfl, rfl, rfl, rfl⟩

/-- The loop of `initialize` on one entry whose height is a multiple of the
interval: it ends with the commit at this height. -/
theorem rebuildLoop_single_commit (env : TrieEnv) (t : blockingAtomicTrie) (n H : Nat)
    (value : List Bytes)
    (hH : H < 2 ^ 64)
    (hk : PutUint64 H ≠ env.heightAtomicTxDBInitializedKey)
    (hm : H % t.commitHeightInterval = 0)
    (herr : (rebuildLoop env t n [(PutUint64 H, value)]).err = none) :
    (rebuildLoop env t n [(PutUint64 H, value)]).state.db =
      (lastCommittedKey, PutUint64 H) ::
        (PutUint64 H,
          (env.rootHash (rebuildLoop env t n [(PutUint64 H, value)]).state.trie).val) ::
            t.db := by
  simp only [rebuildLoop] at herr ⊢
  by_cases hit : env.iterError (PutUint64 H) = true
  · simp [hit] at herr
  simp only [hit, Bool.false_eq_true, if_false, PutUint64_length, ne_eq, not_true_eq_false,
    false_or] at herr ⊢
  simp only [hk, if_false, Uint64_PutUint64 H hH] at herr ⊢
  cases hp : parseTxs env value with
  | none => simp [hp] at herr
  | some txs =>
    rcases hmt : mergeTxs env [] n txs with ⟨e, ops, m⟩
    cases e with
    | some err => simp [hp, hmt] at herr
    | none =>
      simp only [hp, hmt] at herr ⊢
      cases hi : (index env t H ops).err with
      | some err => simp [hi] at herr
      | none =>
        simp only [hi]
        exact (index_commit_db env t H ops hi hm).2.1

/-- The state `initialize` leaves is the one its loop leaves, and the loop
ended without error when `initialize` did. -/
theorem initializeTrie_ok (env : TrieEnv) (t : blockingAtomicTrie) (dbCommitFn : Option Bool)
    (hok : (initializeTrie env t dbCommitFn).err = none) :
    (LastCommitted env t).2.2 = none ∧
    (rebuildLoop env t 0 (IterateByHeight t.repo (LastCommitted env t).2.1)).err = none ∧
    (initializeTrie env t dbCommitFn).state =
      (rebuildLoop env t 0 (IterateByHeight t.repo (LastCommitted env t).2.1)).state ∧
    (initializeTrie env t dbCommitFn).indexed =
      (rebuildLoop env t 0 (IterateByHeight t.repo (LastCommitted env t).2.1)).indexed := by
  unfold initializeTrie at hok ⊢
  rcases hl : LastCommitted env t with ⟨x, nh, e⟩
  cases e with
  | some err => simp [hl] at hok
  | none =>
    simp only [hl] at hok ⊢
    cases hr : (rebuildLoop env t 0 (IterateByHeight t.repo nh)).err with
    | some err =>
      simp only [hr] at hok
      cases hok
    | none =>
      simp only [hr] at hok ⊢
      cases dbCommitFn with
      | none => exact ⟨trivial, trivial, rfl, rfl⟩
      | some ok =>
        cases ok with
        | true => exact ⟨trivial, trivial, rfl, rfl⟩
        | false => simp at hok

/-- C14, as stated, fails: with interval 2 and an Operation Log holding the
heights 0, 1 and 2, the rebuild indexes the three heights without error and
`LastCommitted` then returns the height 3, not 2. -/
theorem rebuild_lastCommitted_is_not_the_committed_height :
    (initializeTrie exTrieEnv exLogTrie none).err = none ∧
    (initializeTrie exTrieEnv exLogTrie none).indexed = [0, 1, 2] ∧
    2 % exLogTrie.commitHeightInterval = 0 ∧
    (LastCommitted exTrieEnv (initializeTrie exTrieEnv exLogTrie none).state).2 =
      (3, none) ∧
    (LastCommitted exTrieEnv (initializeTrie exTrieEnv exLogTrie none).state).1 ≠
      zeroHash := by
  refine ⟨by decide, by decide, by decide, by decide, by decide⟩

/-- C14 (amended): after the index has been built from an Operation Log whose
last entry is at height `H`, a multiple of the commit interval,
`LastCommitted` returns the root hash of the trie, committed at `H` (not the
zero hash, for a trie whose root hash never is), together with the next
indexable height `H + 1`. -/
theorem rebuild_lastCommitted_next_height (env : TrieEnv) (t : blockingAtomicTrie)
    (dbCommitFn : Option Bool) (pre : List (Bytes × List Bytes)) (H : Nat)
    (value : List Bytes)
    (hscan : IterateByHeight t.repo (LastCommitted env t).2.1 = pre ++ [(PutUint64 H, value)])
    (hH : H + 1 < 2 ^ 64)
    (hkey : PutUint64 H ≠ env.heightAtomicTxDBInitializedKey)
    (hmod : H % t.commitHeightInterval = 0)
    (hok : (initializeTrie env t dbCommitFn).err = none)
    (hg1 : env.getFails lastCommittedKey = false)
    (hg2 : env.getFails (PutUint64 H) = false) :
    LastCommitted env (initializeTrie env t dbCommitFn).state =
      (env.rootHash (initializeTrie env t dbCommitFn).state.trie, H + 1, none) ∧
    ((∀ l, env.rootHash l ≠ zeroHash) →
      (LastCommitted env (initializeTrie env t dbCommitFn).state).1 ≠ zeroHash) := by
  obtain ⟨_, hloop, hstate, _⟩ := initializeTrie_ok env t dbCommitFn hok
  rw [hscan, rebuildLoop_append] at hloop
  have hst2 := hstate
  rw [hscan, rebuildLoop_append] at hst2
  cases hpre : (rebuildLoop env t 0 pre).err with
  | some err =>
    simp only [hpre] at hloop
    cases hloop
  | none =>
    simp only [hpre] at hloop hst2
    have hfr := rebuildLoop_frame env pre t 0
    have hdb := rebuildLoop_single_commit env (rebuildLoop env t 0 pre).state
      (rebuildLoop env t 0 pre).transactionsIndexed H value (by omega) hkey
      (by rw [hfr.1]; exact hmod) hloop
    have hsmall : (H + 1) % 2 ^ 64 = H + 1 := Nat.mod_eq_of_lt hH
    have hlc := LastCommitted_after_puts env (initializeTrie env t dbCommitFn).state H
      (env.rootHash (initializeTrie env t dbCommitFn).state.trie)
      (rebuildLoop env t 0 pre).state.db
      (by rw [hst2]; exact hdb) (by omega) hg1 hg2
    rw [hsmall] at hlc
    refine ⟨hlc, fun hnz => ?_⟩
    rw [hlc]
    exact hnz _

theorem rebuild_lastCommitted_next_height_witness :
    LastCommitted exTrieEnv (initializeTrie exTrieEnv exLogTrie (some true)).state =
      (exTrieEnv.rootHash (initializeTrie exTrieEnv exLogTrie (some true)).state.trie,
        2 + 1, none) ∧
    ((∀ l, exTrieEnv.rootHash l ≠ zeroHash) →
      (LastCommitted exTrieEnv (initializeTrie exTrieEnv exLogTrie (some true)).state).1 ≠
        zeroHash) :=
  rebuild_lastCommitted_next_height exTrieEnv exLogTrie (some true)
    [(PutUint64 0, [[1]]), (PutUint64 1, [[1]])] 2 [[2]]
    (by decide) (by decide) (by decide) (by decide) (by decide) rfl rfl

/-- C16 on a failing input: the heights 4096 and 8192 are buffered before the
completion signal and flushed by the call at height 8193, `range` visiting
8192 before 4096. The final trie is the one of the direct path, but the roots
recorded under 4096 and under 8192 both differ from those of the direct path,
and the last-committed pointer ends at 4096 instead of 8192. -/
theorem index_buffered_out_of_order :
    (exTrieEnv.mapOrder [(4096, exOps1), (8192, exOps2)]).Perm
      [(4096, exOps1), (8192, exOps2)] ∧
    (Index exTrieEnv
      (Index exTrieEnv (Index exTrieEnv exTrie false 4096 exOps1).state false 8192
        exOps2).state true 8193 exOps3).indexed = [8192, 4096, 8193] ∧
    exBuffered.trie = exDirect.trie ∧
    exDirect.db.lookup (PutUint64 4096) = some (exTrieEnv.rootHash [([], [])]).val ∧
    exBuffered.db.lookup (PutUint64 4096) = some (exTrieEnv.rootHash [([], []), ([], [])]).val ∧
    exDirect.db.lookup (PutUint64 8192) = some (exTrieEnv.rootHash [([], []), ([], [])]).val ∧
    exBuffered.db.lookup (PutUint64 8192) = some (exTrieEnv.rootHash [([], [])]).val ∧
    exTrieEnv.rootHash [([], [])] ≠ exTrieEnv.rootHash [([], []), ([], [])] ∧
    (LastCommitted exTrieEnv exDirect).2 = (8193, none) ∧
    (LastCommitted exTrieEnv exBuffered).2 = (4097, none) := by
  refine ⟨?_, by decide, by decide, by decide, by decide, by decide, by decide, by decide,
    by decide, by decide⟩
  exact (List.reverse_perm _)

/-- The loop over the pending writes, when no `index` fails: it passes each
height once, in the order given, and leaves the pending writes untouched. -/
theorem flushPending_ok (env : TrieEnv) :
    ∀ (l : List (Nat × AtomicReqs)) (t : blockingAtomicTrie),
      (flushPending env t l).err = none →
      (flushPending env t l).indexed = l.map Prod.fst ∧
      (flushPending env t l).state.pendingWrites = t.pendingWrites ∧
      (flushPending env t l).state.commitHeightInterval = t.commitHeightInterval ∧
      (flushPending env t l).state.repo = t.repo := by
  intro l
  induction l with
  | nil =>
    intro t _
    simp [flushPending]
  | cons e l ih =>
    intro t herr
    obtain ⟨height, atomicOps⟩ := e
    have hf := index_frame env t height atomicOps
    simp only [flushPending] at herr ⊢
    cases hi : (index env t height atomicOps).err with
    | some err => simp [hi] at herr
    | none =>
      simp only [hi] at herr ⊢
      have h2 := ih (index env t height atomicOps).state herr
      rw [h2.1, h2.2.1, h2.2.2.1, h2.2.2.2, hf.2.2.2.2, hf.1, hf.2.1, hf.2.2.1]
      simp

/-- The assignment to a map keeps its keys distinct. -/
theorem mapSet_keys_nodup {α : Type} (key : Nat) (value : α) :
    ∀ m : List (Nat × α), (m.map Prod.fst).Nodup → ((mapSet m key value).map Prod.fst).Nodup := by
  have hmem : ∀ (m : List (Nat × α)) (k : Nat),
      k ∈ (mapSet m key value).map Prod.fst → k = key ∨ k ∈ m.map Prod.fst := by
    intro m
    induction m with
    | nil =>
      intro k hk
      simp [mapSet] at hk
      exact Or.inl hk
    | cons e m ih =>
      intro k hk
      obtain ⟨k0, v0⟩ := e
      by_cases h0 : k0 = key
      · simp only [mapSet, h0, if_true, List.map_cons, List.mem_cons] at hk
        rcases hk with hk | hk
        · exact Or.inl hk
        · exact Or.inr (by simp [hk])
      · simp only [mapSet, h0, if_false, List.map_cons, List.mem_cons] at hk
        rcases hk with hk | hk
        · exact Or.inr (by simp [hk])
        · rcases ih k hk with h | h
          · exact Or.inl h
          · exact Or.inr (by simp [h])
  intro m
  induction m with
  | nil =>
    intro _
    simp [mapSet]
  | cons e m ih =>
    intro hnd
    obtain ⟨k0, v0⟩ := e
    simp only [List.map_cons, List.nodup_cons] at hnd
    by_cases h0 : k0 = key
    · simp only [mapSet, h0, if_true, List.map_cons, List.nodup_cons]
      exact ⟨by rw [← h0]; exact hnd.1, hnd.2⟩
    · simp only [mapSet, h0, if_false, List.map_cons, List.nodup_cons]
      refine ⟨?_, ih hnd.2⟩
      intro hk
      rcases hmem m k0 hk with h | h
      · exact h0 h
      · exact hnd.1 h

/-- With nil pending writes, `Index` after the completion signal is `index`. -/
theorem Index_of_pending_none (env : TrieEnv) (s : blockingAtomicTrie) (height : Nat)
    (atomicOps : AtomicReqs) (hpw : s.pendingWrites = none) (hnil : env.mapOrder [] = []) :
    Index env s true height atomicOps = index env s height atomicOps := by
  obtain ⟨i, db, tdb, tr, r, p⟩ := s
  simp only at hpw
  subst hpw
  simp [Index, hnil, flushPending]

/-- C18, as stated, fails: with the heights 4096 and 4097 buffered and a
failing `trieDB.Commit`, the first call after the completion signal,
`Index(4098)`, passes 4097 then 4096 to `index`, returns the error of the
commit at 4096 without indexing 4098, and keeps the buffer; the next call,
`Index(4099)`, passes 4097 and 4096 to `index` again and does not index its
own height. -/
theorem index_failed_flush_replays_buffer :
    exPending.pendingWrites = some [(4096, exOps1), (4097, exOps2)] ∧
    (Index exCommitFailEnv exPending true 4098 exOps3).err = some .trieDBCommitFailed ∧
    (Index exCommitFailEnv exPending true 4098 exOps3).indexed = [4097, 4096] ∧
    (Index exCommitFailEnv exPending true 4098 exOps3).state.pendingWrites =
      some [(4096, exOps1), (4097, exOps2)] ∧
    (Index exCommitFailEnv (Index exCommitFailEnv exPending true 4098 exOps3).state true 4099
      exOps3).indexed = [4097, 4096] ∧
    (Index exCommitFailEnv (Index exCommitFailEnv exPending true 4098 exOps3).state true 4099
      exOps3).err = some .trieDBCommitFailed := by
  refine ⟨by decide, by decide, by decide, by decide, by decide, by decide⟩

/-- C18 (amended): on a call of `Index` made after the completion signal,
when no `index` of the flush fails, the heights passed to `index` are the
pending heights, each once, in the order `range` visits them, followed by the
height of the call; the pending writes are nil afterwards, and every later
call that observes the signal is the plain `index` of its own height. -/
theorem index_drains_buffer_once (env : TrieEnv) (t : blockingAtomicTrie)
    (pending : List (Nat × AtomicReqs)) (height : Nat) (atomicOps : AtomicReqs)
    (hp : t.pendingWrites = some pending)
    (hperm : ∀ l, (env.mapOrder l).Perm l)
    (hnodup : (pending.map Prod.fst).Nodup)
    (hflush : (flushPending env t (env.mapOrder pending)).err = none) :
    (Index env t true height atomicOps).indexed =
      (env.mapOrder pending).map Prod.fst ++ [height] ∧
    ((env.mapOrder pending).map Prod.fst).Perm (pending.map Prod.fst) ∧
    ((env.mapOrder pending).map Prod.fst).Nodup ∧
    (Index env t true height atomicOps).state.pendingWrites = none ∧
    ∀ h2 ops2,
      Index env (Index env t true height atomicOps).state true h2 ops2 =
        index env (Index env t true height atomicOps).state h2 ops2 ∧
      (Index env (Index env t true height atomicOps).state true h2 ops2).indexed = [h2] := by
  have hfl := flushPending_ok env (env.mapOrder pending) t hflush
  have hpm : ((env.mapOrder pending).map Prod.fst).Perm (pending.map Prod.fst) :=
    (hperm pending).map Prod.fst
  have hIndex : Index env t true height atomicOps =
      { index env { (flushPending env t (env.mapOrder pending)).state with
          pendingWrites := none } height atomicOps with
        indexed := (flushPending env t (env.mapOrder pending)).indexed ++
          (index env { (flushPending env t (env.mapOrder pending)).state with
            pendingWrites := none } height atomicOps).indexed } := by
    simp [Index, hp, hflush]
  have hpw : (Index env t true height atomicOps).state.pendingWrites = none := by
    rw [hIndex]
    exact (index_frame env _ height atomicOps).2.2.1
  refine ⟨?_, hpm, hpm.nodup_iff.2 hnodup, hpw, ?_⟩
  · rw [hIndex]
    simp only
    rw [hfl.1, (index_frame env _ height atomicOps).2.2.2.2]
  · intro h2 ops2
    have hnil : env.mapOrder [] = [] := (hperm []).eq_nil
    have hEq := Index_of_pending_none env (Index env t true height atomicOps).state h2 ops2
      hpw hnil
    exact ⟨hEq, by rw [hEq]; exact (index_frame env _ h2 ops2).2.2.2.2⟩

theorem index_drains_buffer_once_witness :
    (Index exTrieEnv
      (Index exTrieEnv (Index exTrieEnv exTrie false 4096 exOps1).state false 8192
        exOps2).state true 8193 exOps3).indexed =
      (exTrieEnv.mapOrder [(4096, exOps1), (8192, exOps2)]).map Prod.fst ++ [8193] ∧
    ((exTrieEnv.mapOrder [(4096, exOps1), (8192, exOps2)]).map Prod.fst).Perm
      ([(4096, exOps1), (8192, exOps2)].map Prod.fst) ∧
    ((exTrieEnv.mapOrder [(4096, exOps1), (8192, exOps2)]).map Prod.fst).Nodup ∧
    exBuffered.pendingWrites = none ∧
    ∀ h2 ops2,
      Index exTrieEnv exBuffered true h2 ops2 = index exTrieEnv exBuffered h2 ops2 ∧
      (Index exTrieEnv exBuffered true h2 ops2).indexed = [h2] :=
  index_drains_buffer_once exTrieEnv
    (Index exTrieEnv (Index exTrieEnv exTrie false 4096 exOps1).state false 8192 exOps2).state
    [(4096, exOps1), (8192, exOps2)] 8193 exOps3 (by decide)
    (fun l => List.reverse_perm l) (by decide) (by decide)

theorem bytesLt_irrefl : ∀ a : Bytes, bytesLt a a = false := by
  intro a
  induction a with
  | nil => rfl
  | cons x xs ih => simp [bytesLt, ih]

theorem bytesLt_trans : ∀ a b c : Bytes,
    bytesLt a b = true → bytesLt b c = true → bytesLt a c = true := by
  intro a
  induction a with
  | nil =>
    intro b c hab hbc
    cases b with
    | nil => simp [bytesLt] at hab
    | cons y ys =>
      cases c with
      | nil => simp [bytesLt] at hbc
      | cons z zs => rfl
  | cons x xs ih =>
    intro b c hab hbc
    cases b with
    | nil => simp [bytesLt] at hab
    | cons y ys =>
      cases c with
      | nil => simp [bytesLt] at hbc
      | cons z zs =>
        simp only [bytesLt, Bool.or_eq_true, decide_eq_true_eq, Bool.and_eq_true,
          beq_iff_eq] at hab hbc ⊢
        rcases hab with h1 | ⟨h1, h1'⟩
        · rcases hbc with h2 | ⟨h2, _⟩
          · exact Or.inl (by omega)
          · exact Or.inl (by omega)
        · rcases hbc with h2 | ⟨h2, h2'⟩
          · exact Or.inl (by omega)
          · exact Or.inr ⟨by omega, ih ys zs h1' h2'⟩

theorem bytesLt_total : ∀ a b : Bytes, a ≠ b → bytesLt a b = false → bytesLt b a = true := by
  intro a
  induction a with
  | nil =>
    intro b hne hlt
    cases b with
    | nil => exact absurd rfl hne
    | cons y ys => simp [bytesLt] at hlt
  | cons x xs ih =>
    intro b hne hlt
    cases b with
    | nil => rfl
    | cons y ys =>
      simp only [bytesLt, Bool.or_eq_false_iff, decide_eq_false_iff_not, Bool.and_eq_false_imp,
        beq_iff_eq] at hlt
      simp only [bytesLt, Bool.or_eq_true, decide_eq_true_eq, Bool.and_eq_true, beq_iff_eq]
      by_cases hxy : x = y
      · subst hxy
        refine Or.inr ⟨rfl, ih ys ?_ (hlt.2 rfl)⟩
        intro h
        exact hne (by rw [h])
      · exact Or.inl (by omega)

theorem bytesLt_asymm (a b : Bytes) (h : bytesLt a b = true) : bytesLt b a = false := by
  cases hba : bytesLt b a with
  | false => rfl
  | true =>
    have := bytesLt_trans a b a h hba
    rw [bytesLt_irrefl] at this
    cases this

/-- The leaf read at a key after `trieUpdate`. -/
theorem lookup_trieUpdate (key value : Bytes) (k : Bytes) :
    ∀ trie : Leaves,
      (trieUpdate trie key value).lookup k =
        if k = key then some value else trie.lookup k := by
  intro trie
  induction trie with
  | nil =>
    by_cases hk : k = key
    · simp [trieUpdate, List.lookup, hk]
    · have hb : (k == key) = false := by simpa using hk
      simp [trieUpdate, List.lookup, hk, hb]
  | cons e trie ih =>
    obtain ⟨k0, v0⟩ := e
    simp only [trieUpdate]
    by_cases h0 : key = k0
    · subst h0
      by_cases hk : k = key
      · simp [List.lookup, hk]
      · have hb : (k == key) = false := by simpa using hk
        simp [List.lookup, hk, hb]
    · simp only [h0, if_false]
      by_cases hlt : bytesLt key k0 = true
      · by_cases hk : k = key
        · simp [hlt, List.lookup, hk]
        · have hb : (k == key) = false := by simpa using hk
          simp [hlt, List.lookup, hk, hb]
      · simp only [hlt, Bool.false_eq_true, if_false, List.lookup_cons, ih]
        by_cases hk : k = key
        · subst hk
          have : (k == k0) = false := by simpa using h0
          simp [this]
        · simp [hk]

/-- The keys after `trieUpdate`. -/
theorem mem_keys_trieUpdate (key value : Bytes) (k : Bytes) :
    ∀ trie : Leaves,
      k ∈ (trieUpdate trie key value).map Prod.fst ↔ k = key ∨ k ∈ trie.map Prod.fst := by
  intro trie
  induction trie with
  | nil => simp [trieUpdate]
  | cons e trie ih =>
    obtain ⟨k0, v0⟩ := e
    simp only [trieUpdate]
    by_cases h0 : key = k0
    · subst h0
      simp
    · simp only [h0, if_false]
      by_cases hlt : bytesLt key k0 = true
      · simp [hlt]
      · simp only [hlt, Bool.false_eq_true, if_false, List.map_cons, List.mem_cons, ih]
        tauto

/-- The key order is kept by `trieUpdate`. -/
theorem keySorted_trieUpdate (key value : Bytes) :
    ∀ trie : Leaves, keySorted trie → keySorted (trieUpdate trie key value) := by
  intro trie
  induction trie with
  | nil =>
    intro _
    simp [trieUpdate, keySorted]
  | cons e trie ih =>
    intro hs
    obtain ⟨k0, v0⟩ := e
    simp only [keySorted, List.pairwise_cons] at hs
    simp only [trieUpdate]
    by_cases h0 : key = k0
    · subst h0
      simp only [if_true, keySorted, List.pairwise_cons]
      exact hs
    · simp only [h0, if_false]
      by_cases hlt : bytesLt key k0 = true
      · simp only [hlt, if_true, keySorted, List.pairwise_cons]
        refine ⟨?_, hs⟩
        intro a ha
        simp only [List.mem_cons] at ha
        rcases ha with rfl | ha
        · exact hlt
        · exact bytesLt_trans key k0 a.1 hlt (hs.1 a ha)
      · simp only [hlt, Bool.false_eq_true, if_false, keySorted, List.pairwise_cons]
        refine ⟨?_, ih hs.2⟩
        intro a ha
        have hmem : a.1 ∈ (trieUpdate trie key value).map Prod.fst :=
          List.mem_map.2 ⟨a, ha, rfl⟩
        rcases (mem_keys_trieUpdate key value a.1 trie).1 hmem with h | h
        · rw [h]
          exact bytesLt_total key k0 h0 (by simpa using hlt)
        · obtain ⟨b, hb, hb1⟩ := List.mem_map.1 h
          rw [← hb1]
          exact hs.1 b hb

theorem lookup_none_of_not_mem (k : Bytes) :
    ∀ l : Leaves, k ∉ l.map Prod.fst → l.lookup k = none := by
  intro l
  induction l with
  | nil => intro _; rfl
  | cons e l ih =>
    intro hk
    obtain ⟨k0, v0⟩ := e
    simp only [List.map_cons, List.mem_cons, not_or] at hk
    have hb : (k == k0) = false := by simpa using hk.1
    simp [List.lookup, hb, ih hk.2]

theorem mem_of_lookup_some (k v : Bytes) :
    ∀ l : Leaves, l.lookup k = some v → (k, v) ∈ l := by
  intro l
  induction l with
  | nil => intro h; simp [List.lookup] at h
  | cons e l ih =>
    intro h
    obtain ⟨k0, v0⟩ := e
    by_cases hk : k = k0
    · subst hk
      simp [List.lookup] at h
      simp [h]
    · have hb : (k == k0) = false := by simpa using hk
      simp only [List.lookup, hb] at h
      exact List.mem_cons_of_mem _ (ih h)

/-- Two tries in key order with the same leaf at every key are the same
trie. -/
theorem keySorted_ext : ∀ l1 l2 : Leaves, keySorted l1 → keySorted l2 →
    (∀ k, l1.lookup k = l2.lookup k) → l1 = l2 := by
  intro l1
  induction l1 with
  | nil =>
    intro l2 _ _ h
    cases l2 with
    | nil => rfl
    | cons e l2 =>
      have := h e.1
      simp [List.lookup] at this
  | cons e1 r1 ih =>
    intro l2 s1 s2 h
    obtain ⟨k1, v1⟩ := e1
    cases l2 with
    | nil =>
      have := h k1
      simp [List.lookup] at this
    | cons e2 r2 =>
      obtain ⟨k2, v2⟩ := e2
      simp only [keySorted, List.pairwise_cons] at s1 s2
      have hk : k1 = k2 := by
        by_contra hne
        have hb1 : (k1 == k2) = false := by simpa using hne
        have hb2 : (k2 == k1) = false := by simpa using fun h : k2 = k1 => hne h.symm
        have h1 := h k1
        simp only [List.lookup, beq_self_eq_true, hb1] at h1
        have h2 := h k2
        simp only [List.lookup, beq_self_eq_true, hb2] at h2
        have m1 := s2.1 _ (mem_of_lookup_some k1 v1 r2 h1.symm)
        have m2 := s1.1 _ (mem_of_lookup_some k2 v2 r1 h2)
        have := bytesLt_asymm _ _ m1
        simp only at m1 m2 this
        rw [m2] at this
        cases this
      subst hk
      have hv : v1 = v2 := by
        have h1 := h k1
        simpa [List.lookup] using h1
      subst hv
      have hn1 : k1 ∉ r1.map Prod.fst := by
        intro hm
        obtain ⟨b, hb, hb1⟩ := List.mem_map.1 hm
        have := s1.1 b hb
        rw [hb1, bytesLt_irrefl] at this
        cases this
      have hn2 : k1 ∉ r2.map Prod.fst := by
        intro hm
        obtain ⟨b, hb, hb1⟩ := List.mem_map.1 hm
        have := s2.1 b hb
        rw [hb1, bytesLt_irrefl] at this
        cases this
      have hrest : r1 = r2 := by
        refine ih r2 s1.2 s2.2 ?_
        intro k
        by_cases hk : k = k1
        · subst hk
          rw [lookup_none_of_not_mem k r1 hn1, lookup_none_of_not_mem k r2 hn2]
        · have hb : (k == k1) = false := by simpa using hk
          have := h k
          simpa [List.lookup, hb] using this
      rw [hrest]

/-- The key order is kept by `updateTrie`. -/
theorem keySorted_updateTrie (env : TrieEnv) (height : Nat) :
    ∀ (ops : AtomicReqs) (trie : Leaves), keySorted trie →
      keySorted (updateTrie env trie height ops).2 := by
  intro ops
  induction ops with
  | nil => intro trie hs; exact hs
  | cons cr ops ih =>
    intro trie hs
    obtain ⟨c, r⟩ := cr
    cases he : env.encode r with
    | none => simpa [updateTrie, he] using hs
    | some v =>
      simp only [updateTrie, he]
      exact ih _ (keySorted_trieUpdate _ _ _ hs)

/-- The leaves read after `updateTrie` over distinct chains, when every
request set encodes: the encoding of the request set at the key of each chain
of the set, the old leaf elsewhere. -/
theorem lookup_updateTrie (env : TrieEnv) (height : Nat) :
    ∀ (ops : AtomicReqs) (trie : Leaves),
      (∀ cr ∈ ops, (env.encode cr.2).isSome = true) →
      (ops.map Prod.fst).Nodup →
      (updateTrie env trie height ops).1 = none ∧
      (∀ cr ∈ ops, (updateTrie env trie height ops).2.lookup (PutUint64 height ++ cr.1) =
        env.encode cr.2) ∧
      (∀ k, (∀ c ∈ ops.map Prod.fst, k ≠ PutUint64 height ++ c) →
        (updateTrie env trie height ops).2.lookup k = trie.lookup k) := by
  intro ops
  induction ops with
  | nil =>
    intro trie _ _
    simp [updateTrie]
  | cons cr ops ih =>
    intro trie henc hnd
    obtain ⟨c0, r0⟩ := cr
    simp only [List.map_cons, List.nodup_cons] at hnd
    have h0 := henc (c0, r0) (List.mem_cons_self _ _)
    obtain ⟨v0, hv0⟩ := Option.isSome_iff_exists.1 h0
    simp only at hv0
    have hrec := ih (trieUpdate trie (PutUint64 height ++ c0) v0)
      (fun cr h => henc cr (List.mem_cons_of_mem _ h)) hnd.2
    simp only [updateTrie, hv0]
    refine ⟨hrec.1, ?_, ?_⟩
    · intro cr hcr
      simp only [List.mem_cons] at hcr
      rcases hcr with rfl | hcr
      · simp only
        rw [hrec.2.2 _ ?_, lookup_trieUpdate, if_pos rfl, hv0]
        intro c hc heq
        have : c0 = c := List.append_cancel_left heq
        exact hnd.1 (this ▸ hc)
      · exact hrec.2.1 cr hcr
    · intro k hk
      rw [hrec.2.2 k (fun c hc => hk c (List.mem_cons_of_mem _ hc)), lookup_trieUpdate,
        if_neg (hk c0 (List.mem_cons_self _ _))]

/-- The order in which `range` visits the operation set does not matter:
over a trie in key order, two visiting orders of the same set of distinct
chains, every request set of which encodes, leave the same trie and no
error. -/
theorem updateTrie_order (env : TrieEnv) (height : Nat) (trie : Leaves)
    (ops ops2 : AtomicReqs) (hperm : ops.Perm ops2) (hs : keySorted trie)
    (henc : ∀ cr ∈ ops, (env.encode cr.2).isSome = true)
    (hnd : (ops.map Prod.fst).Nodup) :
    updateTrie env trie height ops = updateTrie env trie height ops2 := by
  have henc2 : ∀ cr ∈ ops2, (env.encode cr.2).isSome = true :=
    fun cr h => henc cr (hperm.mem_iff.2 h)
  have hnd2 : (ops2.map Prod.fst).Nodup := (hperm.map Prod.fst).nodup_iff.1 hnd
  have h1 := lookup_updateTrie env height ops trie henc hnd
  have h2 := lookup_updateTrie env height ops2 trie henc2 hnd2
  have hl : (updateTrie env trie height ops).2 = (updateTrie env trie height ops2).2 := by
    refine keySorted_ext _ _ (keySorted_updateTrie env height ops trie hs)
      (keySorted_updateTrie env height ops2 trie hs) ?_
    intro k
    by_cases hk : ∃ cr ∈ ops, k = PutUint64 height ++ cr.1
    · obtain ⟨cr, hcr, rfl⟩ := hk
      rw [h1.2.1 cr hcr, h2.2.1 cr (hperm.mem_iff.1 hcr)]
    · have hk1 : ∀ c ∈ ops.map Prod.fst, k ≠ PutUint64 height ++ c := by
        intro c hc heq
        obtain ⟨cr, hcr, rfl⟩ := List.mem_map.1 hc
        exact hk ⟨cr, hcr, heq⟩
      have hk2 : ∀ c ∈ ops2.map Prod.fst, k ≠ PutUint64 height ++ c := by
        intro c hc
        exact hk1 c ((hperm.map Prod.fst).mem_iff.2 hc)
      rw [h1.2.2 k hk1, h2.2.2 k hk2]
  exact Prod.ext (by rw [h1.1, h2.1]) hl

/-! ## The merge of the operation sets of one height -/

theorem lookup_isSome_iff_mem {β : Type} (k : Bytes) :
    ∀ m : List (Bytes × β), (m.lookup k).isSome = true ↔ k ∈ m.map Prod.fst := by
  intro m
  induction m with
  | nil => simp
  | cons e m ih =>
    obtain ⟨k0, v0⟩ := e
    by_cases hk : k = k0
    · subst hk
      simp [List.lookup]
    · have hb : (k == k0) = false := by simpa using hk
      simp [List.lookup, hb, ih, hk]

/-- The map after one step of the merge, read at a chain. -/
theorem lookup_mergeRequests (c : Bytes) (r : Requests) (k : Bytes) :
    ∀ acc : AtomicReqs,
      (mergeRequests acc c r).lookup k =
        if k = c then
          some ⟨(reqsAt acc c).removeRequests ++ r.removeRequests,
            (reqsAt acc c).putRequests ++ r.putRequests⟩
        else acc.lookup k := by
  intro acc
  induction acc with
  | nil =>
    by_cases hk : k = c
    · subst hk
      simp [mergeRequests, List.lookup, reqsAt]
    · have hb : (k == c) = false := by simpa using hk
      simp [mergeRequests, List.lookup, hk, hb]
  | cons e acc ih =>
    obtain ⟨k0, cur⟩ := e
    simp only [mergeRequests]
    by_cases h0 : k0 = c
    · subst h0
      by_cases hk : k = k0
      · subst hk
        simp [List.lookup, reqsAt]
      · have hb : (k == k0) = false := by simpa using hk
        simp [List.lookup, hk, hb]
    · simp only [h0, if_false]
      by_cases hk0 : k = k0
      · subst hk0
        simp [List.lookup, h0]
      · have hb : (k == k0) = false := by simpa using hk0
        have hc : (c == k0) = false := by simpa using fun h : c = k0 => h0 h.symm
        simp only [List.lookup, hb, ih, reqsAt, hc]

/-- The keys of the map after one step of the merge. -/
theorem keys_mergeRequests (c : Bytes) (r : Requests) :
    ∀ acc : AtomicReqs,
      (mergeRequests acc c r).map Prod.fst =
        if c ∈ acc.map Prod.fst then acc.map Prod.fst else acc.map Prod.fst ++ [c] := by
  intro acc
  induction acc with
  | nil => simp [mergeRequests]
  | cons e acc ih =>
    obtain ⟨k0, cur⟩ := e
    simp only [mergeRequests]
    by_cases h0 : k0 = c
    · subst h0
      simp
    · have h0' : ¬ c = k0 := fun h => h0 h.symm
      simp only [h0, if_false, List.map_cons, ih, List.mem_cons, h0', false_or]
      by_cases hm : c ∈ acc.map Prod.fst
      · simp only [hm, if_true]
      · simp only [hm, if_false, List.cons_append]

theorem nodup_mergeRequests (c : Bytes) (r : Requests) (acc : AtomicReqs)
    (h : (acc.map Prod.fst).Nodup) : ((mergeRequests acc c r).map Prod.fst).Nodup := by
  rw [keys_mergeRequests]
  by_cases hm : c ∈ acc.map Prod.fst
  · simpa [hm] using h
  · simp only [hm, if_false]
    exact List.Nodup.append h (List.nodup_singleton c) (by simpa using hm)

theorem mem_keys_mergeRequests (c : Bytes) (r : Requests) (acc : AtomicReqs) (k : Bytes) :
    k ∈ (mergeRequests acc c r).map Prod.fst ↔ k ∈ acc.map Prod.fst ∨ k = c := by
  rw [keys_mergeRequests]
  by_cases hm : c ∈ acc.map Prod.fst
  · simp only [hm, if_true]
    constructor
    · exact Or.inl
    · rintro (h | rfl)
      · exact h
      · exact hm
  · simp [hm]

theorem reqsAt_mergeRequests (c : Bytes) (r : Requests) (k : Bytes) (acc : AtomicReqs) :
    reqsAt (mergeRequests acc c r) k =
      if k = c then
        ⟨(reqsAt acc c).removeRequests ++ r.removeRequests,
          (reqsAt acc c).putRequests ++ r.putRequests⟩
      else reqsAt acc k := by
  unfold reqsAt
  rw [lookup_mergeRequests]
  by_cases hk : k = c
  · simp [hk, reqsAt]
  · simp [hk]

/-- The map after the merge of one operation set with distinct chains. -/
theorem mergeOps_facts :
    ∀ (ops acc : AtomicReqs), (ops.map Prod.fst).Nodup →
      (∀ k, reqsAt (mergeOps acc ops) k =
        ⟨(reqsAt acc k).removeRequests ++ (reqsAt ops k).removeRequests,
          (reqsAt acc k).putRequests ++ (reqsAt ops k).putRequests⟩) ∧
      (∀ k, k ∈ (mergeOps acc ops).map Prod.fst ↔
        k ∈ acc.map Prod.fst ∨ k ∈ ops.map Prod.fst) ∧
      ((acc.map Prod.fst).Nodup → ((mergeOps acc ops).map Prod.fst).Nodup) := by
  intro ops
  induction ops with
  | nil =>
    intro acc _
    simp [mergeOps, reqsAt]
  | cons e ops ih =>
    intro acc hnd
    obtain ⟨c, r⟩ := e
    simp only [List.map_cons, List.nodup_cons] at hnd
    have hrec := ih (mergeRequests acc c r) hnd.2
    have hstep : mergeOps acc ((c, r) :: ops) = mergeOps (mergeRequests acc c r) ops := rfl
    rw [hstep]
    refine ⟨?_, ?_, ?_⟩
    · intro k
      rw [hrec.1 k, reqsAt_mergeRequests]
      by_cases hk : k = c
      · subst hk
        have hnone : ops.lookup k = none := by
          cases hl : ops.lookup k with
          | none => rfl
          | some v =>
            have := (lookup_isSome_iff_mem k ops).1 (by simp [hl])
            exact absurd this hnd.1
        simp [reqsAt, List.lookup, hnone]
      · have hb : (k == c) = false := by simpa using hk
        simp [hk, reqsAt, List.lookup, hb]
    · intro k
      rw [hrec.2.1 k, mem_keys_mergeRequests]
      simp only [List.map_cons, List.mem_cons]
      tauto
    · intro hacc
      exact hrec.2.2 (nodup_mergeRequests c r acc hacc)

/-- The loop over the transactions, when every `AtomicOps` succeeds with
distinct chains: no error, and the map it leaves. -/
theorem mergeTxs_facts (env : TrieEnv) :
    ∀ (txs : List Tx) (acc : AtomicReqs) (n : Nat),
      (∀ tx ∈ txs, ∃ ops, env.AtomicOps tx = some ops ∧ (ops.map Prod.fst).Nodup) →
      (mergeTxs env acc n txs).1 = none ∧
      (∀ k, reqsAt (mergeTxs env acc n txs).2.1 k =
        ⟨(reqsAt acc k).removeRequests ++
            txs.flatMap (fun tx => (reqsAt (opsOf env tx) k).removeRequests),
          (reqsAt acc k).putRequests ++
            txs.flatMap (fun tx => (reqsAt (opsOf env tx) k).putRequests)⟩) ∧
      (∀ k, k ∈ (mergeTxs env acc n txs).2.1.map Prod.fst ↔
        k ∈ acc.map Prod.fst ∨ ∃ tx ∈ txs, targets env k tx = true) ∧
      ((acc.map Prod.fst).Nodup → ((mergeTxs env acc n txs).2.1.map Prod.fst).Nodup) := by
  intro txs
  induction txs with
  | nil =>
    intro acc n _
    simp [mergeTxs]
  | cons tx txs ih =>
    intro acc n hops
    obtain ⟨ops, hop, hnd⟩ := hops tx (List.mem_cons_self _ _)
    have hrec := ih (mergeOps acc ops) (n + 1) (fun t ht => hops t (List.mem_cons_of_mem _ ht))
    have hm := mergeOps_facts ops acc hnd
    have hof : opsOf env tx = ops := by simp [opsOf, hop]
    simp only [mergeTxs, hop]
    refine ⟨hrec.1, ?_, ?_, ?_⟩
    · intro k
      rw [hrec.2.1 k, hm.1 k]
      simp [List.flatMap_cons, hof, List.append_assoc]
    · intro k
      rw [hrec.2.2.1 k, hm.2.1 k]
      simp only [List.mem_cons, exists_eq_or_imp, targets, hof, lookup_isSome_iff_mem]
      tauto
    · intro hacc
      exact hrec.2.2.2 (hm.2.2 hacc)

theorem flatMap_filter_targets {β : Type} (p : Tx → Bool) (f : Tx → List β)
    (hf : ∀ tx, p tx = false → f tx = []) :
    ∀ txs : List Tx, (txs.filter p).flatMap f = txs.flatMap f := by
  intro txs
  induction txs with
  | nil => rfl
  | cons tx txs ih =>
    cases hp : p tx with
    | true => simp [List.filter, hp, List.flatMap_cons, ih]
    | false => simp [List.filter, hp, List.flatMap_cons, ih, hf tx hp]

/-- C21: when `AtomicOps` succeeds on every transaction of a height (each
operation set being a map, with distinct chains), the merge of the rebuild
returns no error; the chains of the merged set are distinct and are exactly
the chains targeted by some transaction; and the requests merged for a chain
are the remove-lists and the put-lists of the transactions that target it,
concatenated in transaction order. -/
theorem merge_concatenates_per_chain (env : TrieEnv) (txs : List Tx) (n : Nat)
    (hops : ∀ tx ∈ txs, ∃ ops, env.AtomicOps tx = some ops ∧ (ops.map Prod.fst).Nodup) :
    (mergeTxs env [] n txs).1 = none ∧
    ((mergeTxs env [] n txs).2.1.map Prod.fst).Nodup ∧
    (∀ c, c ∈ (mergeTxs env [] n txs).2.1.map Prod.fst ↔ ∃ tx ∈ txs, targets env c tx = true) ∧
    (∀ c, c ∈ (mergeTxs env [] n txs).2.1.map Prod.fst →
      (mergeTxs env [] n txs).2.1.lookup c = some (concatRequests env txs c)) := by
  have h := mergeTxs_facts env txs [] n hops
  refine ⟨h.1, h.2.2.2 (by simp), ?_, ?_⟩
  · intro c
    rw [h.2.2.1 c]
    simp
  · intro c hc
    have hsome := (lookup_isSome_iff_mem c _).2 hc
    obtain ⟨v, hv⟩ := Option.isSome_iff_exists.1 hsome
    have hr := h.2.1 c
    have hv2 : reqsAt (mergeTxs env [] n txs).2.1 c = v := by simp [reqsAt, hv]
    rw [hv, ← hv2, hr]
    simp only [reqsAt, List.lookup, Option.getD_none, List.nil_append, concatRequests]
    rw [flatMap_filter_targets (targets env c) _ (fun tx ht => by
        rw [show (opsOf env tx).lookup c = none from by
          unfold targets at ht
          cases hl : (opsOf env tx).lookup c with
          | none => rfl
          | some v => simp [hl] at ht]
        rfl),
      flatMap_filter_targets (targets env c) _ (fun tx ht => by
        rw [show (opsOf env tx).lookup c = none from by
          unfold targets at ht
          cases hl : (opsOf env tx).lookup c with
          | none => rfl
          | some v => simp [hl] at ht]
        rfl)]

theorem merge_concatenates_per_chain_witness :
    (mergeTxs exMergeEnv [] 0 [⟨1, .exportTx, []⟩, ⟨2, .importTx, []⟩, ⟨3, .exportTx, []⟩]).1
      = none ∧
    ((mergeTxs exMergeEnv [] 0
      [⟨1, .exportTx, []⟩, ⟨2, .importTx, []⟩, ⟨3, .exportTx, []⟩]).2.1.map Prod.fst).Nodup ∧
    (∀ c, c ∈ (mergeTxs exMergeEnv [] 0
        [⟨1, .exportTx, []⟩, ⟨2, .importTx, []⟩, ⟨3, .exportTx, []⟩]).2.1.map Prod.fst ↔
      ∃ tx ∈ [(⟨1, .exportTx, []⟩ : Tx), ⟨2, .importTx, []⟩, ⟨3, .exportTx, []⟩],
        targets exMergeEnv c tx = true) ∧
    (∀ c, c ∈ (mergeTxs exMergeEnv [] 0
        [⟨1, .exportTx, []⟩, ⟨2, .importTx, []⟩, ⟨3, .exportTx, []⟩]).2.1.map Prod.fst →
      (mergeTxs exMergeEnv [] 0
        [⟨1, .exportTx, []⟩, ⟨2, .importTx, []⟩, ⟨3, .exportTx, []⟩]).2.1.lookup c =
        some (concatRequests exMergeEnv
          [⟨1, .exportTx, []⟩, ⟨2, .importTx, []⟩, ⟨3, .exportTx, []⟩] c)) :=
  merge_concatenates_per_chain exMergeEnv
    [⟨1, .exportTx, []⟩, ⟨2, .importTx, []⟩, ⟨3, .exportTx, []⟩] 0 (by
      intro tx htx
      simp only [List.mem_cons, List.mem_singleton, List.not_mem_nil, or_false] at htx
      rcases htx with rfl | rfl | rfl
      · exact ⟨_, rfl, by decide⟩
      · exact ⟨_, rfl, by decide⟩
      · exact ⟨_, rfl, by decide⟩)

/-! ## Failures of the rebuild -/

theorem Uint64_of_length (b : Bytes) (h : b.length = 8) : ∃ v, Uint64 b = some v := by
  match b, h with
  | [_, _, _, _, _, _, _, _], _ => exact ⟨_, rfl⟩

/-- The heights the loop of `initialize` passes to `index` are heights of the
entries it was given. -/
theorem rebuildLoop_indexed_mem (env : TrieEnv) :
    ∀ (l : List (Bytes × List Bytes)) (t : blockingAtomicTrie) (n : Nat),
      ∀ h ∈ (rebuildLoop env t n l).indexed, ∃ e ∈ l, Uint64 e.1 = some h := by
  intro l
  induction l with
  | nil =>
    intro t n h hh
    simp [rebuildLoop] at hh
  | cons e l ih =>
    intro t n h hh
    obtain ⟨heightBytes, value⟩ := e
    simp only [rebuildLoop] at hh
    by_cases hit : env.iterError heightBytes = true
    · simp [hit] at hh
    simp only [hit, Bool.false_eq_true, if_false] at hh
    by_cases hskip : heightBytes.length ≠ 8 ∨ heightBytes = env.heightAtomicTxDBInitializedKey
    · simp only [hskip, if_true] at hh
      obtain ⟨e, he, hu⟩ := ih t n h hh
      exact ⟨e, List.mem_cons_of_mem _ he, hu⟩
    simp only [hskip, if_false] at hh
    cases hu : Uint64 heightBytes with
    | none => simp [hu] at hh
    | some height =>
      simp only [hu] at hh
      cases hp : parseTxs env value with
      | none => simp [hp] at hh
      | some txs =>
        simp only [hp] at hh
        rcases hm : mergeTxs env [] n txs with ⟨e, ops, m⟩
        simp only [hm] at hh
        cases e with
        | some err => simp at hh
        | none =>
          simp only at hh
          have hidx := (index_frame env t height ops).2.2.2.2
          cases hi : (index env t height ops).err with
          | some err =>
            simp only [hi, hidx, List.mem_singleton] at hh
            exact ⟨(heightBytes, value), List.mem_cons_self _ _, by rw [hh]; exact hu⟩
          | none =>
            simp only [hi, hidx, List.singleton_append, List.mem_cons] at hh
            rcases hh with rfl | hh
            · exact ⟨(heightBytes, value), List.mem_cons_self _ _, hu⟩
            · obtain ⟨e, he, hu2⟩ := ih _ _ h hh
              exact ⟨e, List.mem_cons_of_mem _ he, hu2⟩

/-- C22: (1) when the scan of `initialize` reaches, without an earlier error,
an entry of the Operation Log one of whose transactions does not parse,
`initialize` returns the parse error, which is the value sent on the
completion channel; the heights indexed and the trie are those left by the
entries before it, and the finalize callback is not called. (2) A finalize
callback is called at most once, and exactly once if and only if the scan
ends without error; the rebuild then returns what the callback returns. -/
theorem rebuild_decode_failure_and_finalize (env : TrieEnv) (t : blockingAtomicTrie) :
    (∀ (dbCommitFn : Option Bool) (pre post : List (Bytes × List Bytes))
        (heightBytes : Bytes) (value : List Bytes),
      (LastCommitted env t).2.2 = none →
      IterateByHeight t.repo (LastCommitted env t).2.1 = pre ++ (heightBytes, value) :: post →
      (rebuildLoop env t 0 pre).err = none →
      env.iterError heightBytes = false →
      heightBytes.length = 8 →
      heightBytes ≠ env.heightAtomicTxDBInitializedKey →
      parseTxs env value = none →
        (initializeTrie env t dbCommitFn).err = some .parseFailed ∧
        Initialize env t dbCommitFn = [some .parseFailed] ∧
        (initializeTrie env t dbCommitFn).indexed = (rebuildLoop env t 0 pre).indexed ∧
        (∀ h ∈ (initializeTrie env t dbCommitFn).indexed, ∃ e ∈ pre, Uint64 e.1 = some h) ∧
        (initializeTrie env t dbCommitFn).state = (rebuildLoop env t 0 pre).state ∧
        (initializeTrie env t dbCommitFn).dbCommits = 0) ∧
    (∀ ok : Bool,
      (initializeTrie env t (some ok)).dbCommits ≤ 1 ∧
      ((initializeTrie env t (some ok)).dbCommits = 1 ↔
        ((LastCommitted env t).2.2 = none ∧
          (rebuildLoop env t 0 (IterateByHeight t.repo (LastCommitted env t).2.1)).err = none)) ∧
      (((LastCommitted env t).2.2 = none ∧
          (rebuildLoop env t 0 (IterateByHeight t.repo (LastCommitted env t).2.1)).err = none) →
        (initializeTrie env t (some ok)).err = if ok then none else some .dbCommitFnFailed)) := by
  constructor
  · intro dbCommitFn pre post heightBytes value hlast hscan hpre hiter hlen hkey hdecode
    obtain ⟨v, hv⟩ := Uint64_of_length heightBytes hlen
    have hstep : ∀ (s : blockingAtomicTrie) (n : Nat),
        rebuildLoop env s n ((heightBytes, value) :: post) = ⟨some .parseFailed, s, [], n, 0⟩ := by
      intro s n
      simp [rebuildLoop, hiter, hlen, hkey, hv, hdecode]
    have hloop : rebuildLoop env t 0 (IterateByHeight t.repo (LastCommitted env t).2.1) =
        ⟨some .parseFailed, (rebuildLoop env t 0 pre).state, (rebuildLoop env t 0 pre).indexed,
          (rebuildLoop env t 0 pre).transactionsIndexed, 0⟩ := by
      rw [hscan, rebuildLoop_append, hpre]
      simp [hstep]
    have hinit : initializeTrie env t dbCommitFn =
        ⟨some .parseFailed, (rebuildLoop env t 0 pre).state, (rebuildLoop env t 0 pre).indexed,
          (rebuildLoop env t 0 pre).transactionsIndexed, 0⟩ := by
      unfold initializeTrie
      rcases hl : LastCommitted env t with ⟨x, nh, e⟩
      rw [hl] at hlast hloop
      simp only at hlast hloop
      subst hlast
      simp [hloop]
    refine ⟨by rw [hinit], by simp [Initialize, hinit], by rw [hinit], ?_, by rw [hinit],
      by rw [hinit]⟩
    intro h hh
    rw [hinit] at hh
    exact rebuildLoop_indexed_mem env pre t 0 h hh
  · intro ok
    unfold initializeTrie
    rcases hl : LastCommitted env t with ⟨x, nh, e⟩
    cases e with
    | some err => simp
    | none =>
      simp only
      have hz := (rebuildLoop_frame env (IterateByHeight t.repo nh) t 0).2.2.2
      cases hr : (rebuildLoop env t 0 (IterateByHeight t.repo nh)).err with
      | some err => simp [hz]
      | none => cases ok <;> simp [hr]

theorem rebuild_decode_failure_and_finalize_witness :
    ((initializeTrie exDecodeEnv exBadLogTrie (some true)).err = some .parseFailed ∧
      Initialize exDecodeEnv exBadLogTrie (some true) = [some .parseFailed] ∧
      (initializeTrie exDecodeEnv exBadLogTrie (some true)).indexed =
        (rebuildLoop exDecodeEnv exBadLogTrie 0 [(PutUint64 0, [[1]])]).indexed ∧
      (∀ h ∈ (initializeTrie exDecodeEnv exBadLogTrie (some true)).indexed,
        ∃ e ∈ [(PutUint64 0, [[1]])], Uint64 e.1 = some h) ∧
      (initializeTrie exDecodeEnv exBadLogTrie (some true)).state =
        (rebuildLoop exDecodeEnv exBadLogTrie 0 [(PutUint64 0, [[1]])]).state ∧
      (initializeTrie exDecodeEnv exBadLogTrie (some true)).dbCommits = 0) ∧
    (initializeTrie exTrieEnv exLogTrie (some false)).dbCommits = 1 ∧
    (initializeTrie exTrieEnv exLogTrie (some false)).err = some .dbCommitFnFailed :=
  ⟨(rebuild_decode_failure_and_finalize exDecodeEnv exBadLogTrie).1 (some true)
      [(PutUint64 0, [[1]])] [(PutUint64 2, [[2]])] (PutUint64 1) [[1], [255]]
      (by decide) (by decide) (by decide) (by decide) (by decide) (by decide) (by decide),
    ((rebuild_decode_failure_and_finalize exTrieEnv exLogTrie).2 false).2.1.2
      ⟨by decide, by decide⟩,
    ((rebuild_decode_failure_and_finalize exTrieEnv exLogTrie).2 false).2.2
      ⟨by decide, by decide⟩⟩

/-! ## The record `IndexHeight` -/

/-- The record under `indexHeightKey` is not written by `commit`. -/
theorem commit_indexHeight (env : TrieEnv) (t : blockingAtomicTrie) (height : Nat) :
    (commit env t height).state.db.lookup indexHeightKey = t.db.lookup indexHeightKey := by
  have hk1 : (indexHeightKey == PutUint64 height) = false := by
    rw [beq_eq_false_iff_ne]
    intro h
    have := congrArg List.length h
    simp [indexHeightKey, PutUint64] at this
  have hk2 : (indexHeightKey == lastCommittedKey) = false := by decide
  unfold commit
  by_cases h1 : env.trieCommitOk t.trie = true
  swap
  · simp [h1]
  by_cases h2 : env.trieDBCommitOk (env.rootHash t.trie) = true
  swap
  · simp [h1, h2]
  by_cases h3 : env.putOk (PutUint64 height) = true
  swap
  · simp [h1, h2, h3, dbPut]
  by_cases h4 : env.putOk lastCommittedKey = true
  swap
  · simp [h1, h2, h3, h4, dbPut, List.lookup, hk1]
  simp [h1, h2, h3, h4, dbPut, List.lookup, hk1, hk2]

/-- The record under `indexHeightKey` is not written by `index`. -/
theorem index_indexHeight (env : TrieEnv) (t : blockingAtomicTrie) (height : Nat)
    (atomicOps : AtomicReqs) :
    (index env t height atomicOps).state.db.lookup indexHeightKey =
      t.db.lookup indexHeightKey := by
  rw [index_eq]
  cases hu : (updateTrie env t.trie height atomicOps).1 with
  | some e => simp
  | none =>
    by_cases h0 : t.commitHeightInterval = 0
    · simp [h0]
    by_cases hm : height % t.commitHeightInterval = 0
    · simp only [h0, hm, if_false, ne_eq, not_true_eq_false]
      exact commit_indexHeight env _ height
    · simp [h0, hm]

/-- The record under `indexHeightKey` is not written by the flush. -/
theorem flushPending_indexHeight (env : TrieEnv) :
    ∀ (entries : List (Nat × AtomicReqs)) (t : blockingAtomicTrie),
      (flushPending env t entries).state.db.lookup indexHeightKey =
        t.db.lookup indexHeightKey := by
  intro entries
  induction entries with
  | nil =>
    intro t
    rfl
  | cons e entries ih =>
    intro t
    obtain ⟨height, atomicOps⟩ := e
    simp only [flushPending]
    cases hi : (index env t height atomicOps).err with
    | some err =>
      simp only
      exact index_indexHeight env t height atomicOps
    | none =>
      simp only
      rw [ih, index_indexHeight]

/-- C23: the claim fails on the code. No call of `Index`, buffered or applied,
changes the record stored under `indexHeightKey`; on a fresh store the first
applied call `Index(4096, ops)` commits (it writes the root and the
last-committed pointer) and leaves no record under `indexHeightKey`, whereas
`setIndexHeight(4096)`, which nothing calls, would store the 8 bytes of
4096. -/
theorem index_never_writes_index_height :
    (∀ (env : TrieEnv) (t : blockingAtomicTrie) (signalled : Bool) (height : Nat)
        (atomicOps : AtomicReqs),
      (Index env t signalled height atomicOps).state.db.lookup indexHeightKey =
        t.db.lookup indexHeightKey) ∧
    (Index exTrieEnv exTrie true 4096 exOps1).err = none ∧
    (Index exTrieEnv exTrie true 4096 exOps1).indexed = [4096] ∧
    (Index exTrieEnv exTrie true 4096 exOps1).state.db.map Prod.fst =
      [lastCommittedKey, PutUint64 4096] ∧
    dbGet exTrieEnv (Index exTrieEnv exTrie true 4096 exOps1).state.db indexHeightKey =
      .notFound ∧
    dbGet exTrieEnv (setIndexHeight exTrieEnv exTrie 4096).2.db indexHeightKey =
      .found (PutUint64 4096) := by
  refine ⟨?_, by decide, by decide, by decide, by decide, by decide⟩
  intro env t signalled height atomicOps
  unfold Index
  cases signalled with
  | false =>
    cases hp : t.pendingWrites with
    | none => simp
    | some pending => simp
  | true =>
    simp only [Bool.not_true, Bool.false_eq_true, if_false]
    cases hf : (flushPending env t (env.mapOrder (t.pendingWrites.getD []))).err with
    | some err =>
      simp only
      exact flushPending_indexHeight env _ t
    | none =>
      simp only
      rw [index_indexHeight]
      exact flushPending_indexHeight env _ t

/-! ## Construction -/

/-- C24: the four cases of `NewBlockingAtomicTrie`. With the pointer and the
root record of its height both read, the trie is the one `trie.New` opens at
that root (and construction fails only if `trie.New` does); with no pointer,
the trie is empty; a store error on the pointer is returned; with the pointer
read and the root record not read (not found, or a store error), construction
succeeds with the empty trie. -/
theorem new_trie_starting_root (env : TrieEnv) (db : List (Bytes × Bytes))
    (trieDB : List (Hash × Leaves)) (repo : List (Bytes × List Bytes)) :
    (∀ heightBytes hash, dbGet env db lastCommittedKey = .found heightBytes →
      dbGet env db heightBytes = .found hash →
      NewBlockingAtomicTrie env db trieDB repo =
        match trieNew env trieDB (BytesToHash hash) with
        | none => .error .missingNode
        | some leaves => .ok ⟨commitHeightInterval, db, trieDB, leaves, repo, some []⟩) ∧
    (dbGet env db lastCommittedKey = .notFound →
      NewBlockingAtomicTrie env db trieDB repo =
        .ok ⟨commitHeightInterval, db, trieDB, [], repo, some []⟩) ∧
    (dbGet env db lastCommittedKey = .failed →
      NewBlockingAtomicTrie env db trieDB repo = .error .dbFailed) ∧
    (∀ heightBytes, dbGet env db lastCommittedKey = .found heightBytes →
      (dbGet env db heightBytes = .notFound ∨ dbGet env db heightBytes = .failed) →
      NewBlockingAtomicTrie env db trieDB repo =
        .ok ⟨commitHeightInterval, db, trieDB, [], repo, some []⟩) := by
  refine ⟨?_, ?_, ?_, ?_⟩
  · intro heightBytes hash h1 h2
    simp only [NewBlockingAtomicTrie, h1, h2]
  · intro h1
    simp [NewBlockingAtomicTrie, h1, trieNew]
  · intro h1
    simp [NewBlockingAtomicTrie, h1]
  · intro heightBytes h1 h2
    rcases h2 with h2 | h2 <;> simp [NewBlockingAtomicTrie, h1, h2, trieNew]

theorem new_trie_starting_root_witness :
    NewBlockingAtomicTrie exTrieEnv exCommitted.db exCommitted.trieDB [] =
      .ok ⟨commitHeightInterval, exCommitted.db, exCommitted.trieDB,
        [(PutUint64 4096 ++ exChain 1, [1, 1])], [], some []⟩ ∧
    NewBlockingAtomicTrie exTrieEnv [] [] [] = .ok ⟨commitHeightInterval, [], [], [], [], some []⟩ ∧
    NewBlockingAtomicTrie exFailEnv exCommitted.db exCommitted.trieDB [] = .error .dbFailed ∧
    NewBlockingAtomicTrie exTrieEnv [(lastCommittedKey, PutUint64 4096)] [] [] =
      .ok ⟨commitHeightInterval, [(lastCommittedKey, PutUint64 4096)], [], [], [], some []⟩ ∧
    NewBlockingAtomicTrie exRootFailEnv exCommitted.db exCommitted.trieDB [] =
      .ok ⟨commitHeightInterval, exCommitted.db, exCommitted.trieDB, [], [], some []⟩ :=
  ⟨((new_trie_starting_root exTrieEnv exCommitted.db exCommitted.trieDB []).1
      (PutUint64 4096) (exTrieEnv.rootHash [(PutUint64 4096 ++ exChain 1, [1, 1])]).val
      (by decide) (by decide)).trans rfl,
    (new_trie_starting_root exTrieEnv [] [] []).2.1 (by decide),
    (new_trie_starting_root exFailEnv exCommitted.db exCommitted.trieDB []).2.2.1 (by decide),
    (new_trie_starting_root exTrieEnv [(lastCommittedKey, PutUint64 4096)] [] []).2.2.2
      (PutUint64 4096) (by decide) (Or.inl (by decide)),
    (new_trie_starting_root exRootFailEnv exCommitted.db exCommitted.trieDB []).2.2.2
      (PutUint64 4096) (by decide) (Or.inr (by decide))⟩

/-! ## Unknown atomic transactions -/

/-- A non-bonus block whose atomic transaction is neither an Import nor
an Export, and whose parent is a stored block with status Processing or
Accepted. `Verify` returns (with any fuel) without calling `SemanticVerify`,
`Process` or `InsertChain`, and without inspecting any ancestor; its error is
`errUnknownAtomicTx` exactly when the checks placed before the type switch
pass (syntactic verification, `HasBlock` for the parent, `BlockState` of the
parent), and the error of the first of these checks that fails otherwise. -/
theorem Verify_unknown_kind (vm : VM) (s : VMState) (fuel : Nat) (b p : Block) (tx : Tx)
    (htx : vm.extractAtomicTx b.ethBlock = .tx tx)
    (hkind : tx.kind = .other)
    (hbonus : vm.bonusBlocks.contains b.id = false)
    (hparent : Parent vm b = .block p)
    (hstatus : p.status = .Processing ∨ p.status = .Accepted) :
    ∃ r, Verify vm s fuel b = some r ∧
      (vm.SyntacticVerify b = true → vm.HasBlock p.id (prevHeight b) = true →
        vm.BlockState p.ethBlock = true → r.err = some .errUnknownAtomicTx) ∧
      (vm.SyntacticVerify b = false → r.err = some .syntacticFailed) ∧
      (vm.SyntacticVerify b = true → vm.HasBlock p.id (prevHeight b) = false →
        r.err = some .errRejectedParent) ∧
      (vm.SyntacticVerify b = true → vm.HasBlock p.id (prevHeight b) = true →
        vm.BlockState p.ethBlock = false → r.err = some .blockStateFailed) ∧
      (∀ t, Event.semanticVerify t ∉ r.trace) ∧
      (∀ h, Event.process h ∉ r.trace) ∧
      (∀ h, Event.insertChain h ∉ r.trace) ∧
      inspected r.trace = [] ∧
      r.state = s ∧ r.block = b := by
  have hb : b.id ∉ vm.bonusBlocks := by simpa using hbonus
  have hur : unknownOrRejected p.status = false := by
    rcases hstatus with h | h <;> rw [h] <;> rfl
  by_cases hs : vm.SyntacticVerify b = true
  swap
  · simp [Verify, hs, inspected]
  by_cases hh : vm.HasBlock p.id (prevHeight b) = true
  swap
  · simp [Verify, hs, hh, hparent, ParentBlock.ID, inspected]
  by_cases hbs : vm.BlockState p.ethBlock = true
  swap
  · simp [Verify, hs, hh, hparent, ParentBlock.ID, ParentBlock.Status, htx, hur, hbs, inspected]
  simp [Verify, hs, hh, hparent, ParentBlock.ID, ParentBlock.Status, htx, hur, hbs, hb, hkind,
    inspected]

/-- C25, as stated, fails: block 20 is not bonus-listed, its parent (block 1)
is stored with status Processing, and its atomic transaction is neither an
Import nor an Export; yet `Verify` returns the error of the syntactic
verification when the block is malformed, `errRejectedParent` when the chain
does not hold the parent, and the error of `BlockState` when the state of the
parent cannot be retrieved: these checks come before the type switch. -/
theorem verify_unknown_tx_earlier_checks_first :
    exVMOther.bonusBlocks.contains exBlk20.id = false ∧
    exVMOther.extractAtomicTx exBlk20.ethBlock = .tx ⟨120, .other, [7]⟩ ∧
    Parent exVMOther exBlk20 = .block exBlk1 ∧ exBlk1.status = .Processing ∧
    (Verify exVMOtherMalformed exState 0 exBlk20).map (fun r => r.err) =
      some (some .syntacticFailed) ∧
    (Verify exVMOtherNoParent exState 0 exBlk20).map (fun r => r.err) =
      some (some .errRejectedParent) ∧
    (Verify exVMOtherNoState exState 0 exBlk20).map (fun r => r.err) =
      some (some .blockStateFailed) := by
  refine ⟨by decide, by decide, by decide, by decide, by decide, by decide, by decide⟩

/-- C25 (amended): a non-bonus block that passes the syntactic verification,
whose parent is a stored block with status Processing or Accepted that the
chain holds (`HasBlock`) and whose state is retrieved (`BlockState`), and
whose atomic transaction is neither an Import nor an Export. `Verify` returns
(with any fuel) `errUnknownAtomicTx`, without calling `SemanticVerify`,
`Process` or `InsertChain` and without inspecting any ancestor. -/
theorem verify_unknown_atomic_tx (vm : VM) (s : VMState) (fuel : Nat) (b p : Block) (tx : Tx)
    (htx : vm.extractAtomicTx b.ethBlock = .tx tx)
    (hkind : tx.kind = .other)
    (hbonus : vm.bonusBlocks.contains b.id = false)
    (hparent : Parent vm b = .block p)
    (hstatus : p.status = .Processing ∨ p.status = .Accepted)
    (hsyn : vm.SyntacticVerify b = true)
    (hhas : vm.HasBlock p.id (prevHeight b) = true)
    (hbs : vm.BlockState p.ethBlock = true) :
    ∃ r, Verify vm s fuel b = some r ∧
      r.err = some .errUnknownAtomicTx ∧
      (∀ t, Event.semanticVerify t ∉ r.trace) ∧
      (∀ h, Event.process h ∉ r.trace) ∧
      (∀ h, Event.insertChain h ∉ r.trace) ∧
      inspected r.trace = [] ∧
      r.state = s ∧ r.block = b := by
  obtain ⟨r, h, h1, _, _, _, h5, h6, h7, h8, h9⟩ :=
    Verify_unknown_kind vm s fuel b p tx htx hkind hbonus hparent hstatus
  exact ⟨r, h, h1 hsyn hhas hbs, h5, h6, h7, h8, h9⟩

theorem verify_unknown_atomic_tx_witness :
    ∃ r, Verify exVMOther exState 0 exBlk20 = some r ∧
      r.err = some .errUnknownAtomicTx ∧
      (∀ t, Event.semanticVerify t ∉ r.trace) ∧
      (∀ h, Event.process h ∉ r.trace) ∧
      (∀ h, Event.insertChain h ∉ r.trace) ∧
      inspected r.trace = [] ∧
      r.state = exState ∧ r.block = exBlk20 :=
  verify_unknown_atomic_tx exVMOther exState 0 exBlk20 exBlk1 ⟨120, .other, [7]⟩
    (by decide) (by decide) (by decide) (by decide) (Or.inl (by decide)) (by decide)
    (by decide) (by decide)

/-! ## Sorted and unique inputs -/

theorem bytesCompare_ne_zero (a b : Bytes) : bytesCompare a b ≠ 0 ↔ a ≠ b := by
  unfold bytesCompare
  by_cases h : a = b
  · simp [h]
  · by_cases hl : bytesLt a b = true <;> simp [h, hl]

theorem bytesCompare_neg (a b : Bytes) : bytesCompare a b < 0 ↔ bytesLt a b = true := by
  unfold bytesCompare
  by_cases h : a = b
  · subst h
    simp [bytesLt_irrefl]
  · by_cases hl : bytesLt a b = true <;> simp [h, hl]

/-- The comparison of two inputs: by address, then by asset identifier. -/
theorem inputLess_iff (a b : EVMInput) :
    inputLess a b = true ↔
      bytesLt a.Address b.Address = true ∨
        (a.Address = b.Address ∧ bytesLt a.AssetID b.AssetID = true) := by
  unfold inputLess
  by_cases h : a.Address = b.Address
  · have h0 : ¬ bytesCompare a.Address b.Address ≠ 0 := by
      rw [bytesCompare_ne_zero]
      exact fun hne => hne h
    rw [if_neg h0]
    simp only [decide_eq_true_eq, bytesCompare_neg]
    constructor
    · intro hl
      exact Or.inr ⟨h, hl⟩
    · rintro (hl | ⟨_, hl⟩)
      · rw [h, bytesLt_irrefl] at hl
        cases hl
      · exact hl
  · have h0 : bytesCompare a.Address b.Address ≠ 0 := (bytesCompare_ne_zero _ _).2 h
    rw [if_pos h0]
    simp only [decide_eq_true_eq, bytesCompare_neg]
    constructor
    · exact Or.inl
    · rintro (hl | ⟨he, _⟩)
      · exact hl
      · exact absurd he h

theorem inputLess_trans (a b c : EVMInput) (hab : inputLess a b = true)
    (hbc : inputLess b c = true) : inputLess a c = true := by
  rw [inputLess_iff] at hab hbc ⊢
  rcases hab with h1 | ⟨e1, h1⟩
  · rcases hbc with h2 | ⟨e2, _⟩
    · exact Or.inl (bytesLt_trans _ _ _ h1 h2)
    · exact Or.inl (e2 ▸ h1)
  · rcases hbc with h2 | ⟨e2, h2⟩
    · exact Or.inl (e1 ▸ h2)
    · exact Or.inr ⟨e1.trans e2, bytesLt_trans _ _ _ h1 h2⟩

/-- The loop of `IsSortedAndUnique` succeeds when every position below the
start precedes its successor. -/
theorem IsSortedAndUniqueLoop_iff (less : Nat → Nat → Bool) :
    ∀ n, IsSortedAndUniqueLoop less n = true ↔ ∀ i, i < n → less i (i + 1) = true := by
  intro n
  induction n with
  | zero => simp [IsSortedAndUniqueLoop]
  | succ n ih =>
    simp only [IsSortedAndUniqueLoop]
    by_cases hl : less n (n + 1) = true
    · simp only [hl, Bool.not_true, Bool.false_eq_true, if_false, ih]
      constructor
      · intro h i hi
        by_cases hin : i = n
        · subst hin
          exact hl
        · exact h i (by omega)
      · intro h i hi
        exact h i (by omega)
    · simp only [hl, Bool.not_false, if_true, Bool.false_eq_true, false_iff]
      intro h
      exact hl (h n (by omega))

/-- The function `IsSortedAndUniqueEVMInputs` on a list with two inputs or
more. -/
theorem IsSortedAndUniqueEVMInputs_cons (a b : EVMInput) (rest : List EVMInput) :
    IsSortedAndUniqueEVMInputs (a :: b :: rest) = true ↔
      inputLess a b = true ∧ IsSortedAndUniqueEVMInputs (b :: rest) = true := by
  simp only [IsSortedAndUniqueEVMInputs, IsSortedAndUnique, List.length_cons,
    Nat.add_sub_cancel, IsSortedAndUniqueLoop_iff]
  constructor
  · intro h
    refine ⟨by simpa [innerSortInputsAndSigners.Less] using h 0 (by omega), ?_⟩
    intro i hi
    have := h (i + 1) (by omega)
    simpa [innerSortInputsAndSigners.Less] using this
  · rintro ⟨h0, h⟩ i hi
    cases i with
    | zero => simpa [innerSortInputsAndSigners.Less] using h0
    | succ i =>
      have := h i (by omega)
      simpa [innerSortInputsAndSigners.Less] using this

theorem IsSortedAndUniqueEVMInputs_chain :
    ∀ inputs : List EVMInput,
      IsSortedAndUniqueEVMInputs inputs = true ↔
        inputs.Chain' (fun a b => inputLess a b = true) := by
  intro inputs
  induction inputs with
  | nil => simp [IsSortedAndUniqueEVMInputs, IsSortedAndUnique, IsSortedAndUniqueLoop]
  | cons a l ih =>
    cases l with
    | nil => simp [IsSortedAndUniqueEVMInputs, IsSortedAndUnique, IsSortedAndUniqueLoop]
    | cons b rest =>
      rw [IsSortedAndUniqueEVMInputs_cons, List.chain'_cons, ih]

/-- C26, as stated, fails: two inputs with the same address and the asset
identifiers 1 and 2 are accepted, although their addresses do not strictly
increase. -/
theorem sorted_unique_accepts_same_address :
    IsSortedAndUniqueEVMInputs exSameAddress = true ∧
    ¬ addressesIncrease exSameAddress ∧
    ¬ (exSameAddress.map (fun i => i.Address)).Nodup := by
  refine ⟨by decide, ?_, ?_⟩
  · simp [addressesIncrease, exSameAddress, bytesLt_irrefl]
  · simp [exSameAddress]

/-- C26 (amended): `IsSortedAndUniqueEVMInputs` returns true exactly when the
inputs strictly increase in the order that compares the addresses first and
the asset identifiers when the addresses are equal: every input precedes
every later one in that order. Strictly increasing addresses are sufficient,
not necessary; the pairs of address and asset identifier of an accepted list
are distinct and its addresses never decrease. -/
theorem sorted_unique_inputs_by_address_then_asset (inputs : List EVMInput) :
    (IsSortedAndUniqueEVMInputs inputs = true ↔
      inputs.Pairwise (fun a b =>
        bytesLt a.Address b.Address = true ∨
          (a.Address = b.Address ∧ bytesLt a.AssetID b.AssetID = true))) ∧
    (addressesIncrease inputs → IsSortedAndUniqueEVMInputs inputs = true) ∧
    (IsSortedAndUniqueEVMInputs inputs = true →
      (inputs.map (fun i => (i.Address, i.AssetID))).Nodup ∧
      inputs.Pairwise (fun a b => bytesLt b.Address a.Address = false)) := by
  haveI : IsTrans EVMInput (fun a b => inputLess a b = true) :=
    ⟨fun a b c => inputLess_trans a b c⟩
  have hpw : IsSortedAndUniqueEVMInputs inputs = true ↔
      inputs.Pairwise (fun a b =>
        bytesLt a.Address b.Address = true ∨
          (a.Address = b.Address ∧ bytesLt a.AssetID b.AssetID = true)) := by
    rw [IsSortedAndUniqueEVMInputs_chain, List.chain'_iff_pairwise]
    constructor
    · intro h
      exact h.imp (fun hab => (inputLess_iff _ _).1 hab)
    · intro h
      exact h.imp (fun hab => (inputLess_iff _ _).2 hab)
  refine ⟨hpw, ?_, ?_⟩
  · intro h
    rw [IsSortedAndUniqueEVMInputs_chain]
    exact List.Chain'.imp (fun a b hab => (inputLess_iff a b).2 (Or.inl hab)) h
  · intro h
    have hp := hpw.1 h
    constructor
    · rw [List.Nodup, List.pairwise_map]
      refine hp.imp ?_
      intro a b hab heq
      have h1 : a.Address = b.Address := congrArg Prod.fst heq
      have h2 : a.AssetID = b.AssetID := congrArg Prod.snd heq
      rcases hab with hl | ⟨_, hl⟩
      · rw [h1, bytesLt_irrefl] at hl
        cases hl
      · rw [h2, bytesLt_irrefl] at hl
        cases hl
    · refine hp.imp ?_
      intro a b hab
      rcases hab with hl | ⟨he, _⟩
      · exact bytesLt_asymm _ _ hl
      · rw [he, bytesLt_irrefl]

theorem sorted_unique_inputs_by_address_then_asset_witness :
    IsSortedAndUniqueEVMInputs exIncreasing = true ∧
    (exSameAddress.map (fun i => (i.Address, i.AssetID))).Nodup ∧
    IsSortedAndUniqueEVMInputs exIncreasing.reverse = false :=
  ⟨(sorted_unique_inputs_by_address_then_asset exIncreasing).2.1
      (List.chain'_pair.2 (by decide)),
    ((sorted_unique_inputs_by_address_then_asset exSameAddress).2.2 (by decide)).1,
    by decide⟩

/-! ## The dynamic fee -/

/-- The value `calculateDynamicFee` returns for a non-negative base fee. -/
theorem calculateDynamicFee_eq (gas baseFee : Nat) :
    calculateDynamicFee gas (baseFee : Int) =
      ((gas * baseFee / 1000000000) % 2 ^ 64, none) := by
  have h : ((gas : Int) * (baseFee : Int) / x2cRate).natAbs = gas * baseFee / 1000000000 := by
    have h2 : (gas : Int) * (baseFee : Int) / x2cRate =
        ((gas * baseFee / 1000000000 : Nat) : Int) := by
      unfold x2cRate
      push_cast
      rfl
    rw [h2, Int.natAbs_ofNat]
  simp only [calculateDynamicFee, h]

/-- C27: for a non-negative base fee `calculateDynamicFee` returns no error;
its value is the quotient `gas * baseFee / 10^9` rounded down whenever this
quotient is below 2^64, and the quotient modulo 2^64 in general, so that a
quotient of 2^64 or more comes back truncated, still without error; where the
quotient of the larger argument is below 2^64 the value does not decrease
when `gas` or `baseFee` grows. -/
theorem dynamic_fee_floor_and_truncation (gas baseFee : Nat) :
    (calculateDynamicFee gas (baseFee : Int)).2 = none ∧
    (calculateDynamicFee gas (baseFee : Int)).1 = (gas * baseFee / 10 ^ 9) % 2 ^ 64 ∧
    (gas * baseFee / 10 ^ 9 < 2 ^ 64 →
      (calculateDynamicFee gas (baseFee : Int)).1 = gas * baseFee / 10 ^ 9) ∧
    (2 ^ 64 ≤ gas * baseFee / 10 ^ 9 →
      (calculateDynamicFee gas (baseFee : Int)).1 < gas * baseFee / 10 ^ 9) ∧
    (∀ gas2, gas ≤ gas2 → gas2 * baseFee / 10 ^ 9 < 2 ^ 64 →
      (calculateDynamicFee gas (baseFee : Int)).1 ≤
        (calculateDynamicFee gas2 (baseFee : Int)).1) ∧
    (∀ baseFee2 : Nat, baseFee ≤ baseFee2 → gas * baseFee2 / 10 ^ 9 < 2 ^ 64 →
      (calculateDynamicFee gas (baseFee : Int)).1 ≤
        (calculateDynamicFee gas (baseFee2 : Int)).1) := by
  have h9 : (10 : Nat) ^ 9 = 1000000000 := by norm_num
  simp only [calculateDynamicFee_eq, h9]
  refine ⟨trivial, trivial, ?_, ?_, ?_, ?_⟩
  · intro h
    exact Nat.mod_eq_of_lt h
  · intro h
    exact lt_of_lt_of_le (Nat.mod_lt _ (by norm_num)) h
  · intro gas2 hle h2
    have hq : gas * baseFee / 1000000000 ≤ gas2 * baseFee / 1000000000 :=
      Nat.div_le_div_right (Nat.mul_le_mul_right _ hle)
    rw [Nat.mod_eq_of_lt h2, Nat.mod_eq_of_lt (lt_of_le_of_lt hq h2)]
    exact hq
  · intro baseFee2 hle h2
    have hq : gas * baseFee / 1000000000 ≤ gas * baseFee2 / 1000000000 :=
      Nat.div_le_div_right (Nat.mul_le_mul_left _ hle)
    rw [Nat.mod_eq_of_lt h2, Nat.mod_eq_of_lt (lt_of_le_of_lt hq h2)]
    exact hq

theorem dynamic_fee_floor_and_truncation_witness :
    calculateDynamicFee 21000 225000000000 = (4725000, none) ∧
    calculateDynamicFee (2 ^ 64 - 1) 2000000000 = (2 ^ 64 - 2, none) ∧
    ((2 ^ 64 - 1) * 2000000000 / 10 ^ 9 = 2 * (2 ^ 64 - 1)) ∧
    (calculateDynamicFee 21000 ((225000000000 : Nat) : Int)).1 ≤
      (calculateDynamicFee 42000 ((225000000000 : Nat) : Int)).1 :=
  ⟨by decide, by decide, by norm_num,
    (dynamic_fee_floor_and_truncation 21000 225000000000).2.2.2.2.1 42000 (by norm_num)
      (by norm_num)⟩

/-! ## Termination of the ancestor loop -/

/-- The method `Parent` always returns: a stored block, or the missing block,
whose status is Unknown. -/
theorem Parent_total (vm : VM) (b : Block) :
    (∃ p, vm.GetBlockInternal b.ethBlock.parentHash = some p ∧ Parent vm b = .block p) ∨
    (vm.GetBlockInternal b.ethBlock.parentHash = none ∧
      Parent vm b = .missing b.ethBlock.parentHash ∧ (Parent vm b).Status = .Unknown) := by
  unfold Parent
  cases h : vm.GetBlockInternal b.ethBlock.parentHash with
  | none => exact Or.inr ⟨rfl, rfl, rfl⟩
  | some p => exact Or.inl ⟨p, rfl, rfl⟩

/-- One turn of the ancestor loop at an ancestor that is not Accepted and
whose atomic transaction is extracted without error. -/
theorem conflictWalk_step (vm : VM) (inputs : List ID) (fuel : Nat) (ancestor : Block)
    (hacc : ancestor.status ≠ .Accepted)
    (hx : vm.extractAtomicTx ancestor.ethBlock ≠ .error) :
    conflictWalk vm inputs (fuel + 1) ancestor =
      if conflictsWith inputs (vm.extractAtomicTx ancestor.ethBlock) then
        some (some .errConflictingAtomicInputs, [.ancestorTx ancestor.id])
      else if unknownOrRejected (Parent vm ancestor).Status then
        some (some .errRejectedParent,
          [Event.ancestorTx ancestor.id, .getBlock ancestor.ethBlock.parentHash])
      else
        match Parent vm ancestor with
        | .missing _ => some (some .notBlock,
            [Event.ancestorTx ancestor.id, .getBlock ancestor.ethBlock.parentHash])
        | .block next =>
          (conflictWalk vm inputs fuel next).map (fun r =>
            (r.1, [Event.ancestorTx ancestor.id,
              .getBlock ancestor.ethBlock.parentHash] ++ r.2)) := by
  rw [conflictWalk_succ]
  simp only [hacc, if_false]

/-- The ancestor loop started at a stored block of height below `n`, in a
store where parent references lower the height. -/
theorem conflictWalk_terminates (vm : VM) (inputs : List ID)
    (hdec : ∀ i b p, vm.GetBlockInternal i = some b → Parent vm b = .block p →
      Height p < Height b) :
    ∀ (n : Nat) (b p0 : Block), Height p0 < n → Parent vm b = .block p0 →
      ∃ (err : Option Error) (calls : List Event) (ps : List Block) (last : Block),
        (∀ fuel, Height p0 < fuel → conflictWalk vm inputs fuel p0 = some (err, calls)) ∧
        IsChain vm b (ps ++ [last]) ∧
        ps.length ≤ Height p0 ∧
        inspected calls = (if err = none then ps else ps ++ [last]).map (fun p => p.id) ∧
        (∀ p ∈ ps, p.status ≠ .Accepted ∧ vm.extractAtomicTx p.ethBlock ≠ .error ∧
          conflictsWith inputs (vm.extractAtomicTx p.ethBlock) = false) ∧
        ((err = none ∧ last.status = .Accepted) ∨
          (err = some .errConflictingAtomicInputs ∧ last.status ≠ .Accepted ∧
            conflictsWith inputs (vm.extractAtomicTx last.ethBlock) = true) ∨
          (err = some .errRejectedParent ∧ last.status ≠ .Accepted ∧
            vm.extractAtomicTx last.ethBlock ≠ .error ∧
            conflictsWith inputs (vm.extractAtomicTx last.ethBlock) = false ∧
            unknownOrRejected (Parent vm last).Status = true) ∨
          (err = some .ancestorParseFailed ∧ last.status ≠ .Accepted ∧
            vm.extractAtomicTx last.ethBlock = .error)) := by
  intro n
  induction n with
  | zero =>
    intro b p0 h _
    omega
  | succ n ih =>
    intro b p0 hn hp0
    have hstored : vm.GetBlockInternal b.ethBlock.parentHash = some p0 := by
      unfold Parent at hp0
      cases hg : vm.GetBlockInternal b.ethBlock.parentHash with
      | none => simp [hg] at hp0
      | some q =>
        simp only [hg, ParentBlock.block.injEq] at hp0
        rw [hp0]
    have hfuel : ∀ fuel, Height p0 < fuel → ∃ f, fuel = f + 1 ∧ Height p0 ≤ f :=
      fun fuel h => ⟨fuel - 1, by omega, by omega⟩
    by_cases hacc : p0.status = .Accepted
    · refine ⟨none, [], [], p0, ?_, ⟨hp0, trivial⟩, by simp, by simp [inspected], by simp,
        Or.inl ⟨rfl, hacc⟩⟩
      intro fuel hf
      obtain ⟨f, rfl, _⟩ := hfuel fuel hf
      rw [conflictWalk_succ]
      simp [hacc]
    by_cases hx : vm.extractAtomicTx p0.ethBlock = .error
    · refine ⟨some .ancestorParseFailed, [.ancestorTx p0.id], [], p0, ?_, ⟨hp0, trivial⟩,
        by simp, by simp [inspected], by simp, Or.inr (Or.inr (Or.inr ⟨rfl, hacc, hx⟩))⟩
      intro fuel hf
      obtain ⟨f, rfl, _⟩ := hfuel fuel hf
      rw [conflictWalk_succ]
      simp [hacc, hx]
    by_cases hc : conflictsWith inputs (vm.extractAtomicTx p0.ethBlock) = true
    · refine ⟨some .errConflictingAtomicInputs, [.ancestorTx p0.id], [], p0, ?_,
        ⟨hp0, trivial⟩, by simp, by simp [inspected], by simp,
        Or.inr (Or.inl ⟨rfl, hacc, hc⟩)⟩
      intro fuel hf
      obtain ⟨f, rfl, _⟩ := hfuel fuel hf
      rw [conflictWalk_step vm inputs f p0 hacc hx]
      simp [hc]
    have hc2 : conflictsWith inputs (vm.extractAtomicTx p0.ethBlock) = false := by
      simpa using hc
    by_cases hur : unknownOrRejected (Parent vm p0).Status = true
    · refine ⟨some .errRejectedParent,
        [.ancestorTx p0.id, .getBlock p0.ethBlock.parentHash], [], p0, ?_,
        ⟨hp0, trivial⟩, by simp, by simp [inspected], by simp,
        Or.inr (Or.inr (Or.inl ⟨rfl, hacc, hx, hc2, hur⟩))⟩
      intro fuel hf
      obtain ⟨f, rfl, _⟩ := hfuel fuel hf
      rw [conflictWalk_step vm inputs f p0 hacc hx]
      simp [hc2, hur]
    rcases Parent_total vm p0 with ⟨p1, _, hp1⟩ | ⟨_, _, hst⟩
    swap
    · rw [hst] at hur
      exact absurd rfl hur
    have hlt : Height p1 < Height p0 := hdec _ p0 p1 hstored hp1
    obtain ⟨err, calls, ps, last, hrun, hchain, hlen, hins, hps, hend⟩ :=
      ih p0 p1 (by omega) hp1
    refine ⟨err, [.ancestorTx p0.id, .getBlock p0.ethBlock.parentHash] ++ calls, p0 :: ps,
      last, ?_, ⟨hp0, hchain⟩, by simp only [List.length_cons]; omega, ?_, ?_, hend⟩
    · intro fuel hf
      obtain ⟨f, rfl, hle⟩ := hfuel fuel hf
      have hur2 : unknownOrRejected (ParentBlock.block p1).Status = false := by
        rw [hp1] at hur
        simpa using hur
      rw [conflictWalk_step vm inputs f p0 hacc hx]
      simp [hc2, hur2, hp1, hrun f (by omega)]
    · by_cases he : err = none
      · simp only [he, if_true] at hins ⊢
        simp [inspected, hins]
      · simp only [he, if_false] at hins ⊢
        simp [inspected, hins]
    · intro p hp
      simp only [List.mem_cons] at hp
      rcases hp with rfl | hp
      · exact ⟨hacc, hx, hc2⟩
      · exact hps p hp

/-- C28 (amended): in a store where following a parent reference lowers the height, the
ancestor loop of `Verify`, started at the parent `p0` of `b`, returns as soon
as the fuel exceeds the height of `p0`, and so does `Verify`. It visited the
ancestors `ps` then `last`, successive parents from `p0` on, at most one per
unit of height: none of `ps` is Accepted or conflicts, and the loop ended at
`last` either because `last` is Accepted (the first such ancestor: no error),
or with `errConflictingAtomicInputs` because `last` conflicts, or with
`errRejectedParent` because the parent of `last` is missing (status Unknown)
or has status Unknown or Rejected, or with the parse error when the atomic
transaction of `last` cannot be extracted; when every extraction succeeds only
the first three remain. `Parent` always returns, a stored block or the missing
block. -/
theorem ancestor_walk_terminates (vm : VM) (inputs : List ID)
    (hdec : ∀ i b p, vm.GetBlockInternal i = some b → Parent vm b = .block p →
      Height p < Height b)
    (b p0 : Block) (hp0 : Parent vm b = .block p0) :
    (∃ (err : Option Error) (calls : List Event) (ps : List Block) (last : Block),
      (∀ fuel, Height p0 < fuel → conflictWalk vm inputs fuel p0 = some (err, calls)) ∧
      IsChain vm b (ps ++ [last]) ∧
      ps.length ≤ Height p0 ∧
      inspected calls = (if err = none then ps else ps ++ [last]).map (fun p => p.id) ∧
      (∀ p ∈ ps, p.status ≠ .Accepted ∧ vm.extractAtomicTx p.ethBlock ≠ .error ∧
        conflictsWith inputs (vm.extractAtomicTx p.ethBlock) = false) ∧
      ((err = none ∧ last.status = .Accepted) ∨
        (err = some .errConflictingAtomicInputs ∧ last.status ≠ .Accepted ∧
          conflictsWith inputs (vm.extractAtomicTx last.ethBlock) = true) ∨
        (err = some .errRejectedParent ∧ last.status ≠ .Accepted ∧
          vm.extractAtomicTx last.ethBlock ≠ .error ∧
          conflictsWith inputs (vm.extractAtomicTx last.ethBlock) = false ∧
          unknownOrRejected (Parent vm last).Status = true) ∨
        (err = some .ancestorParseFailed ∧ last.status ≠ .Accepted ∧
          vm.extractAtomicTx last.ethBlock = .error)) ∧
      (vm.extractAtomicTx last.ethBlock ≠ .error →
        err = none ∨ err = some .errConflictingAtomicInputs ∨
          err = some .errRejectedParent)) ∧
    (∀ s fuel, Height p0 < fuel → ∃ r, Verify vm s fuel b = some r) ∧
    (∀ c : Block,
      (∃ p, Parent vm c = .block p) ∨
        (Parent vm c = .missing c.ethBlock.parentHash ∧ (Parent vm c).Status = .Unknown)) := by
  refine ⟨?_, ?_, ?_⟩
  · obtain ⟨err, calls, ps, last, h1, h2, h3, h4, h5, h6⟩ :=
      conflictWalk_terminates vm inputs hdec (Height p0 + 1) b p0 (by omega) hp0
    refine ⟨err, calls, ps, last, h1, h2, h3, h4, h5, h6, ?_⟩
    intro hx
    rcases h6 with h | h | h | h
    · exact Or.inl h.1
    · exact Or.inr (Or.inl h.1)
    · exact Or.inr (Or.inr h.1)
    · exact absurd h.2.2 hx
  · intro s fuel hf
    rcases Verify_walk_or_not vm s fuel b with ⟨r, h1, _⟩ | ⟨p, tx, hp, _, _, _, hv⟩
    · exact ⟨r, h1⟩
    · rw [hp0] at hp
      cases hp
      obtain ⟨err, calls, _, _, h1, _⟩ :=
        conflictWalk_terminates vm tx.inputs hdec (Height p0 + 1) b p0 (by omega) hp0
      rw [hv, h1 fuel hf]
      cases err with
      | none => exact ⟨_, rfl⟩
      | some e => exact ⟨_, rfl⟩
  · intro c
    rcases Parent_total vm c with ⟨p, _, hp⟩ | ⟨_, h1, h2⟩
    · exact Or.inl ⟨p, hp⟩
    · exact Or.inr ⟨h1, h2⟩

theorem exVMRoot_heights :
    ∀ i b p, exVMRoot.GetBlockInternal i = some b → Parent exVMRoot b = .block p →
      Height p < Height b := by
  intro i b p hb hp
  have hcases : b = exBlkRoot ∨ b = exBlk1 ∨ b = exBlk5 ∨ b = exBlk9 := by
    simp only [exVMRoot] at hb
    split_ifs at hb <;> simp at hb <;> simp [hb]
  rcases hcases with rfl | rfl | rfl | rfl
  · simp [Parent, exVMRoot, exBlkRoot] at hp
  · have : p = exBlkRoot := by
      simp [Parent, exVMRoot, exBlk1] at hp
      exact hp.symm
    subst this
    decide
  · have : p = exBlk1 := by
      simp [Parent, exVMRoot, exBlk5] at hp
      exact hp.symm
    subst this
    decide
  · have : p = exBlk1 := by
      simp [Parent, exVMRoot, exBlk9] at hp
      exact hp.symm
    subst this
    decide

/-- C28, as stated, fails: in `exVMParseFail` every parent reference lowers
the height, and the loop started at block 5, the parent of block 7, ends at
block 1 with the parse error, which is none of the three exits of the claim;
`Verify` of block 7 returns this error. -/
theorem ancestor_walk_ends_with_parse_error :
    (∀ i b p, exVMParseFail.GetBlockInternal i = some b →
      Parent exVMParseFail b = .block p → Height p < Height b) ∧
    Parent exVMParseFail exBlk7 = .block exBlk5 ∧
    conflictWalk exVMParseFail [9] 3 exBlk5 =
      some (some .ancestorParseFailed, [.ancestorTx 5, .getBlock 1, .ancestorTx 1]) ∧
    (Verify exVMParseFail exState 3 exBlk7).map (fun r => r.err) =
      some (some .ancestorParseFailed) ∧
    Error.ancestorParseFailed ≠ .errConflictingAtomicInputs ∧
    Error.ancestorParseFailed ≠ .errRejectedParent := by
  refine ⟨?_, by decide, by decide, by decide, by decide, by decide⟩
  intro i b p hb hp
  exact exVMRoot_heights i b p hb hp

theorem ancestor_walk_terminates_witness :
    (∀ fuel, Height exBlk5 < fuel →
      ∃ r, Verify exVMRoot exState fuel exBlk7 = some r) ∧
    conflictWalk exVMRoot [9] 3 exBlk5 =
      some (none, [.ancestorTx 5, .getBlock 1, .ancestorTx 1, .getBlock 0]) :=
  ⟨(ancestor_walk_terminates exVMRoot [9] exVMRoot_heights exBlk7 exBlk5 (by decide)).2.1
      exState,
    by decide⟩

/-! ## The order of the leaf keys -/

/-- The order on two strings that start with blocks of equal length. -/
theorem bytesLt_append :
    ∀ (a b c d : Bytes), a.length = b.length →
      bytesLt (a ++ c) (b ++ d) = (bytesLt a b || (a == b && bytesLt c d)) := by
  intro a
  induction a with
  | nil =>
    intro b c d h
    cases b with
    | nil => simp [bytesLt]
    | cons y ys => simp at h
  | cons x xs ih =>
    intro b c d h
    cases b with
    | nil => simp at h
    | cons y ys =>
      simp only [List.length_cons, Nat.add_right_cancel_iff] at h
      simp only [List.cons_append, bytesLt, List.append_eq]
      rw [ih ys c d h]
      by_cases hxy : x = y
      · subst hxy
        simp
      · have hb : (x == y) = false := by simpa using hxy
        simp [hb, hxy]

/-- On byte strings of equal length the order `bytes.Compare` is the order of
the numbers they write in base 256, most significant byte first. -/
theorem bytesLt_bigEndian :
    ∀ (a b : Bytes), a.length = b.length → (∀ x ∈ a, x < 256) → (∀ y ∈ b, y < 256) →
      ∀ m n : Nat,
        (List.foldl (fun acc d => acc * 256 + d) m a <
            List.foldl (fun acc d => acc * 256 + d) n b ↔
          m < n ∨ (m = n ∧ bytesLt a b = true)) := by
  intro a
  induction a with
  | nil =>
    intro b h _ _ m n
    cases b with
    | nil => simp [bytesLt]
    | cons y ys => simp at h
  | cons x xs ih =>
    intro b h ha hb m n
    cases b with
    | nil => simp at h
    | cons y ys =>
      simp only [List.length_cons, Nat.add_right_cancel_iff] at h
      have hx : x < 256 := ha x (List.mem_cons_self _ _)
      have hy : y < 256 := hb y (List.mem_cons_self _ _)
      simp only [List.foldl_cons]
      rw [ih ys h (fun z hz => ha z (List.mem_cons_of_mem _ hz))
        (fun z hz => hb z (List.mem_cons_of_mem _ hz))]
      simp only [bytesLt, Bool.or_eq_true, decide_eq_true_eq, Bool.and_eq_true, beq_iff_eq]
      cases bytesLt xs ys
      · simp only [Bool.false_eq_true, and_false, or_false]
        omega
      · simp only [and_true]
        omega

/-- The order of the 8-byte big-endian encodings is the order of the
heights. -/
theorem bytesLt_PutUint64 (v w : Nat) (hv : v < 2 ^ 64) (hw : w < 2 ^ 64) :
    bytesLt (PutUint64 v) (PutUint64 w) = true ↔ v < w := by
  have hval : ∀ u, u < 2 ^ 64 →
      List.foldl (fun acc d => acc * 256 + d) 0 (PutUint64 u) = u := by
    intro u hu
    simp only [PutUint64, List.foldl_cons, List.foldl_nil]
    omega
  have hdig : ∀ u, ∀ x ∈ PutUint64 u, x < 256 := by
    intro u x hx
    simp only [PutUint64, List.mem_cons, List.mem_singleton, List.not_mem_nil, or_false] at hx
    rcases hx with rfl | rfl | rfl | rfl | rfl | rfl | rfl | rfl <;> exact Nat.mod_lt _ (by norm_num)
  have h := bytesLt_bigEndian (PutUint64 v) (PutUint64 w) rfl (hdig v) (hdig w) 0 0
  rw [hval v hv, hval w hw] at h
  simpa using h.symm

/-- C29: the leaf `updateTrie` writes for `(height, chain)` is stored under
the 8 big-endian bytes of the height followed by the chain identifier, 40
bytes for a 32-byte chain identifier. This key is smaller, in the order of
`bytes.Compare`, exactly when the height is smaller, or the heights are equal
and the chain identifier is smaller; two keys are equal exactly when the
heights and the chain identifiers are; and in a list of leaves in strictly
increasing key order the heights never decrease. -/
theorem leaf_key_order (h1 h2 : Nat) (c1 c2 : Bytes) (hh1 : h1 < 2 ^ 64) (hh2 : h2 < 2 ^ 64)
    (hc1 : c1.length = 32) (hc2 : c2.length = 32) :
    (∀ (env : TrieEnv) (trie : Leaves) (r : Requests) (v : Bytes), env.encode r = some v →
      updateTrie env trie h1 [(c1, r)] = (none, trieUpdate trie (PutUint64 h1 ++ c1) v) ∧
      (updateTrie env trie h1 [(c1, r)]).2.lookup (PutUint64 h1 ++ c1) = some v) ∧
    (PutUint64 h1 ++ c1).length = 40 ∧
    (PutUint64 h1 ++ c1).take 8 = PutUint64 h1 ∧
    (PutUint64 h1 ++ c1).drop 8 = c1 ∧
    (bytesLt (PutUint64 h1 ++ c1) (PutUint64 h2 ++ c2) = true ↔
      h1 < h2 ∨ (h1 = h2 ∧ bytesLt c1 c2 = true)) ∧
    (PutUint64 h1 ++ c1 = PutUint64 h2 ++ c2 ↔ h1 = h2 ∧ c1 = c2) ∧
    (∀ entries : List ((Nat × Bytes) × Bytes), (∀ e ∈ entries, e.1.1 < 2 ^ 64) →
      keySorted (entries.map (fun e => (PutUint64 e.1.1 ++ e.1.2, e.2))) →
      (entries.map (fun e => e.1.1)).Pairwise (fun a b => a ≤ b)) := by
  have hlt : ∀ (a b : Nat) (x y : Bytes), a < 2 ^ 64 → b < 2 ^ 64 →
      (bytesLt (PutUint64 a ++ x) (PutUint64 b ++ y) = true ↔
        a < b ∨ (a = b ∧ bytesLt x y = true)) := by
    intro a b x y ha hb
    rw [bytesLt_append (PutUint64 a) (PutUint64 b) x y rfl]
    simp only [Bool.or_eq_true, Bool.and_eq_true, beq_iff_eq, bytesLt_PutUint64 a b ha hb]
    constructor
    · rintro (h | ⟨he, h⟩)
      · exact Or.inl h
      · exact Or.inr ⟨PutUint64_inj a b ha hb he, h⟩
    · rintro (h | ⟨he, h⟩)
      · exact Or.inl h
      · exact Or.inr ⟨by rw [he], h⟩
  refine ⟨?_, ?_, ?_, ?_, hlt h1 h2 c1 c2 hh1 hh2, ?_, ?_⟩
  · intro env trie r v he
    refine ⟨by simp [updateTrie, he], ?_⟩
    simp [updateTrie, he, lookup_trieUpdate]
  · simp [PutUint64_length, hc1]
  · simp [PutUint64]
  · simp [PutUint64]
  · constructor
    · intro h
      have := List.append_inj h rfl
      exact ⟨PutUint64_inj h1 h2 hh1 hh2 this.1, this.2⟩
    · rintro ⟨rfl, rfl⟩
      rfl
  · intro entries hb hs
    unfold keySorted at hs
    rw [List.pairwise_map] at hs ⊢
    refine hs.imp_of_mem ?_
    intro a b ha hbm hab
    rcases (hlt a.1.1 b.1.1 a.1.2 b.1.2 (hb a ha) (hb b hbm)).1 hab with h | ⟨h, _⟩
    · exact Nat.le_of_lt h
    · exact Nat.le_of_eq h

theorem leaf_key_order_witness :
    (PutUint64 4096 ++ exChain 2).length = 40 ∧
    (bytesLt (PutUint64 4096 ++ exChain 2) (PutUint64 8192 ++ exChain 1) = true ↔
      4096 < 8192 ∨ (4096 = 8192 ∧ bytesLt (exChain 2) (exChain 1) = true)) ∧
    (PutUint64 4096 ++ exChain 2 = PutUint64 8192 ++ exChain 1 ↔
      4096 = 8192 ∧ exChain 2 = exChain 1) ∧
    bytesLt (PutUint64 255 ++ exChain 2) (PutUint64 256 ++ exChain 1) = true :=
  ⟨(leaf_key_order 4096 8192 (exChain 2) (exChain 1) (by norm_num) (by norm_num)
      (by decide) (by decide)).2.1,
    (leaf_key_order 4096 8192 (exChain 2) (exChain 1) (by norm_num) (by norm_num)
      (by decide) (by decide)).2.2.2.2.1,
    (leaf_key_order 4096 8192 (exChain 2) (exChain 1) (by norm_num) (by norm_num)
      (by decide) (by decide)).2.2.2.2.2.1,
    by decide⟩

/-! ## The gas of an atomic transaction -/

/-- The loop of `Tx.Gas`: it fails exactly when a credential is of another
type, and otherwise counts the signatures modulo 2^64. -/
theorem totalSignatures_facts :
    ∀ (Creds : List Credential) (total : Nat),
      (totalSignatures total Creds = none ↔ Credential.other ∈ Creds) ∧
      ∀ t, totalSignatures total Creds = some t →
        t % 2 ^ 64 = (total + (Creds.map Credential.signatures).sum) % 2 ^ 64 := by
  intro Creds
  induction Creds with
  | nil =>
    intro total
    simp [totalSignatures]
  | cons c Creds ih =>
    intro total
    cases c with
    | other => simp [totalSignatures]
    | secp Sigs =>
      have h := ih ((total + Sigs.length % 2 ^ 64) % 2 ^ 64)
      simp only [totalSignatures, List.mem_cons, false_or, List.map_cons, List.sum_cons,
        Credential.signatures, reduceCtorEq]
      refine ⟨h.1, ?_⟩
      intro t ht
      rw [h.2 t ht]
      omega

/-- C30: `Tx.Gas` fails exactly when some credential is not a
`*secp256k1fx.Credential`, and the gas it returns is then 0; otherwise it
returns no error and the gas of the unsigned transaction plus 21000 for each
signature of each credential, modulo 2^64. -/
theorem tx_gas_counts_signatures (unsignedTxGas : Nat) (Creds : List Credential) :
    SignatureFee = 21000 ∧
    ((Tx.Gas unsignedTxGas Creds).2 ≠ none ↔ Credential.other ∈ Creds) ∧
    (Credential.other ∈ Creds →
      Tx.Gas unsignedTxGas Creds = (0, some .notSecpCredential)) ∧
    (Credential.other ∉ Creds →
      Tx.Gas unsignedTxGas Creds =
        ((unsignedTxGas + SignatureFee * (Creds.map Credential.signatures).sum) % 2 ^ 64,
          none)) := by
  have h := totalSignatures_facts Creds 0
  refine ⟨rfl, ?_, ?_, ?_⟩
  · unfold Tx.Gas
    cases ht : totalSignatures 0 Creds with
    | none => simpa using h.1.1 ht
    | some t =>
      simp only [ne_eq, not_true_eq_false, false_iff]
      intro hm
      rw [h.1.2 hm] at ht
      cases ht
  · intro hm
    unfold Tx.Gas
    rw [h.1.2 hm]
  · intro hm
    unfold Tx.Gas
    cases ht : totalSignatures 0 Creds with
    | none => exact absurd (h.1.1 ht) hm
    | some t =>
      have := h.2 t ht
      simp only [SignatureFee, Prod.mk.injEq, and_true]
      omega

theorem tx_gas_counts_signatures_witness :
    Tx.Gas 11230 [.secp [[1], [2]], .secp [[3]]] = (74230, none) ∧
    Tx.Gas 11230 [.secp [[1], [2]], .other, .secp [[3]]] = (0, some .notSecpCredential) ∧
    Tx.Gas (2 ^ 64 - 1) [.secp [[1]]] = (20999, none) :=
  ⟨((tx_gas_counts_signatures 11230 [.secp [[1], [2]], .secp [[3]]]).2.2.2
      (by decide)).trans (by decide),
    (tx_gas_counts_signatures 11230 [.secp [[1], [2]], .other, .secp [[3]]]).2.2.1
      (by decide),
    ((tx_gas_counts_signatures (2 ^ 64 - 1) [.secp [[1]]]).2.2.2 (by decide)).trans
      (by decide)⟩

end Coreth
